import Mathlib

/-!
# ficblur: Gaussian blur by repeated box blurs

A shallow embedding of `fic.go` (package `ficblur`) and the properties proved about it.

Conventions of the embedding.

* Go `int` values are `Int`.  In `sigma2BoxDimension` and `mul3NonNeg`, where products of the
  arguments can leave the 64-bit range, every operation is wrapped with `wrap64`.  In the blur
  loops the integers are sums of at most `2 * boxRadius + 1` samples and pixel coordinates; they
  are left unwrapped.
* Go `float64` values are finite binary64 numbers `mant * 2 ^ exp` (`F64`).  Every arithmetic
  operation is the exact result rounded to 53 significant bits, ties to even.  The exponent
  range is not modelled: all values that occur lie between `2 ^ (-64)` and `2 ^ 64`.
* A run-time panic is `Except.error`; a function that mutates `*dst` returns the new value.
  These functions by value stand for calls whose source and destination are two different
  objects, each with a pixel buffer of its own (in `Gaussian` the destination always has one:
  `clone` allocates it).  Calls on pointers, in which the two may be one object, are the
  functions whose names end in `At`, on a `Heap` of two objects; `Gaussian_eq_GaussianAt` and
  the theorems named `_distinct` relate the two forms.
* `make` panics for a negative length and for more than `maxAlloc` bytes; an allocation
  within `maxAlloc` succeeds (running out of memory is not modelled).
* `src.Pix[i]` on `[]uint8` is a list lookup; capacity and length of a slice coincide.
-/

namespace Ficblur

/-! ## Panics -/

/-- The run-time panics that `fic.go` can raise. -/
inductive Panic where
  | nilDestination
  | indexOutOfRange
  | sliceBoundsOutOfRange
  | divideByZero
  | makeSliceLen
  deriving DecidableEq, Repr

/-- The text carried by a panic. -/
def Panic.message : Panic → String
  | .nilDestination => "destination image must not be nil"
  | .indexOutOfRange => "runtime error: index out of range"
  | .sliceBoundsOutOfRange => "runtime error: slice bounds out of range"
  | .divideByZero => "runtime error: integer divide by zero"
  | .makeSliceLen => "runtime error: makeslice: len out of range"

deriving instance DecidableEq for Except

/-! ## Machine integers -/

/-- Reduction of an integer to the signed 64-bit range (two's complement wrap-around). -/
def wrap64 (z : Int) : Int := (z + 2 ^ 63) % 2 ^ 64 - 2 ^ 63

/-- Go `x * y` on `int`. -/
def imul (x y : Int) : Int := wrap64 (x * y)

/-- Go `x + y` on `int`. -/
def iadd (x y : Int) : Int := wrap64 (x + y)

/-- Go `x - y` on `int`. -/
def isub (x y : Int) : Int := wrap64 (x - y)

/-- Go `x / y` on `int` for `y ≠ 0`: the quotient truncated toward zero. -/
def idiv (x y : Int) : Int := wrap64 (x.tdiv y)

/-! ## Binary64 arithmetic -/

/-- A finite binary64 value `mant * 2 ^ exp`. -/
structure F64 where
  mant : Int
  exp : Int
  deriving Repr

/-- Halving loop behind `ilog2`, with `fuel` steps available. -/
def ilog2Aux : Nat → Nat → Nat
  | 0, _ => 0
  | fuel + 1, n => if n < 2 then 0 else ilog2Aux fuel (n / 2) + 1

/-- The position of the leading bit: `2 ^ ilog2 n ≤ n < 2 ^ (ilog2 n + 1)` for `n ≠ 0`. -/
def ilog2 (n : Nat) : Nat := ilog2Aux n n

/-- The exponent of the leading bit of the positive rational `a / b`: the `p` with
`2 ^ p ≤ a / b < 2 ^ (p + 1)`. -/
def ratLog2 (a b : Nat) : Int :=
  let g : Int := (ilog2 a : Int) - (ilog2 b : Int)
  if b * 2 ^ g.toNat ≤ a * 2 ^ (-g).toNat then g else g - 1

/-- The integer nearest to `num / den`, ties to the even one. -/
def nearestEven (num den : Nat) : Nat :=
  let q := num / den
  let r := num % den
  if 2 * r < den then q else if den < 2 * r then q + 1 else if q % 2 = 0 then q else q + 1

/-- The positive rational `a / b` rounded to 53 significant bits, ties to even: the result
`(m, e)` stands for `m * 2 ^ e`, with `2 ^ 52 ≤ m ≤ 2 ^ 53`. -/
def rne53 (a b : Nat) : Nat × Int :=
  if a = 0 ∨ b = 0 then (0, 0) else
  let e : Int := ratLog2 a b - 52
  (nearestEven (a * 2 ^ (-e).toNat) (b * 2 ^ e.toNat), e)

/-- Go `float64(z)` for an `int` `z`. -/
def float64 (z : Int) : F64 :=
  let me := rne53 z.natAbs 1
  ⟨z.sign * me.1, me.2⟩

/-- Go `x * y` on `float64`. -/
def F64.mul (x y : F64) : F64 :=
  let me := rne53 (x.mant.natAbs * y.mant.natAbs) 1
  ⟨x.mant.sign * y.mant.sign * me.1, me.2 + x.exp + y.exp⟩

/-- Go `x / y` on `float64`, for `y ≠ 0`. -/
def F64.div (x y : F64) : F64 :=
  let me := rne53 x.mant.natAbs y.mant.natAbs
  ⟨x.mant.sign * y.mant.sign * me.1, me.2 + x.exp - y.exp⟩

/-- Bit-by-bit integer square root: `isqrtAux k n r` decides the bits `k-1, …, 0` of the root
of `n`, given the higher bits `r`. -/
def isqrtAux : Nat → Nat → Nat → Nat
  | 0, _, r => r
  | k + 1, n, r => isqrtAux k n (if (r + 2 ^ k) * (r + 2 ^ k) ≤ n then r + 2 ^ k else r)

/-- The integer square root `⌊√n⌋`. -/
def isqrt (n : Nat) : Nat := isqrtAux (ilog2 n / 2 + 1) n 0

/-- Go `math.Sqrt`: the correctly rounded square root; `none` is NaN (negative argument). -/
def mathSqrt (x : F64) : Option F64 :=
  if x.mant < 0 then none
  else if x.mant = 0 then some ⟨0, 0⟩
  else
    let m := x.mant.toNat
    let s0 : Int := 104 - (ilog2 m : Int)
    let s : Int := if (x.exp - s0) % 2 = 0 then s0 else s0 + 1
    let d := m * 2 ^ s.toNat
    let r := isqrt d
    let mant := if r * r + r < d then r + 1 else r
    some ⟨mant, (x.exp - s) / 2⟩

/-- Go `math.Floor`, as the integer it denotes. -/
def mathFloor (x : F64) : Int :=
  if 0 ≤ x.exp then x.mant * 2 ^ x.exp.toNat else x.mant / 2 ^ (-x.exp).toNat

/-- Go `math.Round` (nearest integer, halves away from zero), as the integer it denotes. -/
def mathRound (x : F64) : Int :=
  if 0 ≤ x.exp then x.mant * 2 ^ x.exp.toNat
  else x.mant.sign *
    ((2 * x.mant.natAbs + 2 ^ (-x.exp).toNat : Nat) / (2 * 2 ^ (-x.exp).toNat : Nat) : Nat)

/-- Go `x < y` on `float64`. -/
def F64.lt (x y : F64) : Bool :=
  let e := min x.exp y.exp
  decide (x.mant * 2 ^ (x.exp - e).toNat < y.mant * 2 ^ (y.exp - e).toNat)

/-- Go `int(f)` for an integer-valued `float64`; outside the `int` range, and for NaN
(`none`), the amd64 result `-2 ^ 63`. -/
def toInt (f : Option Int) : Int :=
  match f with
  | some z => if -2 ^ 63 ≤ z ∧ z < 2 ^ 63 then z else -2 ^ 63
  | none => -2 ^ 63

/-- An 8-bit sample. -/
abbrev Byte := Fin 256

/-- Go `uint8(f)` for an integer-valued `float64`: exact on `0..255`, the low byte otherwise. -/
def toUint8 (z : Int) : Byte := Fin.ofNat (z % 256).toNat

/-! ## Allocation -/

/-- The Go runtime's `maxAlloc` on 64-bit platforms (linux/amd64: `1 << 48` bytes):
`make([]T, n)` panics with `makeslice: len out of range` when `n` is negative or `n` elements
take more than `maxAlloc` bytes. -/
def maxAlloc : Int := 2 ^ 48

/-! ## The box-radius planner -/

/-- Go `sigma2BoxDimension`.  `make([]int, boxes)` panics for a negative `boxes` and for a
list of more than `maxAlloc` bytes (8 bytes for each `int`). -/
def sigma2BoxDimension (sigma boxes : Int) : Except Panic (List Int) :=
  if boxes = 0 then .error .divideByZero else
  let wIdeal := mathSqrt (float64 (iadd (idiv (imul (imul 12 sigma) sigma) boxes) 1))
  let wl := toInt (wIdeal.map mathFloor)
  let wl := if wl.tmod 2 = 0 then isub wl 1 else wl
  let wu := iadd wl 2
  let mIdeal := isub (imul (idiv (iadd (iadd (isub (imul (imul 12 sigma) sigma)
    (imul (imul boxes wl) wl)) (imul (imul 4 boxes) wl)) (imul 3 boxes)) (-4)) wl) 4
  let m : F64 := ⟨mathRound (float64 mIdeal), 0⟩
  if boxes < 0 ∨ maxAlloc < 8 * boxes then .error .makeSliceLen else
  .ok ((List.range boxes.toNat).map fun (i : Nat) =>
    if F64.lt (float64 (i : Int)) m then wl else wu)

/-! ## Rasters -/

/-- Go `image.Point`. -/
structure Point where
  X : Int
  Y : Int
  deriving DecidableEq, Repr

/-- Go `image.Rectangle`. -/
structure Rectangle where
  Min : Point
  Max : Point
  deriving DecidableEq, Repr

/-- Go `Rectangle.Dx`. -/
def Rectangle.Dx (r : Rectangle) : Int := r.Max.X - r.Min.X

/-- Go `Rectangle.Dy`. -/
def Rectangle.Dy (r : Rectangle) : Int := r.Max.Y - r.Min.Y

/-- Go `Point{x, y}.In(r)`. -/
def Rectangle.has (r : Rectangle) (x y : Int) : Bool :=
  decide (r.Min.X ≤ x ∧ x < r.Max.X ∧ r.Min.Y ≤ y ∧ y < r.Max.Y)

/-- Go `image.RGBA`: interleaved 8-bit R, G, B, A samples. -/
structure RGBA where
  Pix : List Byte
  Stride : Int
  Rect : Rectangle
  deriving DecidableEq, Repr

/-- Go `color.RGBA`: the samples R, G, B, A at indices 0, 1, 2, 3. -/
abbrev Color := Fin 4 → Byte

/-- Go `(*RGBA).PixOffset`. -/
def RGBA.PixOffset (p : RGBA) (x y : Int) : Int :=
  (y - p.Rect.Min.Y) * p.Stride + (x - p.Rect.Min.X) * 4

/-- Go `int(p.Pix[i])`; the index is checked. -/
def RGBA.sample (p : RGBA) (i : Int) : Except Panic Int :=
  if 0 ≤ i then
    match p.Pix[i.toNat]? with
    | some b => .ok (b.val : Int)
    | none => .error .indexOutOfRange
  else .error .indexOutOfRange

/-- The four reads `int(p.Pix[pos+0])`, …, `int(p.Pix[pos+3])`. -/
def RGBA.pixel (p : RGBA) (pos : Int) : Except Panic (Fin 4 → Int) := do
  let r ← p.sample (pos + 0)
  let g ← p.sample (pos + 1)
  let b ← p.sample (pos + 2)
  let a ← p.sample (pos + 3)
  pure ![r, g, b, a]

/-- Go `(*RGBA).SetRGBA`: nothing happens outside `p.Rect`; inside, the four samples at
`p.Pix[i : i+4 : i+4]` are stored. -/
def RGBA.SetRGBA (p : RGBA) (x y : Int) (c : Color) : Except Panic RGBA :=
  if p.Rect.has x y then
    let i := p.PixOffset x y
    if 0 ≤ i ∧ i + 4 ≤ p.Pix.length then
      .ok { p with Pix := (((p.Pix.set i.toNat (c 0)).set (i.toNat + 1) (c 1)).set
        (i.toNat + 2) (c 2)).set (i.toNat + 3) (c 3) }
    else .error .sliceBoundsOutOfRange
  else .ok p

/-- Go `image.Image`: either a `*image.RGBA`, or an image of another concrete type, given by
its bounds and by the 8-bit RGBA colour that `draw.Draw` stores for each of its points. -/
inductive Image where
  | rgba (p : RGBA)
  | generic (bounds : Rectangle) (colorAt : Int → Int → Color)

/-- Go `Image.Bounds`. -/
def Image.Bounds : Image → Rectangle
  | .rgba p => p.Rect
  | .generic b _ => b

/-! ## Loops -/

/-- The loop `for j := lo; …; j++ { s = body(j, s) }` run for `n` iterations from `j`. -/
def loopFrom {σ : Type} (body : Int → σ → Except Panic σ) : Nat → Int → σ → Except Panic σ
  | 0, _, s => .ok s
  | n + 1, j, s =>
    match body j s with
    | .ok s1 => loopFrom body n (j + 1) s1
    | .error e => .error e

/-- The loop `for j := lo; j < hi; j++ { s = body(j, s) }`. -/
def forRange {σ : Type} (lo hi : Int) (body : Int → σ → Except Panic σ) (s : σ) :
    Except Panic σ :=
  loopFrom body (hi - lo).toNat lo s

/-- Modelled from the spec: `parallel(start, stop, fn)` is missing from the sources.  It runs
the worker once for every line index in `[start, stop)` and returns when all are done; each
worker writes only its own line of the destination and reads only its own line of the source,
so the lines are processed here one after the other, in ascending order. -/
def parallel {σ : Type} (start stop : Int) (worker : Int → σ → Except Panic σ) (dst : σ) :
    Except Panic σ :=
  forRange start stop worker dst

/-! ## The box blur -/

/-- `color.RGBA{R: uint8(math.Round(float64(valR) * iarr)), …}`. -/
def blurColor (val : Fin 4 → Int) (iarr : F64) : Color :=
  fun c => toUint8 (mathRound (F64.mul (float64 (val c)) iarr))

/-- The variables carried through the loops over one scan line, and the destination. -/
structure LineState where
  ti : Int
  li : Int
  ri : Int
  val : Fin 4 → Int
  dst : RGBA

/-- The work of `boxBlurHorizontal` for row `y`. -/
def boxBlurHorizontalRow (src : RGBA) (boxRadius : Int) (iarr : F64) (y : Int) (dst : RGBA) :
    Except Panic RGBA := do
  let ti := src.Rect.Min.X
  let li := ti
  let ri := ti + boxRadius
  let fvpos := src.PixOffset ti y
  let lvpos := src.PixOffset (src.Rect.Max.X - 1) y
  let fv ← src.pixel fvpos
  let val := (boxRadius + 1) • fv
  let val ← forRange 0 boxRadius (fun j (val : Fin 4 → Int) => do
    let px ← src.pixel (src.PixOffset (ti + j) y)
    pure (val + px)) val
  let s ← forRange 0 (boxRadius + 1) (fun _ (s : LineState) => do
    let px ← src.pixel (src.PixOffset s.ri y)
    let val := s.val + (px - fv)
    let dst ← s.dst.SetRGBA s.ti y (blurColor val iarr)
    pure { s with ri := s.ri + 1, val := val, dst := dst, ti := s.ti + 1 })
    { ti := ti, li := li, ri := ri, val := val, dst := dst }
  let s ← forRange (boxRadius + 1) (src.Rect.Max.X - boxRadius) (fun _ (s : LineState) => do
    let rpx ← src.pixel (src.PixOffset s.ri y)
    let lpx ← src.pixel (src.PixOffset s.li y)
    let val := s.val + (rpx - lpx)
    let dst ← s.dst.SetRGBA s.ti y (blurColor val iarr)
    pure { ri := s.ri + 1, li := s.li + 1, val := val, dst := dst, ti := s.ti + 1 }) s
  let s ← forRange (src.Rect.Max.X - boxRadius) src.Rect.Max.X (fun _ (s : LineState) => do
    let lv ← src.pixel lvpos
    let px ← src.pixel (src.PixOffset s.li y)
    let val := s.val + (lv - px)
    let dst ← s.dst.SetRGBA s.ti y (blurColor val iarr)
    pure { s with li := s.li + 1, val := val, dst := dst, ti := s.ti + 1 }) s
  pure s.dst

/-- Go `boxBlurHorizontal`; the result is the new value of `*dst`. -/
def boxBlurHorizontal (src dst : RGBA) (boxRadius : Int) : Except Panic RGBA :=
  let iarr := F64.div ⟨1, 0⟩ (float64 (boxRadius + boxRadius + 1))
  let height := src.Rect.Max.Y - src.Rect.Min.Y
  parallel 0 height (boxBlurHorizontalRow src boxRadius iarr) dst

/-- The work of `boxBlurVertical` for column `x`. -/
def boxBlurVerticalColumn (src : RGBA) (boxRadius : Int) (iarr : F64) (x : Int) (dst : RGBA) :
    Except Panic RGBA := do
  let ti := src.Rect.Min.Y
  let li := ti
  let ri := ti + boxRadius
  let fvpos := src.PixOffset x ti
  let lvpos := src.PixOffset x (src.Rect.Max.Y - 1)
  let fv ← src.pixel fvpos
  let val := (boxRadius + 1) • fv
  let val ← forRange 0 boxRadius (fun j (val : Fin 4 → Int) => do
    let px ← src.pixel (src.PixOffset x (ti + j))
    pure (val + px)) val
  let s ← forRange 0 (boxRadius + 1) (fun _ (s : LineState) => do
    let px ← src.pixel (src.PixOffset x s.ri)
    let val := s.val + (px - fv)
    let dst ← s.dst.SetRGBA x s.ti (blurColor val iarr)
    pure { s with ri := s.ri + 1, val := val, dst := dst, ti := s.ti + 1 })
    { ti := ti, li := li, ri := ri, val := val, dst := dst }
  let s ← forRange (boxRadius + 1) (src.Rect.Max.Y - boxRadius) (fun _ (s : LineState) => do
    let rpx ← src.pixel (src.PixOffset x s.ri)
    let lpx ← src.pixel (src.PixOffset x s.li)
    let val := s.val + (rpx - lpx)
    let dst ← s.dst.SetRGBA x s.ti (blurColor val iarr)
    pure { ri := s.ri + 1, li := s.li + 1, val := val, dst := dst, ti := s.ti + 1 }) s
  let s ← forRange (src.Rect.Max.Y - boxRadius) src.Rect.Max.Y (fun _ (s : LineState) => do
    let lv ← src.pixel lvpos
    let px ← src.pixel (src.PixOffset x s.li)
    let val := s.val + (lv - px)
    let dst ← s.dst.SetRGBA x s.ti (blurColor val iarr)
    pure { s with li := s.li + 1, val := val, dst := dst, ti := s.ti + 1 }) s
  pure s.dst

/-- Go `boxBlurVertical`; the result is the new value of `*dst`. -/
def boxBlurVertical (src dst : RGBA) (boxRadius : Int) : Except Panic RGBA :=
  let iarr := F64.div ⟨1, 0⟩ (float64 (boxRadius + boxRadius + 1))
  let width := src.Rect.Max.X - src.Rect.Min.X
  parallel 0 width (boxBlurVerticalColumn src boxRadius iarr) dst

/-! ## Cloning and the pipeline -/

/-- Go `mul3NonNeg`. -/
def mul3NonNeg (x y z : Int) : Int :=
  if x < 0 ∨ y < 0 ∨ z < 0 then -1 else
  let hi := x * y / 2 ^ 64
  let lo := x * y % 2 ^ 64
  if hi ≠ 0 then -1 else
  let hi := lo * z / 2 ^ 64
  let lo := lo * z % 2 ^ 64
  if hi ≠ 0 then -1 else
  let a := wrap64 lo
  if a < 0 ∨ a % 2 ^ 64 ≠ lo then -1 else a

/-- The samples of row `y` of `src` between the columns of `b`, as `draw.Draw` with `draw.Src`
copies them into an RGBA destination. -/
def Image.row (src : Image) (b : Rectangle) (y : Int) : Except Panic (List Byte) :=
  match src with
  | .rgba p =>
    (List.range (4 * b.Dx).toNat).mapM fun (i : Nat) =>
      let k := p.PixOffset b.Min.X y + (i : Int)
      if 0 ≤ k then
        match p.Pix[k.toNat]? with
        | some v => .ok v
        | none => .error .sliceBoundsOutOfRange
      else .error .sliceBoundsOutOfRange
  | .generic _ colorAt =>
    .ok ((List.range b.Dx.toNat).flatMap fun (i : Nat) =>
      [colorAt (b.Min.X + (i : Int)) y 0, colorAt (b.Min.X + (i : Int)) y 1,
        colorAt (b.Min.X + (i : Int)) y 2, colorAt (b.Min.X + (i : Int)) y 3])

/-- Go `clone(src, dst)` for `dst` an object different from `src`; the result is the new value
of `*dst`, which does not depend on the old one.  `make([]uint8, n)` panics for a negative `n`
and for `n` above `maxAlloc`. -/
def clone (src : Image) : Except Panic RGBA :=
  let b := src.Bounds
  if mul3NonNeg 4 b.Dx b.Dy < 0 ∨ maxAlloc < mul3NonNeg 4 b.Dx b.Dy then
    .error .makeSliceLen
  else do
    let rows ← (List.range b.Dy.toNat).mapM fun (j : Nat) => src.row b (b.Min.Y + (j : Int))
    pure { Pix := rows.flatten, Stride := 4 * b.Dx, Rect := b }

/-- One iteration of the loop of `Gaussian` on the pair `(rgbaSrc, dst)`. -/
def gaussianStep (s : RGBA × RGBA) (box : Int) : Except Panic (RGBA × RGBA) := do
  let rgbaSrc ← boxBlurHorizontal s.2 s.1 ((box - 1).tdiv 2)
  let dst ← boxBlurVertical rgbaSrc s.2 ((box - 1).tdiv 2)
  pure (rgbaSrc, dst)

/-- Go `Gaussian(src, dst, sigma, boxes)`, for `src` and `dst` two different objects; `dst` is
`none` for a nil pointer.  The result is the final state of the caller's source image and of
`*dst`.  The call in which `dst` is the very `*image.RGBA` passed as `src` is
`GaussianInPlace`. -/
def Gaussian (src : Image) (dst : Option RGBA) (sigma boxes : Int) :
    Except Panic (Image × RGBA) := do
  let rgbaSrc ← match src with
    | .rgba p => pure p
    | .generic _ _ => clone src
  if dst.isNone then throw Panic.nilDestination
  let dst ← clone (.rgba rgbaSrc)
  let sizes ← sigma2BoxDimension sigma boxes
  let s ← sizes.foldlM gaussianStep (rgbaSrc, dst)
  match src with
  | .rgba _ => pure (.rgba s.1, s.2)
  | .generic _ _ => pure (src, s.2)

/-- The rational number that a binary64 value denotes. -/
def F64.toRat (x : F64) : ℚ := (x.mant : ℚ) * (2 : ℚ) ^ x.exp

/-! ## Specification vocabulary and test inputs -/

/-- The sum of `w * w - 1` over the planned widths `w`: twelve times the variance of the
composed box filters. -/
def varianceSum (sizes : List Int) : Int := (sizes.map fun w => w * w - 1).sum

/-- Sample `c` of the pixel at `(x, y)`; `0` when the buffer is too short. -/
def RGBA.get (p : RGBA) (x y : Int) (c : Fin 4) : Byte :=
  p.Pix.getD (p.PixOffset x y + (c.val : Int)).toNat 0

/-- A raster with origin `(0, 0)`, width `w` and height `h`, whose buffer holds all its rows. -/
def RGBA.Fits (p : RGBA) (w h : Nat) : Prop :=
  p.Rect = ⟨⟨0, 0⟩, ⟨w, h⟩⟩ ∧ 4 * (w : Int) ≤ p.Stride ∧
    ((h : Int) - 1) * p.Stride + 4 * (w : Int) ≤ p.Pix.length

instance (p : RGBA) (w h : Nat) : Decidable (p.Fits w h) := by
  unfold RGBA.Fits
  infer_instance

/-- Edge clamping of a position along a scan line of length `w`. -/
def clampIndex (i w : Int) : Int := max 0 (min i (w - 1))

/-- The sum of the `2 * r + 1` samples of the line `p` around position `i`, positions outside
`[0, w)` standing for the nearest end of the line. -/
def windowSum {G : Type} [AddCommMonoid G] (p : Int → G) (w r i : Int) : G :=
  ∑ k in Finset.range (2 * r + 1).toNat, p (clampIndex (i + (k : Int) - r) w)

/-- The integer nearest to `s / n`, for `s ≥ 0` and `n > 0`. -/
def roundDiv (s n : Int) : Int := (2 * s + n) / (2 * n)

/-- The reciprocal `1 / float64(boxRadius+boxRadius+1)` computed by both blur passes. -/
def iarrOf (boxRadius : Int) : F64 := F64.div ⟨1, 0⟩ (float64 (boxRadius + boxRadius + 1))

/-- Row `y` of the source as a line of four-channel samples. -/
def RGBA.rowLine (p : RGBA) (y : Int) : Int → Fin 4 → Int := fun x c => ((p.get x y c : Byte) : Int)

/-- Column `x` of the source as a line of four-channel samples. -/
def RGBA.columnLine (p : RGBA) (x : Int) : Int → Fin 4 → Int :=
  fun y c => ((p.get x y c : Byte) : Int)

/-- A dense grey raster with origin `(0, 0)`: the pixel at `(x, y)` is
`(f x y, f x y, f x y, 255)`. -/
def grey (w h : Nat) (f : Nat → Nat → Byte) : RGBA :=
  { Pix := (List.range h).flatMap fun y => (List.range w).flatMap fun x =>
      [f x y, f x y, f x y, 255]
    Stride := 4 * w
    Rect := ⟨⟨0, 0⟩, ⟨w, h⟩⟩ }

/-- The 5×5 raster that is black except for a white pixel at the centre `(2, 2)`. -/
def impulse5 : RGBA := grey 5 5 fun x y => if x = 2 ∧ y = 2 then 255 else 0

/-- The pixel buffer of an image that is a `*image.RGBA`. -/
def Image.pixels : Image → List Byte
  | .rgba p => p.Pix
  | .generic _ _ => []

/-- A raster with origin `(0, 0)` whose buffer holds exactly its `w * h` pixels, row after
row. -/
def RGBA.Dense (p : RGBA) (w h : Nat) : Prop :=
  p.Rect = ⟨⟨0, 0⟩, ⟨w, h⟩⟩ ∧ p.Stride = 4 * (w : Int) ∧ p.Pix.length = 4 * w * h

instance (p : RGBA) (w h : Nat) : Decidable (p.Dense w h) := by
  unfold RGBA.Dense
  infer_instance

/-- A zeroed dense raster with the given bounds. -/
def freshRGBA (b : Rectangle) : RGBA :=
  { Pix := List.replicate (4 * b.Dx * b.Dy).toNat 0, Stride := 4 * b.Dx, Rect := b }

/-- One horizontal pass followed by one vertical pass with the radius of the box width `box`,
each writing into a zeroed buffer of its own. -/
def referenceStep (a : RGBA) (box : Int) : Except Panic RGBA := do
  let b ← boxBlurHorizontal a (freshRGBA a.Rect) ((box - 1).tdiv 2)
  boxBlurVertical b (freshRGBA a.Rect) ((box - 1).tdiv 2)

/-- The passes for the planned box widths, in order, starting from the raster `a`. -/
def referenceBlur (a : RGBA) (sizes : List Int) : Except Panic RGBA :=
  sizes.foldlM referenceStep a

/-- A source image with origin `(0, 0)`, width `w` and height `h`; an RGBA source also holds
all its rows in its buffer. -/
def Image.Fits (src : Image) (w h : Nat) : Prop :=
  match src with
  | .rgba p => p.Fits w h
  | .generic b _ => b = ⟨⟨0, 0⟩, ⟨w, h⟩⟩

instance (src : Image) (w h : Nat) : Decidable (src.Fits w h) := by
  cases src <;> unfold Image.Fits <;> infer_instance

/-! ## The scan-line algorithm shared by the two passes -/

/-- Body of the first loop over a scan line: add the sample at `ti + j`. -/
def accumulateStep (get : Int → Except Panic (Fin 4 → Int)) (ti : Int) (j : Int)
    (val : Fin 4 → Int) : Except Panic (Fin 4 → Int) := do
  let px ← get (ti + j)
  pure (val + px)

/-- Body of the second loop: the window grows on the right, its left end is the first pixel. -/
def leadStep (get : Int → Except Panic (Fin 4 → Int))
    (put : Int → Color → RGBA → Except Panic RGBA) (fv : Fin 4 → Int) (iarr : F64)
    (_j : Int) (s : LineState) : Except Panic LineState := do
  let px ← get s.ri
  let val := s.val + (px - fv)
  let dst ← put s.ti (blurColor val iarr) s.dst
  pure { s with ri := s.ri + 1, val := val, dst := dst, ti := s.ti + 1 }

/-- Body of the third loop: the window slides. -/
def slideStep (get : Int → Except Panic (Fin 4 → Int))
    (put : Int → Color → RGBA → Except Panic RGBA) (iarr : F64)
    (_j : Int) (s : LineState) : Except Panic LineState := do
  let rpx ← get s.ri
  let lpx ← get s.li
  let val := s.val + (rpx - lpx)
  let dst ← put s.ti (blurColor val iarr) s.dst
  pure { ri := s.ri + 1, li := s.li + 1, val := val, dst := dst, ti := s.ti + 1 }

/-- Body of the fourth loop: the window shrinks on the left, its right end is the last pixel
(read at `lvpos` in every iteration). -/
def trailStep (get : Int → Except Panic (Fin 4 → Int))
    (put : Int → Color → RGBA → Except Panic RGBA) (lv : Int) (iarr : F64)
    (_j : Int) (s : LineState) : Except Panic LineState := do
  let lvpx ← get lv
  let px ← get s.li
  let val := s.val + (lvpx - px)
  let dst ← put s.ti (blurColor val iarr) s.dst
  pure { s with li := s.li + 1, val := val, dst := dst, ti := s.ti + 1 }

/-- The loops of `boxBlurHorizontal` and `boxBlurVertical` over one scan line, with the reads
of the source (`get`) and the `SetRGBA` calls on the destination (`put`) left abstract: the
row work and the column work are its two instances (`boxBlurHorizontalRow_eq_lineBlur`,
`boxBlurVerticalColumn_eq_lineBlur`). -/
def lineBlur (get : Int → Except Panic (Fin 4 → Int))
    (put : Int → Color → RGBA → Except Panic RGBA) (lo hi boxRadius : Int) (iarr : F64)
    (dst : RGBA) : Except Panic RGBA := do
  let fv ← get lo
  let val ← forRange 0 boxRadius (accumulateStep get lo) ((boxRadius + 1) • fv)
  let s ← forRange 0 (boxRadius + 1) (leadStep get put fv iarr)
    { ti := lo, li := lo, ri := lo + boxRadius, val := val, dst := dst }
  let s ← forRange (boxRadius + 1) (hi - boxRadius) (slideStep get put iarr) s
  let s ← forRange (hi - boxRadius) hi (trailStep get put (hi - 1) iarr) s
  pure s.dst

/-! ## The passes on sample functions -/

/-- The samples of a raster as integers, by position and channel. -/
def RGBA.samples (p : RGBA) : Int → Int → Fin 4 → Int :=
  fun x y c => ((p.get x y c : Byte) : Int)

/-- Two sample functions that agree on the `w × h` positions of a raster. -/
def SamplesAgree (w h : Nat) (f g : Int → Int → Fin 4 → Int) : Prop :=
  ∀ (x y : Int) (c : Fin 4), 0 ≤ x → x < w → 0 ≤ y → y < h → f x y c = g x y c

/-- The nearest integer to the mean of the `2 * r + 1` samples around each position of each
row of width `w`, the ends of the row repeated. -/
def rowMean (w r : Int) (f : Int → Int → Fin 4 → Int) : Int → Int → Fin 4 → Int :=
  fun x y c => roundDiv (windowSum (fun i => f i y c) w r x) (2 * r + 1)

/-- The nearest integer to the mean of the `2 * r + 1` samples around each position of each
column of height `h`, the ends of the column repeated. -/
def columnMean (h r : Int) (f : Int → Int → Fin 4 → Int) : Int → Int → Fin 4 → Int :=
  fun x y c => roundDiv (windowSum (fun j => f x j c) h r y) (2 * r + 1)

/-- The samples of the pair `(rgbaSrc, dst)` after one iteration of the loop of `Gaussian`
for the box width `box`: the row means of `dst` go to `rgbaSrc`, their column means to
`dst`. -/
def meanStep (w h : Int)
    (F : (Int → Int → Fin 4 → Int) × (Int → Int → Fin 4 → Int)) (box : Int) :
    (Int → Int → Fin 4 → Int) × (Int → Int → Fin 4 → Int) :=
  (rowMean w ((box - 1).tdiv 2) F.2,
    columnMean h ((box - 1).tdiv 2) (rowMean w ((box - 1).tdiv 2) F.2))

/-- The sample function of a grey raster given by its rows of grey levels, alpha 255. -/
def greyTable (rows : List (List Int)) : Int → Int → Fin 4 → Int :=
  fun x y c => if c = 3 then 255 else (rows.getD y.toNat []).getD x.toNat 0

/-- The grey levels of `impulse5`, followed by the grey levels after each of the six passes
that `Gaussian` makes for the widths `[3, 3, 3]` (horizontal, vertical, horizontal, …). -/
def impulse5Passes : List (List (List Int)) :=
  [[[0, 0, 0, 0, 0], [0, 0, 0, 0, 0], [0, 0, 255, 0, 0], [0, 0, 0, 0, 0], [0, 0, 0, 0, 0]],
   [[0, 0, 0, 0, 0], [0, 0, 0, 0, 0], [0, 85, 85, 85, 0], [0, 0, 0, 0, 0], [0, 0, 0, 0, 0]],
   [[0, 0, 0, 0, 0], [0, 28, 28, 28, 0], [0, 28, 28, 28, 0], [0, 28, 28, 28, 0],
    [0, 0, 0, 0, 0]],
   [[0, 0, 0, 0, 0], [9, 19, 28, 19, 9], [9, 19, 28, 19, 9], [9, 19, 28, 19, 9],
    [0, 0, 0, 0, 0]],
   [[3, 6, 9, 6, 3], [6, 13, 19, 13, 6], [9, 19, 28, 19, 9], [6, 13, 19, 13, 6],
    [3, 6, 9, 6, 3]],
   [[4, 6, 7, 6, 4], [8, 13, 15, 13, 8], [12, 19, 22, 19, 12], [8, 13, 15, 13, 8],
    [4, 6, 7, 6, 4]],
   [[5, 8, 10, 8, 5], [8, 13, 15, 13, 8], [9, 15, 17, 15, 9], [8, 13, 15, 13, 8],
    [5, 8, 10, 8, 5]]]

/-- The sample function of `impulse5` after `k` passes. -/
def impulse5After (k : Nat) : Int → Int → Fin 4 → Int := greyTable (impulse5Passes.getD k [])

/-! ## The planner: its intermediate values, and the plan of the specification -/

/-- The variable `wl` of `sigma2BoxDimension`, after the parity adjustment. -/
def sigma2BoxDimension.wl (sigma boxes : Int) : Int :=
  let wIdeal := mathSqrt (float64 (iadd (idiv (imul (imul 12 sigma) sigma) boxes) 1))
  let wl := toInt (wIdeal.map mathFloor)
  if wl.tmod 2 = 0 then isub wl 1 else wl

/-- The variable `mIdeal` of `sigma2BoxDimension`. -/
def sigma2BoxDimension.mIdeal (sigma boxes : Int) : Int :=
  let wl := sigma2BoxDimension.wl sigma boxes
  isub (imul (idiv (iadd (iadd (isub (imul (imul 12 sigma) sigma)
    (imul (imul boxes wl) wl)) (imul (imul 4 boxes) wl)) (imul 3 boxes)) (-4)) wl) 4

/-- The largest odd integer that is at most `⌊√q⌋`, for a rational `q ≥ 1` (one less than the
floor when the floor is even); `⌊√q⌋` is computed as the integer square root of `⌊q⌋`. -/
def largestOddBelowSqrt (q : ℚ) : Int :=
  let fl : Int := (Nat.sqrt ⌊q⌋₊ : Nat)
  if fl % 2 = 0 then fl - 1 else fl

/-- The plan in the words of the specification: `wl` is the largest odd integer at most
`⌊√(12 σ² / passes + 1)⌋`, `wu = wl + 2`, `m` is the rational
`(12 σ² − passes wl² + 4 passes wl + 3 passes) / (−4 wl) − 4` rounded to the nearest integer,
and pass `i` gets `wl` when `i < m` and `wu` otherwise. -/
def planSpec (sigma passes : Int) : List Int :=
  let wl : Int := largestOddBelowSqrt (12 * (sigma : ℚ) ^ 2 / (passes : ℚ) + 1)
  let wu : Int := wl + 2
  let mIdeal : ℚ := (12 * (sigma : ℚ) ^ 2 - (passes : ℚ) * (wl : ℚ) ^ 2 + 4 * (passes : ℚ) * (wl : ℚ)
    + 3 * (passes : ℚ)) / (-4 * (wl : ℚ)) - 4
  let m : Int := round mIdeal
  (List.range passes.toNat).map fun (i : Nat) => if (i : Int) < m then wl else wu

/-! ## The states of the loops -/

/-- The states after each iteration of the loop that `loopFrom` runs, in order, up to the
first panic. -/
def loopTrace {σ : Type} (body : Int → σ → Except Panic σ) : Nat → Int → σ → List σ
  | 0, _, _ => []
  | n + 1, j, s =>
    match body j s with
    | .ok s1 => s1 :: loopTrace body n (j + 1) s1
    | .error _ => []

/-- The states of the scan-line algorithm `lineBlur` after each iteration of its three loops
that store a pixel: one state for every output position reached, whose `val` is the running
sum from which the colour stored at that position was computed. -/
def lineTrace (get : Int → Except Panic (Fin 4 → Int))
    (put : Int → Color → RGBA → Except Panic RGBA) (lo hi boxRadius : Int) (iarr : F64)
    (dst : RGBA) : List LineState :=
  match get lo with
  | .error _ => []
  | .ok fv =>
    match forRange 0 boxRadius (accumulateStep get lo) ((boxRadius + 1) • fv) with
    | .error _ => []
    | .ok val =>
      let s0 : LineState := { ti := lo, li := lo, ri := lo + boxRadius, val := val, dst := dst }
      let t1 := loopTrace (leadStep get put fv iarr) (boxRadius + 1 - 0).toNat 0 s0
      match forRange 0 (boxRadius + 1) (leadStep get put fv iarr) s0 with
      | .error _ => t1
      | .ok s1 =>
        let t2 := loopTrace (slideStep get put iarr) (hi - boxRadius - (boxRadius + 1)).toNat
          (boxRadius + 1) s1
        match forRange (boxRadius + 1) (hi - boxRadius) (slideStep get put iarr) s1 with
        | .error _ => t1 ++ t2
        | .ok s2 =>
          t1 ++ t2 ++ loopTrace (trailStep get put (hi - 1) iarr) (hi - (hi - boxRadius)).toNat
            (hi - boxRadius) s2

/-- The states of the work of `boxBlurHorizontal` for row `y`, one for every output position
reached. -/
def boxBlurHorizontalRowTrace (src : RGBA) (boxRadius : Int) (iarr : F64) (y : Int)
    (dst : RGBA) : List LineState :=
  lineTrace (fun x => src.pixel (src.PixOffset x y)) (fun x c d => d.SetRGBA x y c)
    src.Rect.Min.X src.Rect.Max.X boxRadius iarr dst

/-- The states of the work of `boxBlurVertical` for column `x`, one for every output position
reached. -/
def boxBlurVerticalColumnTrace (src : RGBA) (boxRadius : Int) (iarr : F64) (x : Int)
    (dst : RGBA) : List LineState :=
  lineTrace (fun y => src.pixel (src.PixOffset x y)) (fun y c d => d.SetRGBA x y c)
    src.Rect.Min.Y src.Rect.Max.Y boxRadius iarr dst

/-! ## Calls on pointers: source and destination may be one object -/

/-- A pointer to one of the (at most two) `image.RGBA` objects that a call works on. -/
inductive Ref where
  | fst
  | snd
  deriving DecidableEq, Repr

/-- The objects that the pointers of a call refer to.  Each of the two has a pixel buffer of
its own: two pointers reach the same samples only when they are equal. -/
structure Heap where
  fst : RGBA
  snd : RGBA
  deriving DecidableEq, Repr

/-- The object that the pointer `r` refers to. -/
def Heap.read (m : Heap) : Ref → RGBA
  | .fst => m.fst
  | .snd => m.snd

/-- The heap after the object at `r` has become `p`. -/
def Heap.store (m : Heap) (r : Ref) (p : RGBA) : Heap :=
  match r with
  | .fst => { m with fst := p }
  | .snd => { m with snd := p }

/-- Go `dst.SetRGBA(x, y, c)` through the pointer `dst`. -/
def Heap.SetRGBA (m : Heap) (dst : Ref) (x y : Int) (c : Color) : Except Panic Heap := do
  let d ← (m.read dst).SetRGBA x y c
  pure (m.store dst d)

/-- The variables carried through the loops over one scan line, and the objects. -/
structure HeapLineState where
  ti : Int
  li : Int
  ri : Int
  val : Fin 4 → Int
  mem : Heap

/-- The work of `boxBlurHorizontal(src, dst, boxRadius)` for row `y`, with `src` and `dst`
pointers: every read of `src.Pix` is a read of the object as it is at that moment, so that it
sees the samples stored so far when `src` and `dst` are one object. -/
def boxBlurHorizontalRowAt (src dst : Ref) (boxRadius : Int) (iarr : F64) (y : Int)
    (m : Heap) : Except Panic Heap := do
  let ti := (m.read src).Rect.Min.X
  let li := ti
  let ri := ti + boxRadius
  let fvpos := (m.read src).PixOffset ti y
  let lvpos := (m.read src).PixOffset ((m.read src).Rect.Max.X - 1) y
  let fv ← (m.read src).pixel fvpos
  let val := (boxRadius + 1) • fv
  let val ← forRange 0 boxRadius (fun j (val : Fin 4 → Int) => do
    let px ← (m.read src).pixel ((m.read src).PixOffset (ti + j) y)
    pure (val + px)) val
  let s ← forRange 0 (boxRadius + 1) (fun _ (s : HeapLineState) => do
    let px ← (s.mem.read src).pixel ((s.mem.read src).PixOffset s.ri y)
    let val := s.val + (px - fv)
    let mem ← s.mem.SetRGBA dst s.ti y (blurColor val iarr)
    pure { s with ri := s.ri + 1, val := val, mem := mem, ti := s.ti + 1 })
    { ti := ti, li := li, ri := ri, val := val, mem := m }
  let s ← forRange (boxRadius + 1) ((m.read src).Rect.Max.X - boxRadius)
    (fun _ (s : HeapLineState) => do
    let rpx ← (s.mem.read src).pixel ((s.mem.read src).PixOffset s.ri y)
    let lpx ← (s.mem.read src).pixel ((s.mem.read src).PixOffset s.li y)
    let val := s.val + (rpx - lpx)
    let mem ← s.mem.SetRGBA dst s.ti y (blurColor val iarr)
    pure { ri := s.ri + 1, li := s.li + 1, val := val, mem := mem, ti := s.ti + 1 }) s
  let s ← forRange ((m.read src).Rect.Max.X - boxRadius) (m.read src).Rect.Max.X
    (fun _ (s : HeapLineState) => do
    let lv ← (s.mem.read src).pixel lvpos
    let px ← (s.mem.read src).pixel ((s.mem.read src).PixOffset s.li y)
    let val := s.val + (lv - px)
    let mem ← s.mem.SetRGBA dst s.ti y (blurColor val iarr)
    pure { s with li := s.li + 1, val := val, mem := mem, ti := s.ti + 1 }) s
  pure s.mem

/-- Go `boxBlurHorizontal(src, dst, boxRadius)` on pointers. -/
def boxBlurHorizontalAt (src dst : Ref) (boxRadius : Int) (m : Heap) : Except Panic Heap :=
  let iarr := F64.div ⟨1, 0⟩ (float64 (boxRadius + boxRadius + 1))
  let height := (m.read src).Rect.Max.Y - (m.read src).Rect.Min.Y
  parallel 0 height (boxBlurHorizontalRowAt src dst boxRadius iarr) m

/-- The work of `boxBlurVertical(src, dst, boxRadius)` for column `x`, with `src` and `dst`
pointers. -/
def boxBlurVerticalColumnAt (src dst : Ref) (boxRadius : Int) (iarr : F64) (x : Int)
    (m : Heap) : Except Panic Heap := do
  let ti := (m.read src).Rect.Min.Y
  let li := ti
  let ri := ti + boxRadius
  let fvpos := (m.read src).PixOffset x ti
  let lvpos := (m.read src).PixOffset x ((m.read src).Rect.Max.Y - 1)
  let fv ← (m.read src).pixel fvpos
  let val := (boxRadius + 1) • fv
  let val ← forRange 0 boxRadius (fun j (val : Fin 4 → Int) => do
    let px ← (m.read src).pixel ((m.read src).PixOffset x (ti + j))
    pure (val + px)) val
  let s ← forRange 0 (boxRadius + 1) (fun _ (s : HeapLineState) => do
    let px ← (s.mem.read src).pixel ((s.mem.read src).PixOffset x s.ri)
    let val := s.val + (px - fv)
    let mem ← s.mem.SetRGBA dst x s.ti (blurColor val iarr)
    pure { s with ri := s.ri + 1, val := val, mem := mem, ti := s.ti + 1 })
    { ti := ti, li := li, ri := ri, val := val, mem := m }
  let s ← forRange (boxRadius + 1) ((m.read src).Rect.Max.Y - boxRadius)
    (fun _ (s : HeapLineState) => do
    let rpx ← (s.mem.read src).pixel ((s.mem.read src).PixOffset x s.ri)
    let lpx ← (s.mem.read src).pixel ((s.mem.read src).PixOffset x s.li)
    let val := s.val + (rpx - lpx)
    let mem ← s.mem.SetRGBA dst x s.ti (blurColor val iarr)
    pure { ri := s.ri + 1, li := s.li + 1, val := val, mem := mem, ti := s.ti + 1 }) s
  let s ← forRange ((m.read src).Rect.Max.Y - boxRadius) (m.read src).Rect.Max.Y
    (fun _ (s : HeapLineState) => do
    let lv ← (s.mem.read src).pixel lvpos
    let px ← (s.mem.read src).pixel ((s.mem.read src).PixOffset x s.li)
    let val := s.val + (lv - px)
    let mem ← s.mem.SetRGBA dst x s.ti (blurColor val iarr)
    pure { s with li := s.li + 1, val := val, mem := mem, ti := s.ti + 1 }) s
  pure s.mem

/-- Go `boxBlurVertical(src, dst, boxRadius)` on pointers. -/
def boxBlurVerticalAt (src dst : Ref) (boxRadius : Int) (m : Heap) : Except Panic Heap :=
  let iarr := F64.div ⟨1, 0⟩ (float64 (boxRadius + boxRadius + 1))
  let width := (m.read src).Rect.Max.X - (m.read src).Rect.Min.X
  parallel 0 width (boxBlurVerticalColumnAt src dst boxRadius iarr) m

/-- Go `clone(src, dst)` for `src` a `*image.RGBA`, on pointers: the three fields of `*dst`
are assigned first, and `draw.Draw` then reads the object at `src` as it is after these
assignments. -/
def cloneAt (src dst : Ref) (m : Heap) : Except Panic Heap :=
  let b := (m.read src).Rect
  if mul3NonNeg 4 b.Dx b.Dy < 0 ∨ maxAlloc < mul3NonNeg 4 b.Dx b.Dy then
    .error .makeSliceLen
  else do
    let m1 := m.store dst
      { Pix := List.replicate (mul3NonNeg 4 b.Dx b.Dy).toNat 0, Stride := 4 * b.Dx, Rect := b }
    let rows ← (List.range b.Dy.toNat).mapM fun (j : Nat) =>
      (Image.rgba (m1.read src)).row b (b.Min.Y + (j : Int))
    pure (m1.store dst { Pix := rows.flatten, Stride := 4 * b.Dx, Rect := b })

/-- One iteration of the loop of `Gaussian`, on pointers. -/
def gaussianStepAt (rgbaSrc dst : Ref) (m : Heap) (box : Int) : Except Panic Heap := do
  let m ← boxBlurHorizontalAt dst rgbaSrc ((box - 1).tdiv 2) m
  boxBlurVerticalAt rgbaSrc dst ((box - 1).tdiv 2) m

/-- The body of Go `Gaussian` for a `*image.RGBA` source and a non-nil destination, on
pointers: `clone(rgbaSrc, dst)`, the plan, and the loop. -/
def GaussianAt (rgbaSrc dst : Ref) (sigma boxes : Int) (m : Heap) : Except Panic Heap := do
  let m ← cloneAt rgbaSrc dst m
  let sizes ← sigma2BoxDimension sigma boxes
  sizes.foldlM (gaussianStepAt rgbaSrc dst) m

/-- Go `Gaussian(img, img, sigma, boxes)`: the call whose destination is the very
`*image.RGBA` that is passed as source.  The result is the final state of that object. -/
def GaussianInPlace (p : RGBA) (sigma boxes : Int) : Except Panic RGBA :=
  (GaussianAt .fst .fst sigma boxes ⟨p, p⟩).map fun m => m.fst

/-- A zeroed dense raster of width `w` and height `h` with origin `(0, 0)`. -/
def zeroRGBA (w h : Nat) : RGBA :=
  { Pix := List.replicate (4 * w * h) 0, Stride := 4 * w, Rect := ⟨⟨0, 0⟩, ⟨w, h⟩⟩ }

/-- The 3×1 raster with the grey levels 0, 100, 200. -/
def ramp3 : RGBA := grey 3 1 fun x _ => if x = 0 then 0 else if x = 1 then 100 else 200

/-- The 3×3 raster that is black except for a white pixel at the centre `(1, 1)`. -/
def impulse3 : RGBA := grey 3 3 fun x y => if x = 1 ∧ y = 1 then 255 else 0

/-! ## The scan-line algorithm on pointers -/

/-- Body of the second loop over a scan line, on pointers (see `leadStep`). -/
def leadStepAt (get : Heap → Int → Except Panic (Fin 4 → Int))
    (put : Int → Color → Heap → Except Panic Heap) (fv : Fin 4 → Int) (iarr : F64)
    (_j : Int) (s : HeapLineState) : Except Panic HeapLineState := do
  let px ← get s.mem s.ri
  let val := s.val + (px - fv)
  let mem ← put s.ti (blurColor val iarr) s.mem
  pure { s with ri := s.ri + 1, val := val, mem := mem, ti := s.ti + 1 }

/-- Body of the third loop over a scan line, on pointers (see `slideStep`). -/
def slideStepAt (get : Heap → Int → Except Panic (Fin 4 → Int))
    (put : Int → Color → Heap → Except Panic Heap) (iarr : F64)
    (_j : Int) (s : HeapLineState) : Except Panic HeapLineState := do
  let rpx ← get s.mem s.ri
  let lpx ← get s.mem s.li
  let val := s.val + (rpx - lpx)
  let mem ← put s.ti (blurColor val iarr) s.mem
  pure { ri := s.ri + 1, li := s.li + 1, val := val, mem := mem, ti := s.ti + 1 }

/-- Body of the fourth loop over a scan line, on pointers (see `trailStep`); `getLast` is the
read at `lvpos`. -/
def trailStepAt (get : Heap → Int → Except Panic (Fin 4 → Int))
    (getLast : Heap → Except Panic (Fin 4 → Int))
    (put : Int → Color → Heap → Except Panic Heap) (iarr : F64)
    (_j : Int) (s : HeapLineState) : Except Panic HeapLineState := do
  let lvpx ← getLast s.mem
  let px ← get s.mem s.li
  let val := s.val + (lvpx - px)
  let mem ← put s.ti (blurColor val iarr) s.mem
  pure { s with li := s.li + 1, val := val, mem := mem, ti := s.ti + 1 }

/-- The loops of `boxBlurHorizontal` and `boxBlurVertical` over one scan line, on pointers,
with the reads and the `SetRGBA` calls left abstract: the row work and the column work on
pointers are its two instances (`boxBlurHorizontalRowAt_eq_lineBlurAt`,
`boxBlurVerticalColumnAt_eq_lineBlurAt`). -/
def lineBlurAt (get : Heap → Int → Except Panic (Fin 4 → Int))
    (getLast : Heap → Except Panic (Fin 4 → Int))
    (put : Int → Color → Heap → Except Panic Heap) (lo hi boxRadius : Int) (iarr : F64)
    (m : Heap) : Except Panic Heap := do
  let fv ← get m lo
  let val ← forRange 0 boxRadius (accumulateStep (get m) lo) ((boxRadius + 1) • fv)
  let s ← forRange 0 (boxRadius + 1) (leadStepAt get put fv iarr)
    { ti := lo, li := lo, ri := lo + boxRadius, val := val, mem := m }
  let s ← forRange (boxRadius + 1) (hi - boxRadius) (slideStepAt get put iarr) s
  let s ← forRange (hi - boxRadius) hi (trailStepAt get getLast put iarr) s
  pure s.mem

/-- The loop variables of a call by value, with the objects `f d` for the destination `d`. -/
def HeapLineState.ofLine (f : RGBA → Heap) (s : LineState) : HeapLineState :=
  { ti := s.ti, li := s.li, ri := s.ri, val := s.val, mem := f s.dst }

/-! ## Machine integers: basic facts -/

theorem wrap64_of_range {z : Int} (h1 : -2 ^ 63 ≤ z) (h2 : z < 2 ^ 63) : wrap64 z = z := by
  unfold wrap64
  omega

theorem ilog2Aux_spec (fuel : Nat) : ∀ n : Nat, n ≤ fuel → n ≠ 0 →
    2 ^ ilog2Aux fuel n ≤ n ∧ n < 2 ^ (ilog2Aux fuel n + 1) := by
  induction fuel with
  | zero => intro n h h0; omega
  | succ f ih =>
    intro n h h0
    unfold ilog2Aux
    by_cases h2 : n < 2
    · simp only [h2, if_true]
      constructor <;> simp <;> omega
    · simp only [h2, if_false]
      have hn : n / 2 ≤ f := by omega
      have hn0 : n / 2 ≠ 0 := by omega
      obtain ⟨a, b⟩ := ih (n / 2) hn hn0
      constructor
      · rw [pow_succ]; omega
      · rw [pow_succ]; omega

theorem ilog2_le {n : Nat} (h : n ≠ 0) : 2 ^ ilog2 n ≤ n :=
  (ilog2Aux_spec n n le_rfl h).1

theorem lt_ilog2 {n : Nat} (h : n ≠ 0) : n < 2 ^ (ilog2 n + 1) :=
  (ilog2Aux_spec n n le_rfl h).2

theorem ilog2_lt_of_lt {n k : Nat} (h : n ≠ 0) (hk : n < 2 ^ k) : ilog2 n < k := by
  by_contra hc
  have h1 := ilog2_le h
  have h2 : 2 ^ k ≤ 2 ^ ilog2 n := Nat.pow_le_pow_right (by norm_num) (by omega)
  omega

theorem le_ilog2_of_le {n k : Nat} (hk : 2 ^ k ≤ n) : k ≤ ilog2 n := by
  have h : n ≠ 0 := by
    have : 0 < 2 ^ k := Nat.pow_pos (by norm_num)
    omega
  by_contra hc
  have h1 := lt_ilog2 h
  have h2 : 2 ^ (ilog2 n + 1) ≤ 2 ^ k := Nat.pow_le_pow_right (by norm_num) (by omega)
  omega

theorem isqrtAux_spec (k : Nat) : ∀ n r : Nat, r * r ≤ n → n < (r + 2 ^ k) * (r + 2 ^ k) →
    isqrtAux k n r * isqrtAux k n r ≤ n ∧
      n < (isqrtAux k n r + 1) * (isqrtAux k n r + 1) := by
  induction k with
  | zero => intro n r h1 h2; simpa [isqrtAux] using ⟨h1, h2⟩
  | succ k ih =>
    intro n r h1 h2
    unfold isqrtAux
    by_cases hc : (r + 2 ^ k) * (r + 2 ^ k) ≤ n
    · simp only [hc, if_true]
      apply ih _ _ hc
      have : r + 2 ^ k + 2 ^ k = r + 2 ^ (k + 1) := by rw [pow_succ]; omega
      rw [this]; exact h2
    · simp only [hc, if_false]
      exact ih _ _ h1 (by omega)

theorem isqrt_spec (n : Nat) : isqrt n * isqrt n ≤ n ∧ n < (isqrt n + 1) * (isqrt n + 1) := by
  unfold isqrt
  apply isqrtAux_spec _ _ _ (by simp)
  rcases Nat.eq_zero_or_pos n with h | h
  · subst h; simp
  · have h1 := lt_ilog2 (n := n) (by omega)
    have h2 : 2 ^ (ilog2 n + 1) ≤ 2 ^ (ilog2 n / 2 + 1) * 2 ^ (ilog2 n / 2 + 1) := by
      rw [← pow_add]
      exact Nat.pow_le_pow_right (by norm_num) (by omega)
    simp only [zero_add]
    omega

theorem isqrt_eq_sqrt (n : Nat) : isqrt n = Nat.sqrt n := by
  have h := isqrt_spec n
  exact Nat.eq_sqrt.2 h

/-! ## Binary64 arithmetic: rounding -/

theorem two_zpow_split (e : ℤ) : (2 : ℚ) ^ e = (2 : ℚ) ^ e.toNat / (2 : ℚ) ^ (-e).toNat := by
  rcases le_or_lt 0 e with h | h
  · have h0 : (-e).toNat = 0 := by omega
    rw [h0, pow_zero, div_one]
    lift e to ℕ using h
    simp
  · have h0 : e.toNat = 0 := by omega
    obtain ⟨k, rfl⟩ : ∃ k : ℕ, e = -(k : ℤ) := ⟨(-e).toNat, by omega⟩
    rw [h0]
    simp [zpow_neg]

theorem ratLog2_spec (a b : Nat) (ha : 0 < a) (hb : 0 < b) :
    (2 : ℚ) ^ ratLog2 a b ≤ (a : ℚ) / b ∧ (a : ℚ) / b < (2 : ℚ) ^ (ratLog2 a b + 1) := by
  have ha0 : a ≠ 0 := by omega
  have hb0 : b ≠ 0 := by omega
  have haQ : (0 : ℚ) < a := by exact_mod_cast ha
  have hbQ : (0 : ℚ) < b := by exact_mod_cast hb
  have hla1 : ((2 : ℚ) ^ (ilog2 a : ℤ)) ≤ a := by
    rw [zpow_natCast]; exact_mod_cast ilog2_le ha0
  have hla2 : (a : ℚ) < (2 : ℚ) ^ ((ilog2 a : ℤ) + 1) := by
    have := lt_ilog2 ha0
    have h : ((ilog2 a : ℤ) + 1) = ((ilog2 a + 1 : ℕ) : ℤ) := by push_cast; ring
    rw [h, zpow_natCast]; exact_mod_cast this
  have hlb1 : ((2 : ℚ) ^ (ilog2 b : ℤ)) ≤ b := by
    rw [zpow_natCast]; exact_mod_cast ilog2_le hb0
  have hlb2 : (b : ℚ) < (2 : ℚ) ^ ((ilog2 b : ℤ) + 1) := by
    have := lt_ilog2 hb0
    have h : ((ilog2 b : ℤ) + 1) = ((ilog2 b + 1 : ℕ) : ℤ) := by push_cast; ring
    rw [h, zpow_natCast]; exact_mod_cast this
  have two_pos : ∀ z : ℤ, (0 : ℚ) < (2 : ℚ) ^ z := fun z => zpow_pos (by norm_num) z
  have two_posN : ∀ z : ℕ, (0 : ℚ) < (2 : ℚ) ^ z := fun z => pow_pos (by norm_num) z
  set g : ℤ := (ilog2 a : ℤ) - (ilog2 b : ℤ) with hg
  by_cases hc : b * 2 ^ g.toNat ≤ a * 2 ^ (-g).toNat
  · have hr : ratLog2 a b = g := by simp [ratLog2, ← hg, hc]
    rw [hr]
    refine ⟨?_, ?_⟩
    · rw [two_zpow_split g, le_div_iff₀ hbQ, div_mul_eq_mul_div, div_le_iff₀ (two_posN _)]
      have : ((b * 2 ^ g.toNat : ℕ) : ℚ) ≤ ((a * 2 ^ (-g).toNat : ℕ) : ℚ) := by
        exact_mod_cast hc
      push_cast at this
      linarith
    · rw [div_lt_iff₀ hbQ]
      have h1 : (2 : ℚ) ^ (g + 1) = (2 : ℚ) ^ ((ilog2 a : ℤ) + 1) / (2 : ℚ) ^ (ilog2 b : ℤ) := by
        rw [← zpow_sub₀ (by norm_num)]; congr 1; omega
      rw [h1, div_mul_eq_mul_div, lt_div_iff₀ (two_pos _)]
      calc (a : ℚ) * 2 ^ (ilog2 b : ℤ) ≤ a * b := by
            apply mul_le_mul_of_nonneg_left hlb1 haQ.le
        _ < 2 ^ ((ilog2 a : ℤ) + 1) * b := by
            apply mul_lt_mul_of_pos_right hla2 hbQ
  · have hr : ratLog2 a b = g - 1 := by simp [ratLog2, ← hg, hc]
    rw [hr]
    refine ⟨?_, ?_⟩
    · rw [le_div_iff₀ hbQ]
      have h1 : (2 : ℚ) ^ (g - 1) = (2 : ℚ) ^ (ilog2 a : ℤ) / (2 : ℚ) ^ ((ilog2 b : ℤ) + 1) := by
        rw [← zpow_sub₀ (by norm_num)]; congr 1; omega
      rw [h1, div_mul_eq_mul_div, div_le_iff₀ (two_pos _)]
      calc (2 : ℚ) ^ (ilog2 a : ℤ) * b ≤ a * b := by
            apply mul_le_mul_of_nonneg_right hla1 hbQ.le
        _ ≤ a * 2 ^ ((ilog2 b : ℤ) + 1) := by
            apply mul_le_mul_of_nonneg_left hlb2.le haQ.le
    · rw [sub_add_cancel, two_zpow_split g, div_lt_iff₀ hbQ, div_mul_eq_mul_div,
        lt_div_iff₀ (two_posN _)]
      have : ((a * 2 ^ (-g).toNat : ℕ) : ℚ) < ((b * 2 ^ g.toNat : ℕ) : ℚ) := by
        exact_mod_cast not_le.1 hc
      push_cast at this
      linarith

theorem nearestEven_spec (num den : Nat) (hden : 0 < den) :
    |((nearestEven num den : ℕ) : ℚ) - (num : ℚ) / den| ≤ 1 / 2 ∧
    num / den ≤ nearestEven num den ∧ nearestEven num den ≤ num / den + 1 := by
  have hd : (0 : ℚ) < den := by exact_mod_cast hden
  have hq : (num : ℚ) = den * ((num / den : ℕ) : ℚ) + ((num % den : ℕ) : ℚ) := by
    exact_mod_cast (Nat.div_add_mod num den).symm
  have hdiv : (num : ℚ) / den = ((num / den : ℕ) : ℚ) + ((num % den : ℕ) : ℚ) / den := by
    conv_lhs => rw [hq]
    field_simp
    ring
  have hr : num % den < den := Nat.mod_lt _ hden
  have hrQ : ((num % den : ℕ) : ℚ) / den < 1 := by
    rw [div_lt_one hd]; exact_mod_cast hr
  have hr0 : (0 : ℚ) ≤ ((num % den : ℕ) : ℚ) / den := by positivity
  unfold nearestEven
  simp only []
  rw [hdiv]
  by_cases h1 : 2 * (num % den) < den
  · simp only [h1, if_true]
    refine ⟨?_, le_rfl, by omega⟩
    have : ((num % den : ℕ) : ℚ) / den ≤ 1 / 2 := by
      rw [div_le_div_iff₀ hd (by norm_num)]
      have : ((2 * (num % den) : ℕ) : ℚ) ≤ den := by exact_mod_cast h1.le
      push_cast at this; linarith
    rw [abs_le]; constructor <;> linarith
  · simp only [h1, if_false]
    have h1' : (1 : ℚ) / 2 ≤ ((num % den : ℕ) : ℚ) / den := by
      rw [div_le_div_iff₀ (by norm_num) hd]
      have : (den : ℚ) ≤ ((2 * (num % den) : ℕ) : ℚ) := by exact_mod_cast not_lt.1 h1
      push_cast at this; linarith
    by_cases h2 : den < 2 * (num % den)
    · simp only [h2, if_true]
      refine ⟨?_, by omega, le_rfl⟩
      push_cast
      rw [abs_le]; constructor <;> linarith
    · simp only [h2, if_false]
      have h3 : ((num % den : ℕ) : ℚ) / den = 1 / 2 := by
        rw [div_eq_div_iff hd.ne' (by norm_num)]
        have : ((2 * (num % den) : ℕ) : ℚ) = den := by exact_mod_cast (by omega : 2 * (num % den) = den)
        push_cast at this; linarith
      split_ifs
      · refine ⟨?_, le_rfl, by omega⟩
        rw [abs_le]; constructor <;> linarith
      · refine ⟨?_, by omega, le_rfl⟩
        push_cast
        rw [abs_le]; constructor <;> linarith

theorem rne53_spec (a b : Nat) (ha : 0 < a) (hb : 0 < b) :
    2 ^ 52 ≤ (rne53 a b).1 ∧ (rne53 a b).1 ≤ 2 ^ 53 ∧
    (rne53 a b).2 = ratLog2 a b - 52 ∧
    |((rne53 a b).1 : ℚ) * (2 : ℚ) ^ (rne53 a b).2 - (a : ℚ) / b| ≤
      (2 : ℚ) ^ ((rne53 a b).2 - 1) := by
  have ha0 : a ≠ 0 := by omega
  have hb0 : b ≠ 0 := by omega
  have haQ : (0 : ℚ) < a := by exact_mod_cast ha
  have hbQ : (0 : ℚ) < b := by exact_mod_cast hb
  obtain ⟨hp1, hp2⟩ := ratLog2_spec a b ha hb
  set e : ℤ := ratLog2 a b - 52 with he
  have h1 : rne53 a b = (nearestEven (a * 2 ^ (-e).toNat) (b * 2 ^ e.toNat), e) := by
    simp [rne53, ha0, hb0, ← he]
  rw [h1]
  simp only []
  set num := a * 2 ^ (-e).toNat with hnum
  set den := b * 2 ^ e.toNat with hdenE
  have hden : 0 < den := Nat.mul_pos hb (Nat.pow_pos (by norm_num))
  have hdQ : (0 : ℚ) < den := by exact_mod_cast hden
  have two_pos : ∀ z : ℤ, (0 : ℚ) < (2 : ℚ) ^ z := fun z => zpow_pos (by norm_num) z
  have hx : (num : ℚ) / den = (a : ℚ) / b / (2 : ℚ) ^ e := by
    rw [hnum, hdenE, two_zpow_split e]
    push_cast
    field_simp
  have hx1 : (2 : ℚ) ^ (52 : ℕ) ≤ (num : ℚ) / den := by
    rw [hx, le_div_iff₀ (two_pos e), ← zpow_natCast, ← zpow_add₀ (by norm_num)]
    have : ((52 : ℕ) : ℤ) + e = ratLog2 a b := by rw [he]; push_cast; ring
    rw [this]; exact hp1
  have hx2 : (num : ℚ) / den < (2 : ℚ) ^ (53 : ℕ) := by
    rw [hx, div_lt_iff₀ (two_pos e), ← zpow_natCast, ← zpow_add₀ (by norm_num)]
    have : ((53 : ℕ) : ℤ) + e = ratLog2 a b + 1 := by rw [he]; push_cast; ring
    rw [this]; exact hp2
  obtain ⟨hn1, hn2, hn3⟩ := nearestEven_spec num den hden
  have hq1 : 2 ^ 52 ≤ num / den := by
    rw [Nat.le_div_iff_mul_le hden]
    have := (le_div_iff₀ hdQ).1 hx1
    exact_mod_cast this
  have hq2 : num / den < 2 ^ 53 := by
    rw [Nat.div_lt_iff_lt_mul hden]
    have := (div_lt_iff₀ hdQ).1 hx2
    exact_mod_cast this
  refine ⟨by omega, by omega, trivial, ?_⟩
  have h2 : ((nearestEven num den : ℕ) : ℚ) * (2 : ℚ) ^ e - (a : ℚ) / b =
      (((nearestEven num den : ℕ) : ℚ) - (num : ℚ) / den) * (2 : ℚ) ^ e := by
    rw [hx]; field_simp
    ring
  rw [h2, abs_mul, abs_of_pos (two_pos e)]
  have h3 : (2 : ℚ) ^ (e - 1) = 1 / 2 * (2 : ℚ) ^ e := by
    rw [zpow_sub₀ (by norm_num)]; simp; ring
  rw [h3]
  exact mul_le_mul_of_nonneg_right hn1 (two_pos e).le

theorem rne53_rel (a b : Nat) (ha : 0 < a) (hb : 0 < b) :
    |((rne53 a b).1 : ℚ) * (2 : ℚ) ^ (rne53 a b).2 - (a : ℚ) / b| ≤
      (a : ℚ) / b * (2 : ℚ) ^ (-53 : ℤ) := by
  obtain ⟨-, -, he, hab⟩ := rne53_spec a b ha hb
  obtain ⟨hp1, -⟩ := ratLog2_spec a b ha hb
  refine hab.trans ?_
  have h : (2 : ℚ) ^ ((rne53 a b).2 - 1) = (2 : ℚ) ^ ratLog2 a b * (2 : ℚ) ^ (-53 : ℤ) := by
    rw [← zpow_add₀ (by norm_num), he]; congr 1; ring
  rw [h]
  exact mul_le_mul_of_nonneg_right hp1 (zpow_pos (by norm_num) _).le

theorem rne53_exact (a : Nat) (h : a < 2 ^ 53) :
    ((rne53 a 1).1 : ℚ) * (2 : ℚ) ^ (rne53 a 1).2 = a := by
  rcases Nat.eq_zero_or_pos a with h0 | ha
  · subst h0; simp [rne53]
  obtain ⟨hp1, -⟩ := ratLog2_spec a 1 ha (by norm_num)
  have ha0 : a ≠ 0 := by omega
  have hp : ratLog2 a 1 ≤ 52 := by
    by_contra hc
    have h1 : (2 : ℚ) ^ (53 : ℤ) ≤ (2 : ℚ) ^ ratLog2 a 1 :=
      zpow_le_zpow_right₀ (by norm_num) (by omega)
    have h2 : (a : ℚ) < (2 : ℚ) ^ (53 : ℤ) := by
      rw [show (53 : ℤ) = ((53 : ℕ) : ℤ) by norm_num, zpow_natCast]
      exact_mod_cast h
    simp only [Nat.cast_one, div_one] at hp1
    linarith
  set e : ℤ := ratLog2 a 1 - 52 with he
  have h1 : rne53 a 1 = (nearestEven (a * 2 ^ (-e).toNat) (1 * 2 ^ e.toNat), e) := by
    simp [rne53, ha0, ← he]
  have h2 : e.toNat = 0 := by omega
  rw [h1, h2]
  simp only [pow_zero, mul_one]
  have h3 : nearestEven (a * 2 ^ (-e).toNat) 1 = a * 2 ^ (-e).toNat := by
    simp [nearestEven, Nat.mod_one]
  rw [h3, two_zpow_split e, h2]
  push_cast
  field_simp

theorem float64_toRat (z : Int) (h : |z| < 2 ^ 53) : (float64 z).toRat = z := by
  have h1 : z.natAbs < 2 ^ 53 := by
    have : (z.natAbs : ℤ) < 2 ^ 53 := by rw [Int.natCast_natAbs]; exact h
    exact_mod_cast this
  have h2 := rne53_exact z.natAbs h1
  unfold float64 F64.toRat
  simp only []
  rw [Int.cast_mul, Int.cast_natCast, mul_assoc, h2]
  have h3 : ((z.sign : ℤ) : ℚ) * ((z.natAbs : ℕ) : ℚ) = ((z.sign * (z.natAbs : ℤ) : ℤ) : ℚ) := by
    rw [Int.cast_mul, Int.cast_natCast]
  rw [h3, Int.sign_mul_natAbs]

theorem mathRound_of_nonneg (x : F64) (h : 0 ≤ x.mant) :
    mathRound x = ⌊x.toRat + 1 / 2⌋ := by
  unfold mathRound F64.toRat
  symm
  rw [Int.floor_eq_iff]
  by_cases he : 0 ≤ x.exp
  · simp only [he, if_true]
    obtain ⟨k, hk⟩ : ∃ k : ℕ, x.exp = k := ⟨x.exp.toNat, by omega⟩
    rw [hk]
    simp only [Int.toNat_ofNat, zpow_natCast]
    push_cast
    constructor <;> linarith
  · simp only [he, if_false]
    obtain ⟨k, hk⟩ : ∃ k : ℕ, x.exp = -(k : ℤ) := ⟨(-x.exp).toNat, by omega⟩
    obtain ⟨m, hm⟩ : ∃ m : ℕ, x.mant = m := ⟨x.mant.toNat, by omega⟩
    rw [hk, hm]
    simp only [neg_neg, Int.toNat_ofNat, Int.natAbs_ofNat, zpow_neg, zpow_natCast]
    have hd : (0 : ℚ) < (2 : ℚ) ^ k := pow_pos (by norm_num) k
    rcases Nat.eq_zero_or_pos m with h0 | hpos
    · subst h0
      simp
      norm_num
    · have hs : (m : ℤ).sign = 1 := Int.sign_eq_one_of_pos (by exact_mod_cast hpos)
      rw [hs, one_mul]
      set N := 2 * m + 2 ^ k with hN
      set D := 2 * 2 ^ k with hD
      have hDpos : 0 < D := by positivity
      have h1 : N / D * D ≤ N := Nat.div_mul_le_self N D
      have h2 : N < D * (N / D + 1) := Nat.lt_mul_div_succ N hDpos
      have hDQ : (0 : ℚ) < (D : ℚ) := by exact_mod_cast hDpos
      have h3 : ((m : ℤ) : ℚ) * ((2 : ℚ) ^ k)⁻¹ + 1 / 2 = (N : ℚ) / (D : ℚ) := by
        rw [hN, hD]; push_cast; field_simp; ring
      rw [h3]
      simp only [Int.cast_natCast]
      constructor
      · rw [le_div_iff₀ hDQ]; exact_mod_cast h1
      · rw [div_lt_iff₀ hDQ]
        have : ((N : ℕ) : ℚ) < ((D * (N / D + 1) : ℕ) : ℚ) := by exact_mod_cast h2
        push_cast at this
        linarith

theorem natAbs_cast_of_nonneg (z : ℤ) (h : 0 ≤ z) : ((z.natAbs : ℕ) : ℚ) = (z : ℚ) := by
  obtain ⟨m, rfl⟩ := Int.eq_ofNat_of_zero_le h
  simp

theorem F64.div_rel (x y : F64) (hx : 0 < x.mant) (hy : 0 < y.mant) :
    0 < (F64.div x y).mant ∧
    |(F64.div x y).toRat - x.toRat / y.toRat| ≤ x.toRat / y.toRat * (2 : ℚ) ^ (-53 : ℤ) := by
  have hxn : 0 < x.mant.natAbs := Int.natAbs_pos.2 hx.ne'
  have hyn : 0 < y.mant.natAbs := Int.natAbs_pos.2 hy.ne'
  obtain ⟨hm1, -, -, -⟩ := rne53_spec _ _ hxn hyn
  have hrel := rne53_rel _ _ hxn hyn
  have hsx : x.mant.sign = 1 := Int.sign_eq_one_of_pos hx
  have hsy : y.mant.sign = 1 := Int.sign_eq_one_of_pos hy
  have hxa := natAbs_cast_of_nonneg x.mant hx.le
  have hya := natAbs_cast_of_nonneg y.mant hy.le
  rw [hxa, hya] at hrel
  have hyQ : (0 : ℚ) < (y.mant : ℚ) := by exact_mod_cast hy
  have hxQ : (0 : ℚ) < (x.mant : ℚ) := by exact_mod_cast hx
  have two_pos : ∀ z : ℤ, (0 : ℚ) < (2 : ℚ) ^ z := fun z => zpow_pos (by norm_num) z
  constructor
  · simp only [F64.div, hsx, hsy, one_mul]
    have : 0 < (rne53 x.mant.natAbs y.mant.natAbs).1 := by omega
    exact_mod_cast this
  · set c : ℚ := (2 : ℚ) ^ (x.exp - y.exp) with hc
    have hcpos : 0 < c := two_pos _
    have h1 : (F64.div x y).toRat =
        ((rne53 x.mant.natAbs y.mant.natAbs).1 : ℚ) *
          (2 : ℚ) ^ (rne53 x.mant.natAbs y.mant.natAbs).2 * c := by
      simp only [F64.div, F64.toRat, hsx, hsy, one_mul, Int.cast_natCast]
      rw [mul_assoc, hc, ← zpow_add₀ (by norm_num)]
      congr 2; ring
    have h2 : x.toRat / y.toRat = (x.mant : ℚ) / y.mant * c := by
      simp only [F64.toRat]
      rw [hc, zpow_sub₀ (by norm_num)]
      field_simp
    rw [h1, h2, ← sub_mul, abs_mul, abs_of_pos hcpos]
    calc _ ≤ (x.mant : ℚ) / y.mant * (2 : ℚ) ^ (-53 : ℤ) * c :=
          mul_le_mul_of_nonneg_right hrel hcpos.le
      _ = _ := by ring

theorem F64.mul_rel (x y : F64) (hx : 0 < x.mant) (hy : 0 < y.mant) :
    0 < (F64.mul x y).mant ∧
    |(F64.mul x y).toRat - x.toRat * y.toRat| ≤ x.toRat * y.toRat * (2 : ℚ) ^ (-53 : ℤ) := by
  have hxn : 0 < x.mant.natAbs := Int.natAbs_pos.2 hx.ne'
  have hyn : 0 < y.mant.natAbs := Int.natAbs_pos.2 hy.ne'
  have hxy : 0 < x.mant.natAbs * y.mant.natAbs := Nat.mul_pos hxn hyn
  obtain ⟨hm1, -, -, -⟩ := rne53_spec _ 1 hxy (by norm_num)
  have hrel := rne53_rel _ 1 hxy (by norm_num)
  have hsx : x.mant.sign = 1 := Int.sign_eq_one_of_pos hx
  have hsy : y.mant.sign = 1 := Int.sign_eq_one_of_pos hy
  have hxa := natAbs_cast_of_nonneg x.mant hx.le
  have hya := natAbs_cast_of_nonneg y.mant hy.le
  rw [Nat.cast_mul, hxa, hya, Nat.cast_one, div_one] at hrel
  have two_pos : ∀ z : ℤ, (0 : ℚ) < (2 : ℚ) ^ z := fun z => zpow_pos (by norm_num) z
  constructor
  · simp only [F64.mul, hsx, hsy, one_mul]
    have : 0 < (rne53 (x.mant.natAbs * y.mant.natAbs) 1).1 := by omega
    exact_mod_cast this
  · set c : ℚ := (2 : ℚ) ^ (x.exp + y.exp) with hc
    have hcpos : 0 < c := two_pos _
    have h1 : (F64.mul x y).toRat =
        ((rne53 (x.mant.natAbs * y.mant.natAbs) 1).1 : ℚ) *
          (2 : ℚ) ^ (rne53 (x.mant.natAbs * y.mant.natAbs) 1).2 * c := by
      simp only [F64.mul, F64.toRat, hsx, hsy, one_mul, Int.cast_natCast]
      rw [mul_assoc, hc, ← zpow_add₀ (by norm_num)]
      congr 2; ring
    have h2 : x.toRat * y.toRat = (x.mant : ℚ) * y.mant * c := by
      simp only [F64.toRat]
      rw [hc, zpow_add₀ (by norm_num)]
      ring
    rw [h1, h2, ← sub_mul, abs_mul, abs_of_pos hcpos]
    calc _ ≤ (x.mant : ℚ) * y.mant * (2 : ℚ) ^ (-53 : ℤ) * c :=
          mul_le_mul_of_nonneg_right hrel hcpos.le
      _ = _ := by ring

theorem float64_mant_pos (z : Int) (h0 : 0 < z) (h : z < 2 ^ 53) : 0 < (float64 z).mant := by
  have h1 := float64_toRat z (by rw [abs_of_pos h0]; exact h)
  unfold F64.toRat at h1
  have hz : (0 : ℚ) < (z : ℚ) := by exact_mod_cast h0
  rw [← h1] at hz
  have h2 : (0 : ℚ) < (2 : ℚ) ^ (float64 z).exp := zpow_pos (by norm_num) _
  have h3 : (0 : ℚ) < ((float64 z).mant : ℚ) := pos_of_mul_pos_left hz h2.le
  exact_mod_cast h3

/-- The nearest integer to `v / n`, halves upward: what the blur stores for a window sum `v`
over `n` samples. -/
theorem blur_round_exact (v n : Int) (hn0 : 0 < n) (hodd : n % 2 = 1) (hn : n < 2 ^ 42)
    (hv0 : 0 ≤ v) (hv : v ≤ 255 * n) :
    mathRound (F64.mul (float64 v) (F64.div ⟨1, 0⟩ (float64 n))) = (2 * v + n) / (2 * n) := by
  rcases hv0.eq_or_lt with h0 | hvpos
  · subst h0
    have h1 : (n / (2 * n) : ℤ) = 0 := Int.ediv_eq_zero_of_lt hn0.le (by omega)
    simp [float64, rne53, F64.mul, mathRound, h1]
  have hnQ : (0 : ℚ) < (n : ℚ) := by exact_mod_cast hn0
  have hvQ : (0 : ℚ) < (v : ℚ) := by exact_mod_cast hvpos
  have hN := float64_toRat n (by rw [abs_of_pos hn0]; omega)
  have hNm := float64_mant_pos n hn0 (by omega)
  have hV := float64_toRat v (by rw [abs_of_pos hvpos]; omega)
  have hVm := float64_mant_pos v hvpos (by omega)
  obtain ⟨hIm, hI⟩ := F64.div_rel ⟨1, 0⟩ (float64 n) (by norm_num) hNm
  obtain ⟨hPm, hP⟩ := F64.mul_rel (float64 v) _ hVm hIm
  rw [mathRound_of_nonneg _ hPm.le]
  set I := (F64.div ⟨1, 0⟩ (float64 n)).toRat with hIdef
  set P := (F64.mul (float64 v) (F64.div ⟨1, 0⟩ (float64 n))).toRat with hPdef
  have h1 : (⟨1, 0⟩ : F64).toRat = 1 := by simp [F64.toRat]
  rw [h1, hN] at hI
  rw [hV] at hP
  have hu : (2 : ℚ) ^ (-53 : ℤ) = 1 / 9007199254740992 := by norm_num [zpow_neg]
  rw [hu] at hI hP
  rw [abs_le] at hI hP
  set a : ℚ := 1 / (n : ℚ) with ha
  have hapos : 0 < a := by positivity
  set x : ℚ := (v : ℚ) * a with hx
  have hx0 : 0 ≤ x := by positivity
  have hx255 : x ≤ 255 := by
    rw [hx, ha, mul_one_div, div_le_iff₀ hnQ]; exact_mod_cast hv
  -- bounds on the product
  have hI1 : (v : ℚ) * I ≤ x * (1 + 1 / 9007199254740992) := by
    rw [hx, mul_assoc]; apply mul_le_mul_of_nonneg_left _ hvQ.le; linarith [hI.2]
  have hI2 : x * (1 - 1 / 9007199254740992) ≤ (v : ℚ) * I := by
    rw [hx, mul_assoc]; apply mul_le_mul_of_nonneg_left _ hvQ.le; linarith [hI.1]
  have hP1 : P ≤ x + 1 / 8796093022208 / 2 := by
    have : P ≤ (v : ℚ) * I * (1 + 1 / 9007199254740992) := by linarith [hP.2]
    have h2 : (v : ℚ) * I * (1 + 1 / 9007199254740992) ≤
        x * (1 + 1 / 9007199254740992) * (1 + 1 / 9007199254740992) :=
      mul_le_mul_of_nonneg_right hI1 (by norm_num)
    nlinarith
  have hP2 : x - 1 / 8796093022208 / 2 ≤ P := by
    have : (v : ℚ) * I * (1 - 1 / 9007199254740992) ≤ P := by linarith [hP.1]
    have h2 : x * (1 - 1 / 9007199254740992) * (1 - 1 / 9007199254740992) ≤
        (v : ℚ) * I * (1 - 1 / 9007199254740992) :=
      mul_le_mul_of_nonneg_right hI2 (by norm_num)
    nlinarith
  -- the exact quotient
  set k : ℤ := (2 * v + n) / (2 * n) with hk
  have hdm := Int.ediv_add_emod (2 * v + n) (2 * n)
  have hr0 := Int.emod_nonneg (2 * v + n) (show 2 * n ≠ 0 by omega)
  have hr1 := Int.emod_lt_of_pos (2 * v + n) (show 0 < 2 * n by omega)
  set r : ℤ := (2 * v + n) % (2 * n) with hr
  rw [← hk] at hdm
  have hrodd : r % 2 = 1 := by
    have : 2 * n * k = 2 * (n * k) := by ring
    rw [this] at hdm
    omega
  have hr1' : 1 ≤ r := by omega
  have hr2' : r ≤ 2 * n - 1 := by omega
  have hxk : x = (k : ℚ) - 1 / 2 + (r : ℚ) / (2 * n) := by
    have : ((2 * n * k + r : ℤ) : ℚ) = ((2 * v + n : ℤ) : ℚ) := by rw [hdm]
    push_cast at this
    rw [hx, ha]
    field_simp
    linear_combination (-2 * (n : ℚ)) * this
  have hinv : (1 : ℚ) / 8796093022208 ≤ 1 / (2 * n) := by
    apply one_div_le_one_div_of_le (by positivity)
    have : ((2 * n : ℤ) : ℚ) ≤ ((8796093022208 : ℤ) : ℚ) := by
      exact_mod_cast (by omega : 2 * n ≤ 8796093022208)
    push_cast at this
    exact this
  have hrq1 : (1 : ℚ) / (2 * n) ≤ (r : ℚ) / (2 * n) := by
    apply div_le_div_of_nonneg_right _ (by positivity)
    exact_mod_cast hr1'
  have hrq2 : (r : ℚ) / (2 * n) ≤ 1 - 1 / (2 * n) := by
    have h3 : (r : ℚ) / (2 * n) + 1 / (2 * n) = ((r : ℚ) + 1) / (2 * n) := by ring
    have h4 : ((r : ℚ) + 1) / (2 * n) ≤ 1 := by
      rw [div_le_one (by positivity)]
      have : ((r : ℤ) : ℚ) ≤ ((2 * n - 1 : ℤ) : ℚ) := by exact_mod_cast hr2'
      push_cast at this
      linarith
    linarith
  have hpos2n : (0 : ℚ) < 1 / 8796093022208 := by norm_num
  rw [Int.floor_eq_iff]
  constructor <;> linarith


/-! ## The planner -/

theorem float64_pos_spec (k : Int) (h1 : 1 ≤ k) (h2 : k < 2 ^ 63) :
    2 ^ 52 ≤ (float64 k).mant ∧ (float64 k).mant ≤ 2 ^ 53 ∧
      -52 ≤ (float64 k).exp ∧ (float64 k).exp ≤ 10 := by
  have ha : 0 < k.natAbs := Int.natAbs_pos.2 (by omega)
  obtain ⟨hm1, hm2, he, -⟩ := rne53_spec k.natAbs 1 ha (by norm_num)
  obtain ⟨hp1, hp2⟩ := ratLog2_spec k.natAbs 1 ha (by norm_num)
  have hs : k.sign = 1 := Int.sign_eq_one_of_pos (by omega)
  have hkQ : ((k.natAbs : ℕ) : ℚ) = (k : ℚ) := natAbs_cast_of_nonneg k (by omega)
  simp only [Nat.cast_one, div_one, hkQ] at hp1 hp2
  have hk1 : (1 : ℚ) ≤ (k : ℚ) := by exact_mod_cast h1
  have hk2 : (k : ℚ) < (2 : ℚ) ^ (63 : ℤ) := by
    rw [show (63 : ℤ) = ((63 : ℕ) : ℤ) by norm_num, zpow_natCast]
    exact_mod_cast h2
  have hp0 : 0 ≤ ratLog2 k.natAbs 1 := by
    by_contra hc
    have : (2 : ℚ) ^ (ratLog2 k.natAbs 1 + 1) ≤ (2 : ℚ) ^ (0 : ℤ) :=
      zpow_le_zpow_right₀ (by norm_num) (by omega)
    simp only [zpow_zero] at this
    linarith
  have hp62 : ratLog2 k.natAbs 1 ≤ 62 := by
    by_contra hc
    have : (2 : ℚ) ^ (63 : ℤ) ≤ (2 : ℚ) ^ ratLog2 k.natAbs 1 :=
      zpow_le_zpow_right₀ (by norm_num) (by omega)
    linarith
  simp only [float64, hs, one_mul]
  refine ⟨by exact_mod_cast hm1, by exact_mod_cast hm2, by omega, by omega⟩

theorem mathSqrt_spec (x : F64) (hm1 : 2 ^ 52 ≤ x.mant) (hm2 : x.mant ≤ 2 ^ 53)
    (he1 : -52 ≤ x.exp) (he2 : x.exp ≤ 10) :
    ∃ y : F64, mathSqrt x = some y ∧ 2 ^ 52 ≤ y.mant ∧ y.mant ≤ 2 ^ 53 ∧
      -52 ≤ y.exp ∧ y.exp ≤ -21 := by
  obtain ⟨m, hm⟩ : ∃ m : ℕ, x.mant = m := ⟨x.mant.toNat, by omega⟩
  have hmn1 : 2 ^ 52 ≤ m := by rw [hm] at hm1; exact_mod_cast hm1
  have hmn2 : m ≤ 2 ^ 53 := by rw [hm] at hm2; exact_mod_cast hm2
  have hL1 : 52 ≤ ilog2 m := le_ilog2_of_le hmn1
  have hL2 : ilog2 m < 54 := ilog2_lt_of_lt (by omega) (by omega)
  have hLle := ilog2_le (n := m) (by omega)
  have hLlt := lt_ilog2 (n := m) (by omega)
  set s0 : ℤ := 104 - (ilog2 m : ℤ) with hs0
  set s : ℤ := if (x.exp - s0) % 2 = 0 then s0 else s0 + 1 with hs
  have hpar : (x.exp - s) % 2 = 0 := by
    rw [hs]; split_ifs with h <;> omega
  have hs1 : s0 ≤ s := by rw [hs]; split_ifs <;> omega
  have hs2 : s ≤ s0 + 1 := by rw [hs]; split_ifs <;> omega
  set d : ℕ := m * 2 ^ s.toNat with hd
  have hd1 : 2 ^ 104 ≤ d := by
    have h1 : 2 ^ 104 = 2 ^ ilog2 m * 2 ^ (104 - ilog2 m) := by
      rw [← pow_add]; congr 1; omega
    rw [h1, hd]
    apply Nat.mul_le_mul hLle
    apply Nat.pow_le_pow_right (by norm_num)
    omega
  have hd2 : d < 2 ^ 106 := by
    have h1 : 2 ^ 106 = 2 ^ (ilog2 m + 1) * 2 ^ (105 - ilog2 m) := by
      rw [← pow_add]; congr 1; omega
    rw [h1, hd]
    apply Nat.mul_lt_mul_of_lt_of_le hLlt
    · apply Nat.pow_le_pow_right (by norm_num)
      omega
    · exact Nat.pow_pos (by norm_num)
  obtain ⟨hr1, hr2⟩ := isqrt_spec d
  have hr3 : 2 ^ 52 ≤ isqrt d := by
    by_contra hc
    have h1 : isqrt d + 1 ≤ 2 ^ 52 := by omega
    have := Nat.mul_le_mul h1 h1
    norm_num at this hd1
    omega
  have hr4 : isqrt d < 2 ^ 53 := by
    by_contra hc
    have h1 : 2 ^ 53 ≤ isqrt d := by omega
    have := Nat.mul_le_mul h1 h1
    norm_num at this hd2
    omega
  have hx0 : ¬ x.mant < 0 := by omega
  have hx1 : ¬ x.mant = 0 := by
    have : (0:ℤ) < 2 ^ 52 := by norm_num
    omega
  have hmt : x.mant.toNat = m := by omega
  refine ⟨_, by simp only [mathSqrt, hx0, hx1, if_false, hmt, ← hs0, ← hs, ← hd]; rfl, ?_, ?_, ?_, ?_⟩
  · simp only []
    split_ifs <;> push_cast <;> omega
  · simp only []
    split_ifs <;> push_cast <;> omega
  · simp only []
    omega
  · simp only []
    omega

theorem mathFloor_spec (y : F64) (hm1 : 2 ^ 52 ≤ y.mant) (hm2 : y.mant ≤ 2 ^ 53)
    (he1 : -52 ≤ y.exp) (he2 : y.exp ≤ -21) :
    1 ≤ mathFloor y ∧ mathFloor y ≤ 2 ^ 32 := by
  unfold mathFloor
  have h0 : ¬ 0 ≤ y.exp := by omega
  simp only [h0, if_false]
  obtain ⟨k, hk⟩ : ∃ k : ℕ, -y.exp = k := ⟨(-y.exp).toNat, by omega⟩
  rw [hk, Int.toNat_ofNat]
  have hk1 : 21 ≤ k := by omega
  have hk2 : k ≤ 52 := by omega
  have hp1 : (2 : ℤ) ^ 21 ≤ (2 : ℤ) ^ k := pow_le_pow_right₀ (by norm_num) hk1
  have hp2 : (2 : ℤ) ^ k ≤ (2 : ℤ) ^ 52 := pow_le_pow_right₀ (by norm_num) hk2
  have hpos : (0 : ℤ) < (2 : ℤ) ^ k := by positivity
  constructor
  · rw [Int.le_ediv_iff_mul_le hpos]
    omega
  · have : y.mant / (2 : ℤ) ^ k < 2 ^ 32 + 1 := by
      apply Int.ediv_lt_of_lt_mul hpos
      have : (2 ^ 32 + 1 : ℤ) * 2 ^ 21 ≤ (2 ^ 32 + 1) * 2 ^ k :=
        mul_le_mul_of_nonneg_left hp1 (by norm_num)
      norm_num at this hm2 ⊢
      omega
    omega

theorem sigma2BoxDimension_one_three : sigma2BoxDimension 1 3 = .ok [3, 3, 3] := by decide!


theorem sigma2BoxDimension_shape (sigma boxes : Int) (hs : 1 ≤ sigma) (hb : 1 ≤ boxes)
    (hm : 8 * boxes ≤ maxAlloc) (hr : 12 * sigma * sigma < 2 ^ 63) :
    ∃ wl : Int, 1 ≤ wl ∧ wl ≤ 2 ^ 32 ∧ ∃ sizes : List Int,
      sigma2BoxDimension sigma boxes = .ok sizes ∧ sizes.length = boxes.toNat ∧
        ∀ w ∈ sizes, w = wl ∨ w = wl + 2 := by
  have hss : 1 ≤ sigma * sigma := by nlinarith
  have h12 : 12 * sigma ≤ 12 * sigma * sigma := by nlinarith
  have e1 : imul 12 sigma = 12 * sigma := wrap64_of_range (by omega) (by omega)
  have e2 : imul (12 * sigma) sigma = 12 * sigma * sigma :=
    wrap64_of_range (by nlinarith) (by omega)
  have hq0 : 0 ≤ (12 * sigma * sigma).tdiv boxes := Int.tdiv_nonneg (by nlinarith) (by omega)
  have hq1 : (12 * sigma * sigma).tdiv boxes ≤ 12 * sigma * sigma := by
    rw [Int.tdiv_eq_ediv (by nlinarith) (by omega)]
    exact Int.ediv_le_self _ (by nlinarith)
  have e3 : idiv (12 * sigma * sigma) boxes = (12 * sigma * sigma).tdiv boxes :=
    wrap64_of_range (by omega) (by omega)
  have heven : 12 * sigma * sigma = 12 * (sigma * sigma) := by ring
  have e4 : iadd ((12 * sigma * sigma).tdiv boxes) 1 = (12 * sigma * sigma).tdiv boxes + 1 :=
    wrap64_of_range (by omega) (by omega)
  set k : Int := (12 * sigma * sigma).tdiv boxes + 1 with hk
  obtain ⟨a1, a2, a3, a4⟩ := float64_pos_spec k (by omega) (by omega)
  obtain ⟨y, hy, b1, b2, b3, b4⟩ := mathSqrt_spec _ a1 a2 a3 a4
  obtain ⟨c1, c2⟩ := mathFloor_spec y b1 b2 b3 b4
  have e5 : toInt ((mathSqrt (float64 k)).map mathFloor) = mathFloor y := by
    rw [hy]
    simp only [Option.map_some', toInt]
    rw [if_pos]
    constructor <;> omega
  set w0 : Int := mathFloor y with hw0
  have hb0 : ¬ boxes = 0 := by omega
  have hbn : ¬ (boxes < 0 ∨ maxAlloc < 8 * boxes) := by omega
  by_cases hpar : w0.tmod 2 = 0
  · have hw2 : 2 ≤ w0 := by
      rw [Int.tmod_eq_emod (by omega) (by norm_num)] at hpar
      omega
    have e6 : isub w0 1 = w0 - 1 := wrap64_of_range (by omega) (by omega)
    have e7 : iadd (w0 - 1) 2 = w0 - 1 + 2 := wrap64_of_range (by omega) (by omega)
    refine ⟨w0 - 1, by omega, by omega, ?_⟩
    simp only [sigma2BoxDimension, hb0, hbn, if_false, e1, e2, e3, e4, ← hk, e5, hpar, if_true,
      e6, e7]
    refine ⟨_, rfl, by simp, ?_⟩
    intro w hw
    simp only [List.mem_map, List.mem_range] at hw
    obtain ⟨i, -, rfl⟩ := hw
    split_ifs
    · exact Or.inl rfl
    · exact Or.inr rfl
  · have e7 : iadd w0 2 = w0 + 2 := wrap64_of_range (by omega) (by omega)
    refine ⟨w0, by omega, by omega, ?_⟩
    simp only [sigma2BoxDimension, hb0, hbn, if_false, e1, e2, e3, e4, ← hk, e5, hpar, e7]
    refine ⟨_, rfl, by simp, ?_⟩
    intro w hw
    simp only [List.mem_map, List.mem_range] at hw
    obtain ⟨i, -, rfl⟩ := hw
    split_ifs
    · exact Or.inl rfl
    · exact Or.inr rfl

/-- C4 (the claim as stated fails): for `sigma = 1` and `2 ^ 46` passes, both at least 1 and
with `12 * sigma * sigma` in the `int` range, the planner returns no list:
`make([]int, boxes)` panics, the list would take more than `maxAlloc` bytes. -/
theorem sigma2BoxDimension_too_many_passes :
    (1 : Int) ≤ 1 ∧ (1 : Int) ≤ 2 ^ 46 ∧ (12 * 1 * 1 : Int) < 2 ^ 63 ∧
      sigma2BoxDimension 1 (2 ^ 46) = .error .makeSliceLen := by
  refine ⟨by decide, by decide, by decide, by decide!⟩

/-- C4 (amended): for `sigma ≥ 1` and `boxes ≥ 1` with `12 * sigma * sigma` in the `int` range
and a list of `boxes` integers within `maxAlloc` bytes (`boxes ≤ 2 ^ 45`),
`sigma2BoxDimension` returns exactly `boxes` widths, and the radius `(width - 1) / 2` that
`Gaussian` derives from each of them is non-negative. -/
theorem sigma2BoxDimension_length_radius (sigma boxes : Int) (hs : 1 ≤ sigma) (hb : 1 ≤ boxes)
    (hm : 8 * boxes ≤ maxAlloc) (hr : 12 * sigma * sigma < 2 ^ 63) :
    ∃ sizes : List Int, sigma2BoxDimension sigma boxes = .ok sizes ∧
      (sizes.length : Int) = boxes ∧ ∀ box ∈ sizes, 0 ≤ (box - 1).tdiv 2 := by
  obtain ⟨wl, h1, h2, sizes, h, hlen, hmem⟩ :=
    sigma2BoxDimension_shape sigma boxes hs hb hm hr
  refine ⟨sizes, h, by omega, ?_⟩
  intro box hbox
  apply Int.tdiv_nonneg _ (by norm_num)
  rcases hmem box hbox with h3 | h3 <;> omega

theorem sigma2BoxDimension_length_radius_witness :
    ∃ sizes : List Int, sigma2BoxDimension 2 3 = .ok sizes ∧
      (sizes.length : Int) = 3 ∧ ∀ box ∈ sizes, 0 ≤ (box - 1).tdiv 2 :=
  sigma2BoxDimension_length_radius 2 3 (by decide) (by decide) (by decide) (by decide)

/-- C3 (the claim as stated fails): the planner accepts `sigma = 0`; with three passes it
returns the widths `[3, 3, 3]` and raises no error. -/
theorem sigma2BoxDimension_zero_sigma : sigma2BoxDimension 0 3 = .ok [3, 3, 3] := by decide!

/-- What the planner returns or raises, by the number of passes alone. -/
theorem sigma2BoxDimension_cases (sigma boxes : Int) :
    (boxes = 0 → sigma2BoxDimension sigma boxes = .error .divideByZero) ∧
    (boxes < 0 → sigma2BoxDimension sigma boxes = .error .makeSliceLen) ∧
    (maxAlloc < 8 * boxes → sigma2BoxDimension sigma boxes = .error .makeSliceLen) ∧
    (1 ≤ boxes → 8 * boxes ≤ maxAlloc →
      ∃ sizes : List Int, sigma2BoxDimension sigma boxes = .ok sizes ∧
        (sizes.length : Int) = boxes) := by
  have hM : maxAlloc = 2 ^ 48 := rfl
  refine ⟨?_, ?_, ?_, ?_⟩
  · intro h0
    simp only [sigma2BoxDimension, h0, if_true]
  · intro h
    have h0 : ¬ boxes = 0 := by omega
    simp only [sigma2BoxDimension, h0, h, true_or, if_true, if_false]
  · intro h
    have h0 : ¬ boxes = 0 := by omega
    simp only [sigma2BoxDimension, h0, h, or_true, if_true, if_false]
  · intro hb hm
    have h0 : ¬ boxes = 0 := by omega
    have h1 : ¬ (boxes < 0 ∨ maxAlloc < 8 * boxes) := by omega
    simp only [sigma2BoxDimension, h0, h1, if_false]
    refine ⟨_, rfl, ?_⟩
    simp only [List.length_map, List.length_range]
    omega

/-- A panic of the planner is a panic of `Gaussian`: the very same panic once the copies made
before the planner have succeeded and `dst` is not nil. -/
theorem Gaussian_planner_panic (sigma boxes : Int) (e : Panic)
    (he : sigma2BoxDimension sigma boxes = .error e) :
    (∀ (src : Image) (dst : Option RGBA), ∃ e1, Gaussian src dst sigma boxes = .error e1) ∧
    (∀ (p d a : RGBA), clone (.rgba p) = .ok a →
      Gaussian (.rgba p) (some d) sigma boxes = .error e) ∧
    (∀ (b : Rectangle) (f : Int → Int → Color) (d q a : RGBA),
      clone (.generic b f) = .ok q → clone (.rgba q) = .ok a →
      Gaussian (.generic b f) (some d) sigma boxes = .error e) := by
  refine ⟨?_, ?_, ?_⟩
  · intro src dst
    unfold Gaussian
    cases src with
    | rgba p =>
      cases dst with
      | none => exact ⟨_, rfl⟩
      | some d =>
        cases hc : clone (.rgba p) with
        | error e1 => exact ⟨e1, by simp [hc, bind, Except.bind, pure, Except.pure]⟩
        | ok d1 => exact ⟨e, by simp [hc, he, bind, Except.bind, pure, Except.pure]⟩
    | generic b f =>
      cases hg : clone (.generic b f) with
      | error e0 => exact ⟨e0, by simp [hg, bind, Except.bind]⟩
      | ok p =>
        cases dst with
        | none =>
          exact ⟨Panic.nilDestination,
            by simp [hg, bind, Except.bind, throw, throwThe, MonadExceptOf.throw]⟩
        | some d =>
          cases hc : clone (.rgba p) with
          | error e1 => exact ⟨e1, by simp [hg, hc, bind, Except.bind, pure, Except.pure]⟩
          | ok d1 => exact ⟨e, by simp [hg, hc, he, bind, Except.bind, pure, Except.pure]⟩
  · intro p d a hc
    simp [Gaussian, hc, he, bind, Except.bind, pure, Except.pure]
  · intro b f d q a hg hc
    simp [Gaussian, hg, hc, he, bind, Except.bind, pure, Except.pure]

/-- C3 (amended): the only parameter check is the planner panicking on the number of passes:
integer division by zero for `boxes = 0`, `makeslice: len out of range` for `boxes < 0` and
for a list above `maxAlloc` bytes (`boxes > 2 ^ 45`); every panic of the planner makes
`Gaussian` panic, with that same panic once the source has been copied and `dst` is not nil.
`sigma` is never checked: for `1 ≤ boxes ≤ 2 ^ 45` the planner returns `boxes` widths whatever
`sigma` is. -/
theorem planner_validation (sigma boxes : Int) :
    (boxes = 0 → sigma2BoxDimension sigma boxes = .error .divideByZero) ∧
    (boxes < 0 ∨ maxAlloc < 8 * boxes →
      sigma2BoxDimension sigma boxes = .error .makeSliceLen) ∧
    (1 ≤ boxes → 8 * boxes ≤ maxAlloc →
      ∃ sizes : List Int, sigma2BoxDimension sigma boxes = .ok sizes ∧
        (sizes.length : Int) = boxes) ∧
    (∀ e, sigma2BoxDimension sigma boxes = .error e →
      (∀ (src : Image) (dst : Option RGBA), ∃ e1, Gaussian src dst sigma boxes = .error e1) ∧
      (∀ (p d a : RGBA), clone (.rgba p) = .ok a →
        Gaussian (.rgba p) (some d) sigma boxes = .error e) ∧
      (∀ (b : Rectangle) (f : Int → Int → Color) (d q a : RGBA),
        clone (.generic b f) = .ok q → clone (.rgba q) = .ok a →
        Gaussian (.generic b f) (some d) sigma boxes = .error e)) := by
  obtain ⟨h0, h1, h2, h3⟩ := sigma2BoxDimension_cases sigma boxes
  refine ⟨h0, ?_, h3, fun e he => Gaussian_planner_panic sigma boxes e he⟩
  intro h
  rcases h with h | h
  · exact h1 h
  · exact h2 h

/-- C5 (fails on the code): for `sigma = 1` and three passes the planner returns `[3, 3, 3]`;
the smaller candidate width is `wl = 1`, and the planned widths miss the target `12 * sigma²`
by `12`, more than the tolerance `2 * (wl + 1) = 4`. -/
theorem sigma2BoxDimension_variance_off :
    sigma2BoxDimension 1 3 = .ok [3, 3, 3] ∧
      ¬ |varianceSum [3, 3, 3] - 12 * 1 * 1| ≤ 2 * (1 + 1) := by
  exact ⟨sigma2BoxDimension_one_three, by decide⟩

/-! ## The code on concrete inputs -/

/-- C6 (fails on the code): a uniform raster narrower than the window makes the passes read
past the end of the pixel buffer.  A uniform 2×2 raster panics in both passes with radius 1,
and `Gaussian` with `sigma = 1` and one pass (width 5) panics on a uniform 4×4 raster. -/
theorem uniform_small_raster_panics :
    boxBlurHorizontal (grey 2 2 fun _ _ => 7) (grey 2 2 fun _ _ => 0) 1
      = .error .indexOutOfRange ∧
    boxBlurVertical (grey 2 2 fun _ _ => 7) (grey 2 2 fun _ _ => 0) 1
      = .error .indexOutOfRange ∧
    (Gaussian (.rgba (grey 4 4 fun _ _ => 7)) (some (grey 4 4 fun _ _ => 0)) 1 1).map
      (fun r => r.2) = .error .indexOutOfRange := by
  refine ⟨by decide!, by decide!, by decide!⟩

/-- C7 (fails on the code): on a scan line shorter than the window the passes read positions
past the line's end.  A 3×1 raster panics in the vertical pass with radius 1; and for a 1×1
view into a longer buffer the horizontal pass completes, with an output that changes with the
bytes that lie after the one pixel of the line. -/
theorem short_line_reads_past_end :
    boxBlurVertical (grey 3 1 fun x _ => Fin.ofNat (10 * x)) (grey 3 1 fun _ _ => 0) 1
      = .error .indexOutOfRange ∧
    boxBlurHorizontal
      { Pix := [10, 10, 10, 255, 200, 200, 200, 255, 90, 90, 90, 255], Stride := 12,
        Rect := ⟨⟨0, 0⟩, ⟨1, 1⟩⟩ } (grey 1 1 fun _ _ => 0) 1
      = .ok { Pix := [73, 73, 73, 255], Stride := 4, Rect := ⟨⟨0, 0⟩, ⟨1, 1⟩⟩ } ∧
    boxBlurHorizontal
      { Pix := [10, 10, 10, 255, 0, 0, 0, 255, 0, 0, 0, 255], Stride := 12,
        Rect := ⟨⟨0, 0⟩, ⟨1, 1⟩⟩ } (grey 1 1 fun _ _ => 0) 1
      = .ok { Pix := [7, 7, 7, 255], Stride := 4, Rect := ⟨⟨0, 0⟩, ⟨1, 1⟩⟩ } := by
  refine ⟨by decide!, by decide!, by decide!⟩


theorem boxBlurHorizontalRow_eq_lineBlur (src : RGBA) (r : Int) (iarr : F64) (y : Int)
    (dst : RGBA) :
    boxBlurHorizontalRow src r iarr y dst =
      lineBlur (fun x => src.pixel (src.PixOffset x y)) (fun x c d => d.SetRGBA x y c)
        src.Rect.Min.X src.Rect.Max.X r iarr dst := rfl

theorem boxBlurVerticalColumn_eq_lineBlur (src : RGBA) (r : Int) (iarr : F64) (x : Int)
    (dst : RGBA) :
    boxBlurVerticalColumn src r iarr x dst =
      lineBlur (fun y => src.pixel (src.PixOffset x y)) (fun y c d => d.SetRGBA x y c)
        src.Rect.Min.Y src.Rect.Max.Y r iarr dst := rfl

theorem loopFrom_inv {σ : Type} (body : Int → σ → Except Panic σ) (n : Nat) :
    ∀ (Inv : Nat → σ → Prop) (j : Int) (s : σ), Inv 0 s →
      (∀ (k : Nat) (s : σ), k < n → Inv k s → ∃ s1, body (j + k) s = .ok s1 ∧ Inv (k + 1) s1) →
      ∃ s1, loopFrom body n j s = .ok s1 ∧ Inv n s1 := by
  induction n with
  | zero => intro Inv j s h0 _; exact ⟨s, rfl, h0⟩
  | succ n ih =>
    intro Inv j s h0 hstep
    obtain ⟨s1, hb, h1⟩ := hstep 0 s (by omega) h0
    simp only [Nat.cast_zero, add_zero] at hb
    obtain ⟨s2, hl, h2⟩ := ih (fun k => Inv (k + 1)) (j + 1) s1 h1 (by
      intro k t hk hI
      obtain ⟨t1, ht, hI1⟩ := hstep (k + 1) t (by omega) hI
      refine ⟨t1, ?_, hI1⟩
      rw [← ht]; congr 1; push_cast; ring)
    exact ⟨s2, by simp only [loopFrom, hb, hl], h2⟩



/-! ## Window sums -/

theorem clampIndex_of_mem {i w : Int} (h0 : 0 ≤ i) (h1 : i < w) : clampIndex i w = i := by
  unfold clampIndex
  rw [min_eq_left (by omega), max_eq_right h0]

theorem clampIndex_of_nonpos {i w : Int} (h0 : i ≤ 0) : clampIndex i w = 0 := by
  unfold clampIndex
  rw [max_eq_left]
  exact le_trans (min_le_left _ _) h0

theorem clampIndex_of_ge {i w : Int} (h0 : w - 1 ≤ i) (hw : 0 < w) :
    clampIndex i w = w - 1 := by
  unfold clampIndex
  rw [min_eq_right h0, max_eq_right (by omega)]

theorem sum_range_shift {G : Type} [AddCommGroup G] (q : Int → G) (n : Nat) (a : Int) :
    ∑ k in Finset.range n, q (a + 1 + (k : Int)) =
      ∑ k in Finset.range n, q (a + (k : Int)) + q (a + n) - q a := by
  have h1 := Finset.sum_range_succ (fun k : Nat => q (a + (k : Int))) n
  have h2 := Finset.sum_range_succ' (fun k : Nat => q (a + (k : Int))) n
  simp only [Nat.cast_add, Nat.cast_one, Nat.cast_zero, add_zero] at h1 h2
  have h3 : ∑ k in Finset.range n, q (a + 1 + (k : Int)) =
      ∑ k in Finset.range n, q (a + ((k : Int) + 1)) :=
    Finset.sum_congr rfl (fun k _ => by congr 1; ring)
  rw [h3]
  rw [h1] at h2
  rw [eq_sub_iff_add_eq, ← h2]

theorem windowSum_step {G : Type} [AddCommGroup G] (p : Int → G) (w : Int) (R : Nat) (j : Int) :
    windowSum p w R j =
      windowSum p w R (j - 1) + p (clampIndex (j + R) w) - p (clampIndex (j - 1 - R) w) := by
  unfold windowSum
  have hn : (2 * (R : Int) + 1).toNat = 2 * R + 1 := by omega
  rw [hn]
  have h := sum_range_shift (fun i => p (clampIndex i w)) (2 * R + 1) (j - 1 - R)
  simp only [] at h
  have e1 : ∀ k : Nat, j - 1 - (R : Int) + 1 + (k : Int) = j + k - R := fun k => by ring
  have e2 : ∀ k : Nat, j - 1 - (R : Int) + (k : Int) = j - 1 + k - R := fun k => by ring
  have e3 : j - 1 + ((2 * R + 1 : Nat) : Int) - (R : Int) = j + R := by push_cast; ring
  simp only [e1, e2, e3] at h
  exact h

theorem windowSum_base {G : Type} [AddCommGroup G] (p : Int → G) (w : Int) (R : Nat)
    (hw : (R : Int) + 1 ≤ w) :
    windowSum p w R (-1) = ((R : Int) + 1) • p 0 + ∑ i in Finset.range R, p (i : Int) := by
  unfold windowSum
  have hn : (2 * (R : Int) + 1).toNat = (R + 1) + R := by omega
  rw [hn, Finset.sum_range_add]
  congr 1
  · rw [Finset.sum_congr rfl (fun k hk => by
      rw [clampIndex_of_nonpos (by simp only [Finset.mem_range] at hk; omega)]),
      Finset.sum_const, Finset.card_range]
    rw [← natCast_zsmul]
    push_cast
    rfl
  · apply Finset.sum_congr rfl
    intro k hk
    simp only [Finset.mem_range] at hk
    rw [clampIndex_of_mem (by push_cast; omega) (by push_cast; omega)]
    congr 1
    push_cast
    ring



/-! ## Correctness of the scan-line algorithm -/

theorem accumulateStep_ok {get : Int → Except Panic (Fin 4 → Int)} {ti j : Int}
    {val px : Fin 4 → Int} (hg : get (ti + j) = .ok px) :
    accumulateStep get ti j val = .ok (val + px) := by
  simp [accumulateStep, hg, bind, Except.bind, pure, Except.pure]

theorem leadStep_ok {get : Int → Except Panic (Fin 4 → Int)}
    {put : Int → Color → RGBA → Except Panic RGBA} {fv : Fin 4 → Int} {iarr : F64} {j : Int}
    {s : LineState} {px : Fin 4 → Int} {d : RGBA} (hg : get s.ri = .ok px)
    (hp : put s.ti (blurColor (s.val + (px - fv)) iarr) s.dst = .ok d) :
    leadStep get put fv iarr j s =
      .ok { s with ri := s.ri + 1, val := s.val + (px - fv), dst := d, ti := s.ti + 1 } := by
  simp [leadStep, hg, hp, bind, Except.bind, pure, Except.pure]

theorem slideStep_ok {get : Int → Except Panic (Fin 4 → Int)}
    {put : Int → Color → RGBA → Except Panic RGBA} {iarr : F64} {j : Int}
    {s : LineState} {rpx lpx : Fin 4 → Int} {d : RGBA} (hr : get s.ri = .ok rpx)
    (hl : get s.li = .ok lpx)
    (hp : put s.ti (blurColor (s.val + (rpx - lpx)) iarr) s.dst = .ok d) :
    slideStep get put iarr j s =
      .ok { ri := s.ri + 1, li := s.li + 1, val := s.val + (rpx - lpx), dst := d,
            ti := s.ti + 1 } := by
  simp [slideStep, hr, hl, hp, bind, Except.bind, pure, Except.pure]

theorem trailStep_ok {get : Int → Except Panic (Fin 4 → Int)}
    {put : Int → Color → RGBA → Except Panic RGBA} {lv : Int} {iarr : F64} {j : Int}
    {s : LineState} {lvpx px : Fin 4 → Int} {d : RGBA} (hv : get lv = .ok lvpx)
    (hl : get s.li = .ok px)
    (hp : put s.ti (blurColor (s.val + (lvpx - px)) iarr) s.dst = .ok d) :
    trailStep get put lv iarr j s =
      .ok { s with li := s.li + 1, val := s.val + (lvpx - px), dst := d, ti := s.ti + 1 } := by
  simp [trailStep, hv, hl, hp, bind, Except.bind, pure, Except.pure]

theorem lineBlur_accumulate (get : Int → Except Panic (Fin 4 → Int)) (w R : Nat)
    (p : Int → Fin 4 → Int) (hw : 2 * R + 1 ≤ w)
    (hget : ∀ x : Int, 0 ≤ x → x < w → get x = .ok (p x)) :
    loopFrom (accumulateStep get 0) R 0 (((R : Int) + 1) • p 0) =
      .ok (windowSum p w R (-1)) := by
  obtain ⟨v1, hl1, hv1⟩ := loopFrom_inv (accumulateStep get 0) R
    (fun k val => val = ((R : Int) + 1) • p 0 + ∑ i in Finset.range k, p (i : Int))
    0 (((R : Int) + 1) • p 0) (by simp) (by
      intro k val hk hval
      refine ⟨val + p k, ?_, ?_⟩
      · apply accumulateStep_ok
        have e : (0 : Int) + (0 + (k : Int)) = k := by omega
        rw [e]
        exact hget _ (by omega) (by omega)
      · beta_reduce
        rw [hval, Finset.sum_range_succ, add_assoc])
  rw [← windowSum_base p w R (by omega)] at hv1
  rw [hl1, hv1]

/-- One iteration of the second loop: after `k` iterations the running sum is the window sum
around position `k - 1`. -/
theorem leadStep_inv (get : Int → Except Panic (Fin 4 → Int))
    (put : Int → Color → RGBA → Except Panic RGBA) (w R : Nat) (iarr : F64)
    (p : Int → Fin 4 → Int) (hw : 2 * R + 1 ≤ w)
    (hget : ∀ x : Int, 0 ≤ x → x < w → get x = .ok (p x))
    (P : Nat → RGBA → Prop)
    (hput : ∀ (k : Nat) (d : RGBA), k < w → P k d →
      ∃ d1, put (k : Int) (blurColor (windowSum p w R k) iarr) d = .ok d1 ∧ P (k + 1) d1)
    (k : Nat) (s : LineState) (hk : k < R + 1)
    (hI : s.ti = (k : Int) ∧ s.li = 0 ∧ s.ri = (R : Int) + k ∧
      s.val = windowSum p w R ((k : Int) - 1) ∧ P k s.dst) :
    ∃ s1, leadStep get put (p 0) iarr (0 + (k : Int)) s = .ok s1 ∧
      (s1.ti = ((k + 1 : Nat) : Int) ∧ s1.li = 0 ∧ s1.ri = (R : Int) + ((k + 1 : Nat) : Int) ∧
        s1.val = windowSum p w R (((k + 1 : Nat) : Int) - 1) ∧ P (k + 1) s1.dst) := by
  obtain ⟨ht, hli, hri, hval, hP⟩ := hI
  have hg : get s.ri = .ok (p ((R : Int) + k)) := by
    rw [hri]; exact hget _ (by omega) (by omega)
  have hW : s.val + (p ((R : Int) + k) - p 0) = windowSum p w R k := by
    rw [windowSum_step p w R k, hval, clampIndex_of_mem (by omega) (by omega),
      clampIndex_of_nonpos (by omega), add_comm (k : Int) (R : Int)]
    abel
  obtain ⟨d, hd, hPd⟩ := hput k s.dst (by omega) hP
  refine ⟨_, leadStep_ok hg (by rw [hW, ht]; exact hd), ?_⟩
  refine ⟨by simp [ht], hli, by simp [hri]; ring, ?_, hPd⟩
  simp only [hW]
  congr 1
  push_cast
  ring

/-- One iteration of the third loop: after `k` iterations the running sum is the window sum
around position `R + k`. -/
theorem slideStep_inv (get : Int → Except Panic (Fin 4 → Int))
    (put : Int → Color → RGBA → Except Panic RGBA) (w R : Nat) (iarr : F64)
    (p : Int → Fin 4 → Int) (hw : 2 * R + 1 ≤ w)
    (hget : ∀ x : Int, 0 ≤ x → x < w → get x = .ok (p x))
    (P : Nat → RGBA → Prop)
    (hput : ∀ (k : Nat) (d : RGBA), k < w → P k d →
      ∃ d1, put (k : Int) (blurColor (windowSum p w R k) iarr) d = .ok d1 ∧ P (k + 1) d1)
    (k : Nat) (s : LineState) (hk : k < w - 2 * R - 1)
    (hI : s.ti = (R : Int) + 1 + k ∧ s.li = (k : Int) ∧ s.ri = 2 * (R : Int) + 1 + k ∧
      s.val = windowSum p w R ((R : Int) + k) ∧ P (R + 1 + k) s.dst) :
    ∃ s1, slideStep get put iarr ((R : Int) + 1 + (k : Int)) s = .ok s1 ∧
      (s1.ti = (R : Int) + 1 + ((k + 1 : Nat) : Int) ∧ s1.li = ((k + 1 : Nat) : Int) ∧
        s1.ri = 2 * (R : Int) + 1 + ((k + 1 : Nat) : Int) ∧
        s1.val = windowSum p w R ((R : Int) + ((k + 1 : Nat) : Int)) ∧
        P (R + 1 + (k + 1)) s1.dst) := by
  obtain ⟨ht, hli, hri, hval, hP⟩ := hI
  have hr : get s.ri = .ok (p (2 * (R : Int) + 1 + k)) := by
    rw [hri]; exact hget _ (by omega) (by omega)
  have hl : get s.li = .ok (p (k : Int)) := by
    rw [hli]; exact hget _ (by omega) (by omega)
  have hW : s.val + (p (2 * (R : Int) + 1 + k) - p (k : Int)) =
      windowSum p w R ((R + 1 + k : Nat) : Int) := by
    rw [windowSum_step p w R ((R + 1 + k : Nat) : Int), hval]
    have e1 : ((R + 1 + k : Nat) : Int) + R = 2 * (R : Int) + 1 + k := by push_cast; ring
    have e2 : ((R + 1 + k : Nat) : Int) - 1 - R = (k : Int) := by push_cast; ring
    have e3 : ((R + 1 + k : Nat) : Int) - 1 = (R : Int) + k := by push_cast; ring
    rw [e1, e2, e3, clampIndex_of_mem (by omega) (by omega),
      clampIndex_of_mem (by omega) (by omega)]
    abel
  obtain ⟨d, hd, hPd⟩ := hput (R + 1 + k) s.dst (by omega) hP
  have ht' : s.ti = ((R + 1 + k : Nat) : Int) := by rw [ht]; push_cast; ring
  refine ⟨_, slideStep_ok hr hl (by rw [hW, ht']; exact hd), ?_⟩
  refine ⟨by simp [ht]; ring, by simp [hli], by simp [hri]; ring, ?_, hPd⟩
  simp only [hW]
  congr 1
  push_cast
  ring

/-- One iteration of the fourth loop: after `k` iterations the running sum is the window sum
around position `w - R + k - 1`. -/
theorem trailStep_inv (get : Int → Except Panic (Fin 4 → Int))
    (put : Int → Color → RGBA → Except Panic RGBA) (w R : Nat) (iarr : F64)
    (p : Int → Fin 4 → Int) (hw : 2 * R + 1 ≤ w)
    (hget : ∀ x : Int, 0 ≤ x → x < w → get x = .ok (p x))
    (P : Nat → RGBA → Prop)
    (hput : ∀ (k : Nat) (d : RGBA), k < w → P k d →
      ∃ d1, put (k : Int) (blurColor (windowSum p w R k) iarr) d = .ok d1 ∧ P (k + 1) d1)
    (k : Nat) (s : LineState) (hk : k < R)
    (hI : s.ti = ((w - R + k : Nat) : Int) ∧ s.li = ((w - 2 * R - 1 + k : Nat) : Int) ∧
      s.val = windowSum p w R (((w - R + k : Nat) : Int) - 1) ∧ P (w - R + k) s.dst) :
    ∃ s1, trailStep get put ((w : Int) - 1) iarr ((w : Int) - R + (k : Int)) s = .ok s1 ∧
      (s1.ti = ((w - R + (k + 1) : Nat) : Int) ∧
        s1.li = ((w - 2 * R - 1 + (k + 1) : Nat) : Int) ∧
        s1.val = windowSum p w R (((w - R + (k + 1) : Nat) : Int) - 1) ∧
        P (w - R + (k + 1)) s1.dst) := by
  obtain ⟨ht, hli, hval, hP⟩ := hI
  have hv : get ((w : Int) - 1) = .ok (p ((w : Int) - 1)) := hget _ (by omega) (by omega)
  have hl : get s.li = .ok (p ((w - 2 * R - 1 + k : Nat) : Int)) := by
    rw [hli]; exact hget _ (by omega) (by omega)
  have hW : s.val + (p ((w : Int) - 1) - p ((w - 2 * R - 1 + k : Nat) : Int)) =
      windowSum p w R ((w - R + k : Nat) : Int) := by
    rw [windowSum_step p w R ((w - R + k : Nat) : Int), hval]
    have e2 : ((w - R + k : Nat) : Int) - 1 - R = ((w - 2 * R - 1 + k : Nat) : Int) := by
      omega
    rw [e2, clampIndex_of_ge (by omega) (by omega),
      clampIndex_of_mem (by omega) (by omega)]
    abel
  obtain ⟨d, hd, hPd⟩ := hput (w - R + k) s.dst (by omega) hP
  refine ⟨_, trailStep_ok hv hl (by rw [hW, ht]; exact hd), ?_⟩
  refine ⟨by simp only [ht]; omega, by simp only [hli]; omega, ?_, hPd⟩
  simp only [hW]
  congr 1
  omega

theorem lineBlur_lead (get : Int → Except Panic (Fin 4 → Int))
    (put : Int → Color → RGBA → Except Panic RGBA) (w R : Nat) (iarr : F64)
    (p : Int → Fin 4 → Int) (hw : 2 * R + 1 ≤ w)
    (hget : ∀ x : Int, 0 ≤ x → x < w → get x = .ok (p x))
    (P : Nat → RGBA → Prop)
    (hput : ∀ (k : Nat) (d : RGBA), k < w → P k d →
      ∃ d1, put (k : Int) (blurColor (windowSum p w R k) iarr) d = .ok d1 ∧ P (k + 1) d1)
    (dst : RGBA) (h0 : P 0 dst) :
    ∃ s, loopFrom (leadStep get put (p 0) iarr) (R + 1) 0
        { ti := 0, li := 0, ri := 0 + R, val := windowSum p w R (-1), dst := dst } = .ok s ∧
      s.ti = (R : Int) + 1 ∧ s.li = 0 ∧ s.ri = 2 * (R : Int) + 1 ∧
      s.val = windowSum p w R R ∧ P (R + 1) s.dst := by
  obtain ⟨s2, hl2, ht2, hli2, hri2, hval2, hP2⟩ := loopFrom_inv (leadStep get put (p 0) iarr)
    (R + 1)
    (fun k s => s.ti = (k : Int) ∧ s.li = 0 ∧ s.ri = (R : Int) + k ∧
      s.val = windowSum p w R ((k : Int) - 1) ∧ P k s.dst)
    0 { ti := 0, li := 0, ri := 0 + R, val := windowSum p w R (-1), dst := dst }
    ⟨by simp, rfl, by simp, by simp, h0⟩
    (fun k s hk hI => leadStep_inv get put w R iarr p hw hget P hput k s hk hI)
  refine ⟨s2, hl2, by rw [ht2]; push_cast; ring, hli2, by rw [hri2]; push_cast; ring, ?_, hP2⟩
  rw [hval2]
  congr 1
  push_cast
  ring

theorem lineBlur_slide (get : Int → Except Panic (Fin 4 → Int))
    (put : Int → Color → RGBA → Except Panic RGBA) (w R : Nat) (iarr : F64)
    (p : Int → Fin 4 → Int) (hw : 2 * R + 1 ≤ w)
    (hget : ∀ x : Int, 0 ≤ x → x < w → get x = .ok (p x))
    (P : Nat → RGBA → Prop)
    (hput : ∀ (k : Nat) (d : RGBA), k < w → P k d →
      ∃ d1, put (k : Int) (blurColor (windowSum p w R k) iarr) d = .ok d1 ∧ P (k + 1) d1)
    (s2 : LineState) (ht2 : s2.ti = (R : Int) + 1) (hli2 : s2.li = 0)
    (hri2 : s2.ri = 2 * (R : Int) + 1) (hval2 : s2.val = windowSum p w R R)
    (hP2 : P (R + 1) s2.dst) :
    ∃ s, loopFrom (slideStep get put iarr) (w - 2 * R - 1) ((R : Int) + 1) s2 = .ok s ∧
      s.ti = ((w - R : Nat) : Int) ∧ s.li = ((w - 2 * R - 1 : Nat) : Int) ∧
      s.val = windowSum p w R (((w - R : Nat) : Int) - 1) ∧ P (w - R) s.dst := by
  obtain ⟨s3, hl3, ht3, hli3, -, hval3, hP3⟩ := loopFrom_inv (slideStep get put iarr)
    (w - 2 * R - 1)
    (fun k s => s.ti = (R : Int) + 1 + k ∧ s.li = (k : Int) ∧ s.ri = 2 * (R : Int) + 1 + k ∧
      s.val = windowSum p w R ((R : Int) + k) ∧ P (R + 1 + k) s.dst)
    ((R : Int) + 1) s2
    ⟨by rw [ht2]; simp, by simp [hli2], by rw [hri2]; simp,
      by rw [hval2]; simp, hP2⟩
    (fun k s hk hI => slideStep_inv get put w R iarr p hw hget P hput k s hk hI)
  have e : R + 1 + (w - 2 * R - 1) = w - R := by omega
  refine ⟨s3, hl3, by rw [ht3]; omega, hli3, ?_, by rw [← e]; exact hP3⟩
  rw [hval3]
  congr 1
  omega

theorem lineBlur_trail (get : Int → Except Panic (Fin 4 → Int))
    (put : Int → Color → RGBA → Except Panic RGBA) (w R : Nat) (iarr : F64)
    (p : Int → Fin 4 → Int) (hw : 2 * R + 1 ≤ w)
    (hget : ∀ x : Int, 0 ≤ x → x < w → get x = .ok (p x))
    (P : Nat → RGBA → Prop)
    (hput : ∀ (k : Nat) (d : RGBA), k < w → P k d →
      ∃ d1, put (k : Int) (blurColor (windowSum p w R k) iarr) d = .ok d1 ∧ P (k + 1) d1)
    (s3 : LineState) (ht3 : s3.ti = ((w - R : Nat) : Int))
    (hli3 : s3.li = ((w - 2 * R - 1 : Nat) : Int))
    (hval3 : s3.val = windowSum p w R (((w - R : Nat) : Int) - 1)) (hP3 : P (w - R) s3.dst) :
    ∃ s, loopFrom (trailStep get put ((w : Int) - 1) iarr) R ((w : Int) - R) s3 = .ok s ∧
      P w s.dst := by
  obtain ⟨s4, hl4, -, -, -, hP4⟩ := loopFrom_inv
    (trailStep get put ((w : Int) - 1) iarr) R
    (fun k s => s.ti = ((w - R + k : Nat) : Int) ∧ s.li = ((w - 2 * R - 1 + k : Nat) : Int) ∧
      s.val = windowSum p w R (((w - R + k : Nat) : Int) - 1) ∧ P (w - R + k) s.dst)
    ((w : Int) - R) s3
    ⟨by rw [ht3]; rfl, by rw [hli3]; rfl, by rw [hval3]; rfl, hP3⟩
    (fun k s hk hI => trailStep_inv get put w R iarr p hw hget P hput k s hk hI)
  have e : w - R + R = w := by omega
  exact ⟨s4, hl4, by rw [← e]; exact hP4⟩

/-- The scan-line algorithm on a line `p` of length `w ≥ 2 * R + 1`: it stores, at every
position `k` of the line in ascending order, the colour computed from the edge-clamped window
sum around `k`.  `P k` is any property of the destination that the `k`-th store carries to
`P (k + 1)`. -/
theorem lineBlur_spec (get : Int → Except Panic (Fin 4 → Int))
    (put : Int → Color → RGBA → Except Panic RGBA) (w R : Nat) (iarr : F64)
    (p : Int → Fin 4 → Int) (hw : 2 * R + 1 ≤ w)
    (hget : ∀ x : Int, 0 ≤ x → x < w → get x = .ok (p x))
    (P : Nat → RGBA → Prop)
    (hput : ∀ (k : Nat) (d : RGBA), k < w → P k d →
      ∃ d1, put (k : Int) (blurColor (windowSum p w R k) iarr) d = .ok d1 ∧ P (k + 1) d1)
    (dst : RGBA) (h0 : P 0 dst) :
    ∃ d1, lineBlur get put 0 w R iarr dst = .ok d1 ∧ P w d1 := by
  have hfv : get 0 = .ok (p 0) := hget 0 le_rfl (by omega)
  have hl1 := lineBlur_accumulate get w R p hw hget
  obtain ⟨s2, hl2, ht2, hli2, hri2, hval2, hP2⟩ :=
    lineBlur_lead get put w R iarr p hw hget P hput dst h0
  obtain ⟨s3, hl3, ht3, hli3, hval3, hP3⟩ :=
    lineBlur_slide get put w R iarr p hw hget P hput s2 ht2 hli2 hri2 hval2 hP2
  obtain ⟨s4, hl4, hP4⟩ :=
    lineBlur_trail get put w R iarr p hw hget P hput s3 ht3 hli3 hval3 hP3
  refine ⟨s4.dst, ?_, hP4⟩
  have n1 : ((R : Int) - 0).toNat = R := by omega
  have n2 : ((R : Int) + 1 - 0).toNat = R + 1 := by omega
  have n3 : ((w : Int) - R - ((R : Int) + 1)).toNat = w - 2 * R - 1 := by omega
  have n4 : ((w : Int) - ((w : Int) - R)).toNat = R := by omega
  simp only [lineBlur, forRange, hfv, n1, n2, n3, n4, hl1, hl2, hl3, hl4, bind, Except.bind,
    pure, Except.pure]


/-! ## Rasters: offsets, reads and writes -/

theorem RGBA.Fits.offset {p : RGBA} {w h : Nat} (hp : p.Fits w h) (x y : Int) :
    p.PixOffset x y = y * p.Stride + x * 4 := by
  unfold RGBA.PixOffset
  rw [hp.1]
  simp

theorem RGBA.Fits.offset_range {p : RGBA} {w h : Nat} (hp : p.Fits w h) {x y : Int}
    (hx0 : 0 ≤ x) (hx1 : x < w) (hy0 : 0 ≤ y) (hy1 : y < h) :
    0 ≤ p.PixOffset x y ∧ p.PixOffset x y + 4 ≤ p.Pix.length := by
  rw [hp.offset]
  obtain ⟨-, hs, hl⟩ := hp
  have hS : 0 ≤ p.Stride := by omega
  have h1 : 0 ≤ y * p.Stride := mul_nonneg hy0 hS
  have h2 : y * p.Stride ≤ ((h : Int) - 1) * p.Stride :=
    mul_le_mul_of_nonneg_right (by omega) hS
  constructor <;> omega

theorem RGBA.Fits.offset_sep {p : RGBA} {w h : Nat} (hp : p.Fits w h) {x y x1 y1 : Int}
    (hx0 : 0 ≤ x) (hx1 : x < w) (hx0' : 0 ≤ x1) (hx1' : x1 < w)
    (hne : ¬ (x1 = x ∧ y1 = y)) :
    p.PixOffset x y + 4 ≤ p.PixOffset x1 y1 ∨ p.PixOffset x1 y1 + 4 ≤ p.PixOffset x y := by
  rw [hp.offset, hp.offset]
  obtain ⟨-, hs, -⟩ := hp
  have hS : 0 ≤ p.Stride := by omega
  rcases lt_trichotomy y y1 with h | h | h
  · have h2 : (y + 1) * p.Stride ≤ y1 * p.Stride := mul_le_mul_of_nonneg_right (by omega) hS
    have h3 : (y + 1) * p.Stride = y * p.Stride + p.Stride := by ring
    left; omega
  · subst h
    have : x1 ≠ x := fun hc => hne ⟨hc, rfl⟩
    omega
  · have h2 : (y1 + 1) * p.Stride ≤ y * p.Stride := mul_le_mul_of_nonneg_right (by omega) hS
    have h3 : (y1 + 1) * p.Stride = y1 * p.Stride + p.Stride := by ring
    right; omega

theorem RGBA.sample_of_range (p : RGBA) {i : Int} (h0 : 0 ≤ i) (h1 : i < p.Pix.length) :
    p.sample i = .ok ((p.Pix.getD i.toNat 0 : Byte) : Int) := by
  unfold RGBA.sample
  have hlt : i.toNat < p.Pix.length := by omega
  simp only [h0, if_true, List.getD_eq_getElem?_getD, List.getElem?_eq_getElem hlt,
    Option.getD_some]

theorem RGBA.pixel_of_range (p : RGBA) {pos : Int} (h0 : 0 ≤ pos)
    (h1 : pos + 4 ≤ p.Pix.length) :
    p.pixel pos = .ok (fun c => ((p.Pix.getD (pos + (c.val : Int)).toNat 0 : Byte) : Int)) := by
  unfold RGBA.pixel
  rw [p.sample_of_range (by omega) (by omega), p.sample_of_range (i := pos + 1) (by omega)
    (by omega), p.sample_of_range (i := pos + 2) (by omega) (by omega),
    p.sample_of_range (i := pos + 3) (by omega) (by omega)]
  simp only [bind, Except.bind, pure, Except.pure]
  congr 1
  funext c
  fin_cases c <;> simp

theorem RGBA.Fits.pixel {p : RGBA} {w h : Nat} (hp : p.Fits w h) {x y : Int}
    (hx0 : 0 ≤ x) (hx1 : x < w) (hy0 : 0 ≤ y) (hy1 : y < h) :
    p.pixel (p.PixOffset x y) = .ok (fun c => ((p.get x y c : Byte) : Int)) := by
  obtain ⟨h0, h1⟩ := hp.offset_range hx0 hx1 hy0 hy1
  rw [p.pixel_of_range h0 h1]
  rfl

theorem set4_getD {α : Type} (l : List α) (i : Nat) (a0 a1 a2 a3 d : α)
    (hi : i + 4 ≤ l.length) (j : Nat) :
    ((((l.set i a0).set (i + 1) a1).set (i + 2) a2).set (i + 3) a3).getD j d =
      if j = i then a0 else if j = i + 1 then a1 else if j = i + 2 then a2
      else if j = i + 3 then a3 else l.getD j d := by
  simp only [List.getD_eq_getElem?_getD, List.getElem?_set, List.length_set]
  by_cases h0 : j = i
  · subst h0
    have e1 : ¬ (j + 3 = j) := by omega
    have e2 : ¬ (j + 2 = j) := by omega
    have e3 : ¬ (j + 1 = j) := by omega
    have e4 : j < l.length := by omega
    simp [e1, e2, e3, e4]
  by_cases h1 : j = i + 1
  · subst h1
    have e1 : ¬ (i + 3 = i + 1) := by omega
    have e2 : ¬ (i + 2 = i + 1) := by omega
    have e4 : i + 1 < l.length := by omega
    simp [e1, e2, e4]
  by_cases h2 : j = i + 2
  · subst h2
    have e1 : ¬ (i + 3 = i + 2) := by omega
    have e4 : i + 2 < l.length := by omega
    simp [e1, e4]
  by_cases h3 : j = i + 3
  · subst h3
    have e4 : i + 3 < l.length := by omega
    simp [e4]
  have e0 : ¬ (i = j) := fun h => h0 h.symm
  have e1 : ¬ (i + 1 = j) := fun h => h1 h.symm
  have e2 : ¬ (i + 2 = j) := fun h => h2 h.symm
  have e3 : ¬ (i + 3 = j) := fun h => h3 h.symm
  simp [h0, h1, h2, h3, e0, e1, e2, e3]

/-- `SetRGBA` at a point of the raster stores the colour there and leaves every other byte of
the buffer as it was. -/
theorem RGBA.Fits.SetRGBA {d : RGBA} {w h : Nat} (hd : d.Fits w h) {x y : Int}
    (hx0 : 0 ≤ x) (hx1 : x < w) (hy0 : 0 ≤ y) (hy1 : y < h) (col : Color) :
    ∃ d1, d.SetRGBA x y col = .ok d1 ∧ d1.Fits w h ∧ d1.Stride = d.Stride ∧
      d1.Pix.length = d.Pix.length ∧ (∀ c, d1.get x y c = col c) ∧
      (∀ (x1 y1 : Int) (c : Fin 4), 0 ≤ x1 → x1 < w → 0 ≤ y1 → y1 < h →
        ¬ (x1 = x ∧ y1 = y) → d1.get x1 y1 c = d.get x1 y1 c) ∧
      (∀ i : Nat, (i : Int) < d.PixOffset x y ∨ d.PixOffset x y + 4 ≤ (i : Int) →
        d1.Pix.getD i 0 = d.Pix.getD i 0) := by
  obtain ⟨h0, h1⟩ := hd.offset_range hx0 hx1 hy0 hy1
  have hhas : d.Rect.has x y = true := by
    unfold Rectangle.has
    rw [hd.1]
    simp only [decide_eq_true_eq]
    omega
  have hi : (d.PixOffset x y).toNat + 4 ≤ d.Pix.length := by omega
  have hset : d.SetRGBA x y col = .ok ⟨(((d.Pix.set (d.PixOffset x y).toNat (col 0)).set
      ((d.PixOffset x y).toNat + 1) (col 1)).set ((d.PixOffset x y).toNat + 2) (col 2)).set
      ((d.PixOffset x y).toNat + 3) (col 3), d.Stride, d.Rect⟩ := by
    simp only [RGBA.SetRGBA, hhas, if_true, h0, h1, and_self]
  refine ⟨_, hset, ?_, rfl, ?_, ?_, ?_, ?_⟩
  · obtain ⟨a, b, c⟩ := hd
    refine ⟨a, b, ?_⟩
    simp only [List.length_set]
    exact c
  · simp only [List.length_set]
  · intro c
    show List.getD _ (d.PixOffset x y + (c.val : Int)).toNat 0 = col c
    rw [set4_getD _ _ _ _ _ _ _ hi]
    have hoff : (d.PixOffset x y + (c.val : Int)).toNat = (d.PixOffset x y).toNat + c.val := by
      omega
    rw [hoff]
    fin_cases c <;> simp
  · intro x1 y1 c hx0' hx1' hy0' hy1' hne
    have hr := hd.offset_range hx0' hx1' hy0' hy1'
    show List.getD _ (d.PixOffset x1 y1 + (c.val : Int)).toNat 0 = _
    rw [set4_getD _ _ _ _ _ _ _ hi]
    have hsep := hd.offset_sep hx0 hx1 hx0' hx1' hne
    have hc : c.val < 4 := c.isLt
    rw [if_neg (by omega), if_neg (by omega), if_neg (by omega), if_neg (by omega)]
    rfl
  · intro i hi'
    show List.getD _ i 0 = _
    rw [set4_getD _ _ _ _ _ _ _ hi]
    rw [if_neg (by omega), if_neg (by omega), if_neg (by omega), if_neg (by omega)]


/-! ## The two passes on rasters that fit -/

theorem boxBlurHorizontalRow_spec (src dst : RGBA) (w h R : Nat) (iarr : F64)
    (hs : src.Fits w h) (hd : dst.Fits w h) (hw : 2 * R + 1 ≤ w) (y : Int) (hy0 : 0 ≤ y)
    (hy1 : y < h) :
    ∃ d1, boxBlurHorizontalRow src R iarr y dst = .ok d1 ∧ d1.Fits w h ∧
      d1.Stride = dst.Stride ∧ d1.Pix.length = dst.Pix.length ∧
      ∀ (x1 y1 : Int) (c : Fin 4), 0 ≤ x1 → x1 < w → 0 ≤ y1 → y1 < h →
        d1.get x1 y1 c = if y1 = y then blurColor (windowSum (src.rowLine y) w R x1) iarr c
          else dst.get x1 y1 c := by
  rw [boxBlurHorizontalRow_eq_lineBlur]
  have hmin : src.Rect.Min.X = 0 := by rw [hs.1]
  have hmax : src.Rect.Max.X = w := by rw [hs.1]
  rw [hmin, hmax]
  obtain ⟨d1, hd1, hf, hst, hlen, hget⟩ := lineBlur_spec
    (fun x => src.pixel (src.PixOffset x y)) (fun x c d => d.SetRGBA x y c) w R iarr
    (src.rowLine y) hw (fun x hx0 hx1 => hs.pixel hx0 hx1 hy0 hy1)
    (fun k d => d.Fits w h ∧ d.Stride = dst.Stride ∧ d.Pix.length = dst.Pix.length ∧
      ∀ (x1 y1 : Int) (c : Fin 4), 0 ≤ x1 → x1 < w → 0 ≤ y1 → y1 < h →
        d.get x1 y1 c = if y1 = y ∧ x1 < k then
          blurColor (windowSum (src.rowLine y) w R x1) iarr c else dst.get x1 y1 c)
    (by
      intro k d hk ⟨hf, hst, hlen, hget⟩
      obtain ⟨d1, hset, hf1, hst1, hlen1, hat, hframe, -⟩ :=
        hf.SetRGBA (x := (k : Int)) (y := y) (by omega) (by omega) hy0 hy1
          (blurColor (windowSum (src.rowLine y) w R k) iarr)
      refine ⟨d1, hset, hf1, by rw [hst1, hst], by rw [hlen1, hlen], ?_⟩
      intro x1 y1 c hx0 hx1 hy0' hy1'
      by_cases hpt : x1 = (k : Int) ∧ y1 = y
      · obtain ⟨rfl, rfl⟩ := hpt
        rw [hat, if_pos ⟨rfl, by push_cast; omega⟩]
      · rw [hframe x1 y1 c hx0 hx1 hy0' hy1' hpt, hget x1 y1 c hx0 hx1 hy0' hy1']
        by_cases hy : y1 = y
        · have hxk : x1 ≠ (k : Int) := fun hc => hpt ⟨hc, hy⟩
          by_cases hlt : x1 < (k : Int)
          · rw [if_pos ⟨hy, hlt⟩, if_pos ⟨hy, by push_cast; omega⟩]
          · rw [if_neg (fun hc => hlt hc.2), if_neg (fun hc => by
              have := hc.2; push_cast at this; omega)]
        · rw [if_neg (fun hc => hy hc.1), if_neg (fun hc => hy hc.1)])
    dst ⟨hd, rfl, rfl, by
      intro x1 y1 c hx0 _ _ _
      rw [if_neg (fun hc => by have := hc.2; push_cast at this; omega)]⟩
  refine ⟨d1, hd1, hf, hst, hlen, ?_⟩
  intro x1 y1 c hx0 hx1 hy0' hy1'
  rw [hget x1 y1 c hx0 hx1 hy0' hy1']
  by_cases hy : y1 = y
  · rw [if_pos ⟨hy, hx1⟩, if_pos hy]
  · rw [if_neg (fun hc => hy hc.1), if_neg hy]

theorem boxBlurVerticalColumn_spec (src dst : RGBA) (w h R : Nat) (iarr : F64)
    (hs : src.Fits w h) (hd : dst.Fits w h) (hh : 2 * R + 1 ≤ h) (x : Int) (hx0 : 0 ≤ x)
    (hx1 : x < w) :
    ∃ d1, boxBlurVerticalColumn src R iarr x dst = .ok d1 ∧ d1.Fits w h ∧
      d1.Stride = dst.Stride ∧ d1.Pix.length = dst.Pix.length ∧
      ∀ (x1 y1 : Int) (c : Fin 4), 0 ≤ x1 → x1 < w → 0 ≤ y1 → y1 < h →
        d1.get x1 y1 c = if x1 = x then blurColor (windowSum (src.columnLine x) h R y1) iarr c
          else dst.get x1 y1 c := by
  rw [boxBlurVerticalColumn_eq_lineBlur]
  have hmin : src.Rect.Min.Y = 0 := by rw [hs.1]
  have hmax : src.Rect.Max.Y = h := by rw [hs.1]
  rw [hmin, hmax]
  obtain ⟨d1, hd1, hf, hst, hlen, hget⟩ := lineBlur_spec
    (fun y => src.pixel (src.PixOffset x y)) (fun y c d => d.SetRGBA x y c) h R iarr
    (src.columnLine x) hh (fun y hy0 hy1 => hs.pixel hx0 hx1 hy0 hy1)
    (fun k d => d.Fits w h ∧ d.Stride = dst.Stride ∧ d.Pix.length = dst.Pix.length ∧
      ∀ (x1 y1 : Int) (c : Fin 4), 0 ≤ x1 → x1 < w → 0 ≤ y1 → y1 < h →
        d.get x1 y1 c = if x1 = x ∧ y1 < k then
          blurColor (windowSum (src.columnLine x) h R y1) iarr c else dst.get x1 y1 c)
    (by
      intro k d hk ⟨hf, hst, hlen, hget⟩
      obtain ⟨d1, hset, hf1, hst1, hlen1, hat, hframe, -⟩ :=
        hf.SetRGBA (x := x) (y := (k : Int)) hx0 hx1 (by omega) (by omega)
          (blurColor (windowSum (src.columnLine x) h R k) iarr)
      refine ⟨d1, hset, hf1, by rw [hst1, hst], by rw [hlen1, hlen], ?_⟩
      intro x1 y1 c hx0' hx1' hy0' hy1'
      by_cases hpt : x1 = x ∧ y1 = (k : Int)
      · obtain ⟨rfl, rfl⟩ := hpt
        rw [hat, if_pos ⟨rfl, by push_cast; omega⟩]
      · rw [hframe x1 y1 c hx0' hx1' hy0' hy1' hpt, hget x1 y1 c hx0' hx1' hy0' hy1']
        by_cases hx : x1 = x
        · have hyk : y1 ≠ (k : Int) := fun hc => hpt ⟨hx, hc⟩
          by_cases hlt : y1 < (k : Int)
          · rw [if_pos ⟨hx, hlt⟩, if_pos ⟨hx, by push_cast; omega⟩]
          · rw [if_neg (fun hc => hlt hc.2), if_neg (fun hc => by
              have := hc.2; push_cast at this; omega)]
        · rw [if_neg (fun hc => hx hc.1), if_neg (fun hc => hx hc.1)])
    dst ⟨hd, rfl, rfl, by
      intro x1 y1 c _ _ hy0' _
      rw [if_neg (fun hc => by have := hc.2; push_cast at this; omega)]⟩
  refine ⟨d1, hd1, hf, hst, hlen, ?_⟩
  intro x1 y1 c hx0' hx1' hy0' hy1'
  rw [hget x1 y1 c hx0' hx1' hy0' hy1']
  by_cases hx : x1 = x
  · rw [if_pos ⟨hx, hy1'⟩, if_pos hx]
  · rw [if_neg (fun hc => hx hc.1), if_neg hx]


/-- The horizontal pass on rasters that fit, for a window no longer than a row: it completes,
and every pixel of the destination holds the colour computed from the edge-clamped window sum
of its row in the source. -/
theorem boxBlurHorizontal_spec (src dst : RGBA) (w h R : Nat) (hs : src.Fits w h)
    (hd : dst.Fits w h) (hw : 2 * R + 1 ≤ w) :
    ∃ d1, boxBlurHorizontal src dst R = .ok d1 ∧ d1.Fits w h ∧
      d1.Stride = dst.Stride ∧ d1.Pix.length = dst.Pix.length ∧
      ∀ (x y : Int) (c : Fin 4), 0 ≤ x → x < w → 0 ≤ y → y < h →
        d1.get x y c = blurColor (windowSum (src.rowLine y) w R x) (iarrOf R) c := by
  have hn : (src.Rect.Max.Y - src.Rect.Min.Y - 0).toNat = h := by
    rw [hs.1]; simp
  obtain ⟨d1, hl, hf, hst, hlen, hget⟩ := loopFrom_inv
    (boxBlurHorizontalRow src R (iarrOf R)) h
    (fun k d => d.Fits w h ∧ d.Stride = dst.Stride ∧ d.Pix.length = dst.Pix.length ∧
      ∀ (x y : Int) (c : Fin 4), 0 ≤ x → x < w → 0 ≤ y → y < h →
        d.get x y c = if y < k then blurColor (windowSum (src.rowLine y) w R x) (iarrOf R) c
          else dst.get x y c)
    0 dst ⟨hd, rfl, rfl, by
      intro x y c _ _ hy0 _
      rw [if_neg (by push_cast; omega)]⟩ (by
      intro k d hk ⟨hf, hst, hlen, hget⟩
      obtain ⟨d1, hrow, hf1, hst1, hlen1, hget1⟩ :=
        boxBlurHorizontalRow_spec src d w h R (iarrOf R) hs hf hw (0 + (k : Int)) (by omega)
          (by omega)
      refine ⟨d1, hrow, hf1, by rw [hst1, hst], by rw [hlen1, hlen], ?_⟩
      intro x y c hx0 hx1 hy0 hy1
      rw [hget1 x y c hx0 hx1 hy0 hy1]
      by_cases hy : y = 0 + (k : Int)
      · rw [if_pos hy, if_pos (by push_cast; omega), hy]
      · rw [if_neg hy, hget x y c hx0 hx1 hy0 hy1]
        by_cases hlt : y < (k : Int)
        · rw [if_pos hlt, if_pos (by push_cast; omega)]
        · rw [if_neg hlt, if_neg (by push_cast; omega)])
  refine ⟨d1, ?_, hf, hst, hlen, ?_⟩
  · simp only [boxBlurHorizontal, parallel, forRange, hn]
    exact hl
  · intro x y c hx0 hx1 hy0 hy1
    rw [hget x y c hx0 hx1 hy0 hy1, if_pos hy1]

/-- The vertical pass on rasters that fit, for a window no longer than a column. -/
theorem boxBlurVertical_spec (src dst : RGBA) (w h R : Nat) (hs : src.Fits w h)
    (hd : dst.Fits w h) (hh : 2 * R + 1 ≤ h) :
    ∃ d1, boxBlurVertical src dst R = .ok d1 ∧ d1.Fits w h ∧
      d1.Stride = dst.Stride ∧ d1.Pix.length = dst.Pix.length ∧
      ∀ (x y : Int) (c : Fin 4), 0 ≤ x → x < w → 0 ≤ y → y < h →
        d1.get x y c = blurColor (windowSum (src.columnLine x) h R y) (iarrOf R) c := by
  have hn : (src.Rect.Max.X - src.Rect.Min.X - 0).toNat = w := by
    rw [hs.1]; simp
  obtain ⟨d1, hl, hf, hst, hlen, hget⟩ := loopFrom_inv
    (boxBlurVerticalColumn src R (iarrOf R)) w
    (fun k d => d.Fits w h ∧ d.Stride = dst.Stride ∧ d.Pix.length = dst.Pix.length ∧
      ∀ (x y : Int) (c : Fin 4), 0 ≤ x → x < w → 0 ≤ y → y < h →
        d.get x y c = if x < k then blurColor (windowSum (src.columnLine x) h R y) (iarrOf R) c
          else dst.get x y c)
    0 dst ⟨hd, rfl, rfl, by
      intro x y c hx0 _ _ _
      rw [if_neg (by push_cast; omega)]⟩ (by
      intro k d hk ⟨hf, hst, hlen, hget⟩
      obtain ⟨d1, hcol, hf1, hst1, hlen1, hget1⟩ :=
        boxBlurVerticalColumn_spec src d w h R (iarrOf R) hs hf hh (0 + (k : Int)) (by omega)
          (by omega)
      refine ⟨d1, hcol, hf1, by rw [hst1, hst], by rw [hlen1, hlen], ?_⟩
      intro x y c hx0 hx1 hy0 hy1
      rw [hget1 x y c hx0 hx1 hy0 hy1]
      by_cases hx : x = 0 + (k : Int)
      · rw [if_pos hx, if_pos (by push_cast; omega), hx]
      · rw [if_neg hx, hget x y c hx0 hx1 hy0 hy1]
        by_cases hlt : x < (k : Int)
        · rw [if_pos hlt, if_pos (by push_cast; omega)]
        · rw [if_neg hlt, if_neg (by push_cast; omega)])
  refine ⟨d1, ?_, hf, hst, hlen, ?_⟩
  · simp only [boxBlurVertical, parallel, forRange, hn]
    exact hl
  · intro x y c hx0 hx1 hy0 hy1
    rw [hget x y c hx0 hx1 hy0 hy1, if_pos hx1]

/-! ## Exact rounding of the stored samples -/

theorem windowSum_apply (p : Int → Fin 4 → Int) (w r i : Int) (c : Fin 4) :
    windowSum p w r i c = windowSum (fun x => p x c) w r i := by
  unfold windowSum
  rw [Finset.sum_apply]

theorem windowSum_bounds (p : Int → Int) (w r i : Int) (hr : 0 ≤ r)
    (hp : ∀ x, 0 ≤ p x ∧ p x ≤ 255) :
    0 ≤ windowSum p w r i ∧ windowSum p w r i ≤ 255 * (2 * r + 1) := by
  unfold windowSum
  constructor
  · exact Finset.sum_nonneg (fun k _ => (hp _).1)
  · have h1 : ∑ k in Finset.range (2 * r + 1).toNat, p (clampIndex (i + (k : Int) - r) w) ≤
        ∑ _k in Finset.range (2 * r + 1).toNat, (255 : Int) :=
      Finset.sum_le_sum (fun k _ => (hp _).2)
    rw [Finset.sum_const, Finset.card_range, nsmul_eq_mul] at h1
    have h2 : (((2 * r + 1).toNat : Nat) : Int) = 2 * r + 1 := by omega
    rw [h2] at h1
    linarith

theorem roundDiv_bounds (s n : Int) (hn : 0 < n) (h0 : 0 ≤ s) (h1 : s ≤ 255 * n) :
    0 ≤ roundDiv s n ∧ roundDiv s n ≤ 255 := by
  unfold roundDiv
  constructor
  · exact Int.ediv_nonneg (by omega) (by omega)
  · have : (2 * s + n) / (2 * n) < 256 := by
      apply Int.ediv_lt_of_lt_mul (by omega)
      omega
    omega

theorem toUint8_of_range (z : Int) (h0 : 0 ≤ z) (h1 : z ≤ 255) : ((toUint8 z : Byte) : Int) = z := by
  unfold toUint8
  have h2 : z % 256 = z := Int.emod_eq_of_lt h0 (by omega)
  rw [h2]
  obtain ⟨k, rfl⟩ := Int.eq_ofNat_of_zero_le h0
  have hk : k < 256 := by omega
  simp only [Int.toNat_ofNat, Fin.ofNat, Nat.mod_eq_of_lt hk]

/-- For a window of fewer than `2 ^ 42` samples the colour stored by the passes is the exact
nearest integer to the mean of the window. -/
theorem blurColor_exact (val : Fin 4 → Int) (R : Nat) (hR : 2 * (R : Int) + 1 < 2 ^ 42)
    (c : Fin 4) (h0 : 0 ≤ val c) (h1 : val c ≤ 255 * (2 * (R : Int) + 1)) :
    ((blurColor val (iarrOf R) c : Byte) : Int) = roundDiv (val c) (2 * (R : Int) + 1) := by
  unfold blurColor iarrOf
  have e : (R : Int) + R + 1 = 2 * (R : Int) + 1 := by ring
  rw [e, blur_round_exact (val c) (2 * (R : Int) + 1) (by omega) (by omega) hR h0 h1]
  obtain ⟨a, b⟩ := roundDiv_bounds (val c) (2 * (R : Int) + 1) (by omega) h0 h1
  exact toUint8_of_range _ a b



/-! ## The window sum at the two ends of a line -/

theorem windowSum_first (p : Int → Int) (w : Int) (R : Nat) (hw : 2 * (R : Int) + 1 ≤ w) :
    windowSum p w R 0 = ((R : Int) + 1) * p 0 + ∑ k in Finset.range R, p ((k : Int) + 1) := by
  rw [windowSum_step p w R 0, zero_sub, windowSum_base p w R (by omega),
    clampIndex_of_mem (by omega) (by omega), clampIndex_of_nonpos (by omega), zero_add]
  have h2 := Finset.sum_range_succ' (fun k : Nat => p (k : Int)) R
  have h1 := Finset.sum_range_succ (fun k : Nat => p (k : Int)) R
  simp only [Nat.cast_add, Nat.cast_one, Nat.cast_zero] at h1 h2
  rw [smul_eq_mul]
  linarith

theorem windowSum_last (p : Int → Int) (w : Int) (R : Nat) (hw : 2 * (R : Int) + 1 ≤ w) :
    windowSum p w R (w - 1) =
      ((R : Int) + 1) * p (w - 1) + ∑ k in Finset.range R, p (w - 2 - (k : Int)) := by
  unfold windowSum
  have hn : (2 * (R : Int) + 1).toNat = R + (R + 1) := by omega
  rw [hn, Finset.sum_range_add, add_comm]
  congr 1
  · rw [Finset.sum_congr rfl (fun k _ => by
      rw [clampIndex_of_ge (by push_cast; omega) (by omega)]),
      Finset.sum_const, Finset.card_range, nsmul_eq_mul]
    push_cast
    ring
  · rw [← Finset.sum_range_reflect]
    apply Finset.sum_congr rfl
    intro k hk
    simp only [Finset.mem_range] at hk
    rw [clampIndex_of_mem (by omega) (by omega)]
    congr 1
    have : ((R - 1 - k : Nat) : Int) = (R : Int) - 1 - k := by omega
    rw [this]
    ring

/-- C1: on rasters with origin `(0, 0)` whose rows are at least `2 * r + 1` long, the
horizontal pass completes and stores, at every position of every row and for every channel,
the nearest integer to the mean of the `2 * r + 1` samples of that row around the position,
positions outside the row standing for its first or last pixel.  In particular the first
sample of a row comes from `(r + 1) * p[0] + p[1] + … + p[r]` and the last from
`(r + 1) * p[w-1] + p[w-2] + … + p[w-1-r]`.  The window has fewer than `2 ^ 42` samples, so
that the double-precision product `float64(val) * iarr` rounds like the exact quotient. -/
theorem boxBlurHorizontal_box_average (src dst : RGBA) (w h : Nat) (r : Int)
    (hs : src.Fits w h) (hd : dst.Fits w h) (hr0 : 0 ≤ r) (hw : 2 * r + 1 ≤ w)
    (hr : 2 * r + 1 < 2 ^ 42) :
    ∃ d1, boxBlurHorizontal src dst r = .ok d1 ∧
      (∀ (x y : Int) (c : Fin 4), 0 ≤ x → x < w → 0 ≤ y → y < h →
        ((d1.get x y c : Byte) : Int) =
          roundDiv (windowSum (fun i => ((src.get i y c : Byte) : Int)) w r x) (2 * r + 1)) ∧
      (∀ (y : Int) (c : Fin 4), 0 ≤ y → y < h →
        ((d1.get 0 y c : Byte) : Int) =
          roundDiv ((r + 1) * ((src.get 0 y c : Byte) : Int) +
            ∑ k in Finset.range r.toNat, ((src.get ((k : Int) + 1) y c : Byte) : Int))
            (2 * r + 1)) ∧
      (∀ (y : Int) (c : Fin 4), 0 ≤ y → y < h →
        ((d1.get ((w : Int) - 1) y c : Byte) : Int) =
          roundDiv ((r + 1) * ((src.get ((w : Int) - 1) y c : Byte) : Int) +
            ∑ k in Finset.range r.toNat, ((src.get ((w : Int) - 2 - (k : Int)) y c : Byte) : Int))
            (2 * r + 1)) := by
  obtain ⟨R, rfl⟩ := Int.eq_ofNat_of_zero_le hr0
  obtain ⟨d1, hrun, -, -, -, hget⟩ := boxBlurHorizontal_spec src dst w h R hs hd (by omega)
  have hall : ∀ (x y : Int) (c : Fin 4), 0 ≤ x → x < w → 0 ≤ y → y < h →
      ((d1.get x y c : Byte) : Int) =
        roundDiv (windowSum (fun i => ((src.get i y c : Byte) : Int)) w R x)
          (2 * (R : Int) + 1) := by
    intro x y c hx0 hx1 hy0 hy1
    have hb := windowSum_bounds (fun i => ((src.get i y c : Byte) : Int)) w R x (by omega)
      (fun i => ⟨by positivity, by
        have := (src.get i y c).isLt
        show ((src.get i y c : Byte) : Int) ≤ 255
        omega⟩)
    rw [hget x y c hx0 hx1 hy0 hy1, blurColor_exact _ R hr c
      (by rw [windowSum_apply]; exact hb.1) (by rw [windowSum_apply]; exact hb.2),
      windowSum_apply]
    rfl
  refine ⟨d1, hrun, hall, ?_, ?_⟩
  · intro y c hy0 hy1
    rw [hall 0 y c le_rfl (by omega) hy0 hy1, windowSum_first _ _ _ hw]
    simp
  · intro y c hy0 hy1
    rw [hall ((w : Int) - 1) y c (by omega) (by omega) hy0 hy1, windowSum_last _ _ _ hw]
    simp

theorem boxBlurHorizontal_box_average_witness :
    ∃ d1, boxBlurHorizontal impulse5 (grey 5 5 fun _ _ => 0) 2 = .ok d1 ∧
      (∀ (x y : Int) (c : Fin 4), 0 ≤ x → x < (5 : Nat) → 0 ≤ y → y < (5 : Nat) →
        ((d1.get x y c : Byte) : Int) =
          roundDiv (windowSum (fun i => ((impulse5.get i y c : Byte) : Int)) (5 : Nat) 2 x)
            (2 * 2 + 1)) ∧
      (∀ (y : Int) (c : Fin 4), 0 ≤ y → y < (5 : Nat) →
        ((d1.get 0 y c : Byte) : Int) =
          roundDiv ((2 + 1) * ((impulse5.get 0 y c : Byte) : Int) +
            ∑ k in Finset.range (2 : Int).toNat, ((impulse5.get ((k : Int) + 1) y c : Byte) : Int))
            (2 * 2 + 1)) ∧
      (∀ (y : Int) (c : Fin 4), 0 ≤ y → y < (5 : Nat) →
        ((d1.get (((5 : Nat) : Int) - 1) y c : Byte) : Int) =
          roundDiv ((2 + 1) * ((impulse5.get (((5 : Nat) : Int) - 1) y c : Byte) : Int) +
            ∑ k in Finset.range (2 : Int).toNat,
              ((impulse5.get (((5 : Nat) : Int) - 2 - (k : Int)) y c : Byte) : Int))
            (2 * 2 + 1)) :=
  boxBlurHorizontal_box_average impulse5 (grey 5 5 fun _ _ => 0) 5 5 2 (by decide) (by decide)
    (by decide) (by decide) (by decide)

/-- C8: on non-empty rasters with origin `(0, 0)`, the horizontal pass with radius 0 and the
vertical pass with radius 0 each complete and store at every pixel of the destination the
corresponding pixel of the source. -/
theorem box_blur_radius_zero (src dst : RGBA) (w h : Nat) (hs : src.Fits w h)
    (hd : dst.Fits w h) (hw : 1 ≤ w) (hh : 1 ≤ h) :
    (∃ d1, boxBlurHorizontal src dst 0 = .ok d1 ∧
      ∀ (x y : Int) (c : Fin 4), 0 ≤ x → x < w → 0 ≤ y → y < h →
        d1.get x y c = src.get x y c) ∧
    (∃ d1, boxBlurVertical src dst 0 = .ok d1 ∧
      ∀ (x y : Int) (c : Fin 4), 0 ≤ x → x < w → 0 ≤ y → y < h →
        d1.get x y c = src.get x y c) := by
  have key : ∀ (line : Int → Fin 4 → Int) (n : Nat) (i : Int) (c : Fin 4) (b : Byte),
      line i c = ((b : Byte) : Int) → 0 ≤ i → i < n →
      blurColor (windowSum line n ((0 : Nat) : Int) i) (iarrOf ((0 : Nat) : Int)) c = b := by
    intro line n i c b hb hi0 hi1
    have hW : windowSum line n ((0 : Nat) : Int) i c = ((b : Byte) : Int) := by
      rw [windowSum_apply]
      unfold windowSum
      simp only [Nat.cast_zero, mul_zero, zero_add, Int.toNat_one, Finset.range_one,
        Finset.sum_singleton, add_zero, sub_zero]
      rw [clampIndex_of_mem hi0 hi1, hb]
    have hlt := b.isLt
    have h1 := blurColor_exact (windowSum line n ((0 : Nat) : Int) i) 0 (by norm_num) c
      (by rw [hW]; positivity) (by rw [hW]; push_cast; omega)
    rw [hW] at h1
    have h2 : roundDiv ((b : Byte) : Int) (2 * ((0 : Nat) : Int) + 1) = ((b : Byte) : Int) := by
      unfold roundDiv
      push_cast
      omega
    rw [h2] at h1
    apply Fin.ext
    exact_mod_cast h1
  constructor
  · obtain ⟨d1, hrun, -, -, -, hget⟩ := boxBlurHorizontal_spec src dst w h 0 hs hd (by omega)
    refine ⟨d1, hrun, ?_⟩
    intro x y c hx0 hx1 hy0 hy1
    rw [hget x y c hx0 hx1 hy0 hy1]
    exact key _ _ _ _ _ rfl hx0 hx1
  · obtain ⟨d1, hrun, -, -, -, hget⟩ := boxBlurVertical_spec src dst w h 0 hs hd (by omega)
    refine ⟨d1, hrun, ?_⟩
    intro x y c hx0 hx1 hy0 hy1
    rw [hget x y c hx0 hx1 hy0 hy1]
    exact key _ _ _ _ _ rfl hy0 hy1

theorem box_blur_radius_zero_witness :
    (∃ d1, boxBlurHorizontal impulse5 (grey 5 5 fun _ _ => 0) 0 = .ok d1 ∧
      ∀ (x y : Int) (c : Fin 4), 0 ≤ x → x < (5 : Nat) → 0 ≤ y → y < (5 : Nat) →
        d1.get x y c = impulse5.get x y c) ∧
    (∃ d1, boxBlurVertical impulse5 (grey 5 5 fun _ _ => 0) 0 = .ok d1 ∧
      ∀ (x y : Int) (c : Fin 4), 0 ≤ x → x < (5 : Nat) → 0 ≤ y → y < (5 : Nat) →
        d1.get x y c = impulse5.get x y c) :=
  box_blur_radius_zero impulse5 (grey 5 5 fun _ _ => 0) 5 5 (by decide) (by decide)
    (by decide) (by decide)



/-! ## Lists of rows -/

theorem mapM_ok {α β : Type} (f : α → Except Panic β) (g : α → β) :
    ∀ l : List α, (∀ a ∈ l, f a = .ok (g a)) → l.mapM f = .ok (l.map g) := by
  intro l
  induction l with
  | nil => intro _; rfl
  | cons a l ih =>
    intro h
    rw [List.mapM_cons, h a (List.mem_cons_self _ _), ih (fun b hb => h b (List.mem_cons_of_mem _ hb))]
    rfl

theorem rows_length {α : Type} (m : Nat) (g : Nat → List α) :
    ∀ h : Nat, (∀ j < h, (g j).length = m) → ((List.range h).map g).flatten.length = h * m := by
  intro h
  induction h with
  | zero => intro _; simp
  | succ h ih =>
    intro hg
    rw [List.range_succ, List.map_append, List.flatten_append, List.length_append,
      ih (fun j hj => hg j (by omega))]
    simp only [List.map_cons, List.map_nil, List.flatten_cons, List.flatten_nil,
      List.append_nil, hg h (by omega)]
    ring

theorem rows_getD {α : Type} (m : Nat) (g : Nat → List α) (d : α) :
    ∀ h : Nat, (∀ j < h, (g j).length = m) → ∀ y j : Nat, y < h → j < m →
      ((List.range h).map g).flatten.getD (y * m + j) d = (g y).getD j d := by
  intro h
  induction h with
  | zero => intro _ y j hy _; omega
  | succ h ih =>
    intro hg y j hy hj
    have hlen := rows_length m g h (fun j hj => hg j (by omega))
    rw [List.range_succ, List.map_append, List.flatten_append]
    simp only [List.map_cons, List.map_nil, List.flatten_cons, List.flatten_nil,
      List.append_nil]
    by_cases hyh : y < h
    · have hidx : y * m + j < ((List.range h).map g).flatten.length := by
        rw [hlen]
        have : (y + 1) * m ≤ h * m := Nat.mul_le_mul_right m (by omega)
        have e : (y + 1) * m = y * m + m := by ring
        omega
      rw [List.getD_append _ _ _ _ hidx]
      exact ih (fun j hj => hg j (by omega)) y j hyh hj
    · have hy' : y = h := by omega
      subst hy'
      rw [List.getD_append_right _ _ _ _ (by rw [hlen]; omega), hlen]
      congr 1
      omega

theorem range_map_getD {α : Type} (g : Nat → α) (n j : Nat) (d : α) (hj : j < n) :
    ((List.range n).map g).getD j d = g j := by
  rw [List.getD_eq_getElem?_getD, List.getElem?_map, List.getElem?_range hj]
  rfl



/-! ## Cloning -/

theorem mul3NonNeg_of_fits (w h : Nat) (hh : 1 ≤ h) (hsz : 4 * w * h < 2 ^ 63) :
    mul3NonNeg 4 w h = 4 * (w : Int) * h := by
  have hW : (0 : Int) ≤ w := by positivity
  have hH : (1 : Int) ≤ h := by exact_mod_cast hh
  have hS : 4 * (w : Int) * h < 2 ^ 63 := by exact_mod_cast hsz
  have h4 : 4 * (w : Int) ≤ 4 * (w : Int) * h := by nlinarith
  have c0 : ¬ ((4 : Int) < 0 ∨ (w : Int) < 0 ∨ (h : Int) < 0) := by omega
  have e1 : 4 * (w : Int) / 2 ^ 64 = 0 := Int.ediv_eq_zero_of_lt (by omega) (by omega)
  have e2 : 4 * (w : Int) % 2 ^ 64 = 4 * (w : Int) := Int.emod_eq_of_lt (by omega) (by omega)
  have e3 : 4 * (w : Int) * h / 2 ^ 64 = 0 := Int.ediv_eq_zero_of_lt (by omega) (by omega)
  have e4 : 4 * (w : Int) * h % 2 ^ 64 = 4 * (w : Int) * h :=
    Int.emod_eq_of_lt (by omega) (by omega)
  have e5 : wrap64 (4 * (w : Int) * h) = 4 * (w : Int) * h :=
    wrap64_of_range (by omega) (by omega)
  have c1 : ¬ (4 * (w : Int) * h < 0 ∨ 4 * (w : Int) * h % 2 ^ 64 ≠ 4 * (w : Int) * h) := by
    rw [e4]; omega
  simp only [mul3NonNeg, c0, if_false, e1, e2, e3, e4, e5, ne_eq, not_true_eq_false, or_false]
  rw [if_neg (by omega)]


theorem mul3NonNeg_allocates (w h : Nat) (hh : 1 ≤ h) (hsz : 4 * w * h ≤ 2 ^ 48) :
    ¬ (mul3NonNeg 4 w h < 0 ∨ maxAlloc < mul3NonNeg 4 w h) := by
  rw [mul3NonNeg_of_fits w h hh (lt_of_le_of_lt hsz (by norm_num))]
  have hS : 4 * (w : Int) * h ≤ 2 ^ 48 := by exact_mod_cast hsz
  have h0 : (0 : Int) ≤ 4 * (w : Int) * h := by positivity
  unfold maxAlloc
  intro hc
  rcases hc with hc | hc
  · exact absurd h0 (not_le.2 hc)
  · exact absurd hS (not_le.2 hc)

theorem RGBA.Dense.fits {p : RGBA} {w h : Nat} (hp : p.Dense w h) : p.Fits w h := by
  obtain ⟨a, b, c⟩ := hp
  refine ⟨a, by omega, ?_⟩
  rw [b, c]
  push_cast
  have : ((h : Int) - 1) * (4 * (w : Int)) + 4 * w = 4 * w * h := by ring
  omega

theorem RGBA.Dense.get_eq {p : RGBA} {w h : Nat} (hp : p.Dense w h) (x y : Nat) (c : Fin 4) :
    p.get x y c = p.Pix.getD (y * (4 * w) + (4 * x + c.val)) 0 := by
  unfold RGBA.get
  rw [hp.fits.offset, hp.2.1]
  congr 1
  have : (y : Int) * (4 * (w : Int)) + (x : Int) * 4 + (c.val : Int) =
      ((y * (4 * w) + (4 * x + c.val) : Nat) : Int) := by push_cast; ring
  rw [this, Int.toNat_ofNat]

/-- Two dense rasters of the same size with the same pixels are equal. -/
theorem RGBA.Dense.ext {p q : RGBA} {w h : Nat} (hp : p.Dense w h) (hq : q.Dense w h)
    (hget : ∀ (x y : Int) (c : Fin 4), 0 ≤ x → x < w → 0 ≤ y → y < h →
      p.get x y c = q.get x y c) : p = q := by
  have hpix : p.Pix = q.Pix := by
    apply List.ext_getElem (by rw [hp.2.2, hq.2.2])
    intro i h1 h2
    have hw : 0 < 4 * w := by
      rw [hp.2.2] at h1
      rcases Nat.eq_zero_or_pos w with h0 | h0
      · subst h0; simp at h1
      · omega
    have hi : i = (i / (4 * w)) * (4 * w) + (4 * (i % (4 * w) / 4) + (i % (4 * w)) % 4) := by
      have := Nat.div_add_mod i (4 * w)
      have := Nat.div_add_mod (i % (4 * w)) 4
      have e : i / (4 * w) * (4 * w) = 4 * w * (i / (4 * w)) := by ring
      omega
    have hx : i % (4 * w) / 4 < w := by
      have := Nat.mod_lt i hw
      omega
    have hy : i / (4 * w) < h := by
      rw [Nat.div_lt_iff_lt_mul hw]
      rw [hp.2.2] at h1
      have e : h * (4 * w) = 4 * w * h := by ring
      omega
    have hc : (i % (4 * w)) % 4 < 4 := Nat.mod_lt _ (by norm_num)
    have h3 := hget (i % (4 * w) / 4 : Nat) (i / (4 * w) : Nat) ⟨(i % (4 * w)) % 4, hc⟩
      (by positivity) (by exact_mod_cast hx) (by positivity) (by exact_mod_cast hy)
    rw [hp.get_eq, hq.get_eq] at h3
    simp only [] at h3
    rw [← hi] at h3
    rw [List.getD_eq_getElem?_getD, List.getD_eq_getElem?_getD, List.getElem?_eq_getElem h1,
      List.getElem?_eq_getElem h2] at h3
    simpa using h3
  cases p
  cases q
  obtain ⟨a1, a2, -⟩ := hp
  obtain ⟨b1, b2, -⟩ := hq
  simp only at hpix a1 a2 b1 b2
  simp only [RGBA.mk.injEq]
  exact ⟨hpix, by rw [a2, b2], by rw [a1, b1]⟩

theorem clone_rgba (p : RGBA) (w h : Nat) (hp : p.Fits w h) (hh : 1 ≤ h)
    (hsz : 4 * w * h ≤ 2 ^ 48) :
    ∃ a, clone (.rgba p) = .ok a ∧ a.Dense w h ∧
      ∀ (x y : Int) (c : Fin 4), 0 ≤ x → x < w → 0 ≤ y → y < h →
        a.get x y c = p.get x y c := by
  have hb : (Image.rgba p).Bounds = ⟨⟨0, 0⟩, ⟨w, h⟩⟩ := hp.1
  have hS : 4 * (w : Int) ≤ p.Stride := hp.2.1
  have hL := hp.2.2
  have hS0 : 0 ≤ p.Stride := by omega
  -- one row
  have hrow : ∀ j : Nat, j < h → (Image.rgba p).row ⟨⟨0, 0⟩, ⟨w, h⟩⟩ (0 + (j : Int)) =
      .ok ((List.range (4 * w)).map fun (i : Nat) => p.Pix.getD ((j : Int) * p.Stride + (i : Int)).toNat 0) := by
    intro j hj
    have h1 : 0 ≤ (j : Int) * p.Stride := by positivity
    have h2 : (j : Int) * p.Stride ≤ ((h : Int) - 1) * p.Stride :=
      mul_le_mul_of_nonneg_right (by omega) hS0
    have hn : (4 * (Rectangle.Dx ⟨⟨0, 0⟩, ⟨w, h⟩⟩)).toNat = 4 * w := by
      simp only [Rectangle.Dx]; omega
    simp only [Image.row, hn]
    apply mapM_ok
    intro i hi
    simp only [List.mem_range] at hi
    have hoff : p.PixOffset 0 (0 + (j : Int)) = (j : Int) * p.Stride := by
      rw [hp.offset]; ring
    simp only [hoff]
    have hk0 : 0 ≤ (j : Int) * p.Stride + (i : Int) := by omega
    have hk1 : ((j : Int) * p.Stride + i).toNat < p.Pix.length := by omega
    simp only [hk0, if_true, List.getD_eq_getElem?_getD, List.getElem?_eq_getElem hk1,
      Option.getD_some]
  have hn : (Rectangle.Dy ⟨⟨0, 0⟩, ⟨w, h⟩⟩).toNat = h := by
    simp only [Rectangle.Dy]; omega
  have hm : ¬ (mul3NonNeg 4 (Rectangle.Dx ⟨⟨0, 0⟩, ⟨w, h⟩⟩) (Rectangle.Dy ⟨⟨0, 0⟩, ⟨w, h⟩⟩) < 0 ∨
      maxAlloc < mul3NonNeg 4 (Rectangle.Dx ⟨⟨0, 0⟩, ⟨w, h⟩⟩) (Rectangle.Dy ⟨⟨0, 0⟩, ⟨w, h⟩⟩)) := by
    have e1 : Rectangle.Dx ⟨⟨0, 0⟩, ⟨w, h⟩⟩ = (w : Int) := by simp [Rectangle.Dx]
    have e2 : Rectangle.Dy ⟨⟨0, 0⟩, ⟨w, h⟩⟩ = (h : Int) := by simp [Rectangle.Dy]
    rw [e1, e2]
    exact mul3NonNeg_allocates w h hh hsz
  have hrows := mapM_ok (fun j : Nat => (Image.rgba p).row ⟨⟨0, 0⟩, ⟨w, h⟩⟩ (0 + (j : Int)))
    (fun j => (List.range (4 * w)).map fun (i : Nat) => p.Pix.getD ((j : Int) * p.Stride + (i : Int)).toNat 0)
    (List.range h) (fun j hj => hrow j (List.mem_range.1 hj))
  have hlen : ∀ j < h, ((List.range (4 * w)).map fun i : Nat =>
      p.Pix.getD ((j : Int) * p.Stride + (i : Int)).toNat 0).length = 4 * w := by
    intro j _; simp
  refine ⟨_, by simp only [clone, hb, hm, if_false, hn, hrows, bind, Except.bind, pure,
    Except.pure]; rfl, ⟨rfl, by simp [Rectangle.Dx], ?_⟩, ?_⟩
  · simp only []
    rw [rows_length (4 * w) _ h hlen]
    ring
  · intro x y c hx0 hx1 hy0 hy1
    obtain ⟨x, rfl⟩ := Int.eq_ofNat_of_zero_le hx0
    obtain ⟨y, rfl⟩ := Int.eq_ofNat_of_zero_le hy0
    have hx : x < w := by exact_mod_cast hx1
    have hy : y < h := by exact_mod_cast hy1
    have hc := c.isLt
    have hd : RGBA.Dense ⟨((List.range h).map fun j : Nat => (List.range (4 * w)).map fun i : Nat =>
        p.Pix.getD ((j : Int) * p.Stride + (i : Int)).toNat 0).flatten, 4 * Rectangle.Dx ⟨⟨0, 0⟩, ⟨w, h⟩⟩,
        ⟨⟨0, 0⟩, ⟨w, h⟩⟩⟩ w h :=
      ⟨rfl, by simp [Rectangle.Dx], by simp only []; rw [rows_length (4 * w) _ h hlen]; ring⟩
    rw [hd.get_eq]
    simp only []
    rw [rows_getD (4 * w) _ 0 h hlen y (4 * x + c.val) hy (by omega),
      range_map_getD _ _ _ _ (by omega)]
    unfold RGBA.get
    rw [hp.offset]
    congr 2
    push_cast
    ring



theorem clone_generic (f : Int → Int → Color) (w h : Nat) (hh : 1 ≤ h)
    (hsz : 4 * w * h ≤ 2 ^ 48) :
    ∃ a, clone (.generic ⟨⟨0, 0⟩, ⟨w, h⟩⟩ f) = .ok a ∧ a.Dense w h ∧
      ∀ (x y : Int) (c : Fin 4), 0 ≤ x → x < w → 0 ≤ y → y < h → a.get x y c = f x y c := by
  have hDx : Rectangle.Dx ⟨⟨0, 0⟩, ⟨w, h⟩⟩ = (w : Int) := by simp [Rectangle.Dx]
  have hDy : Rectangle.Dy ⟨⟨0, 0⟩, ⟨w, h⟩⟩ = (h : Int) := by simp [Rectangle.Dy]
  have hm : ¬ (mul3NonNeg 4 (w : Int) (h : Int) < 0 ∨ maxAlloc < mul3NonNeg 4 (w : Int) (h : Int)) :=
    mul3NonNeg_allocates w h hh hsz
  have hrow : ∀ j : Nat, (Image.generic ⟨⟨0, 0⟩, ⟨w, h⟩⟩ f).row ⟨⟨0, 0⟩, ⟨w, h⟩⟩ (0 + (j : Int)) =
      .ok (((List.range w).map fun (i : Nat) =>
        [f i j 0, f i j 1, f i j 2, f i j 3]).flatten) := by
    intro j
    simp only [Image.row, hDx, Int.toNat_ofNat, zero_add, List.flatMap_def]
  have hrows := mapM_ok
    (fun j : Nat => (Image.generic ⟨⟨0, 0⟩, ⟨w, h⟩⟩ f).row ⟨⟨0, 0⟩, ⟨w, h⟩⟩ (0 + (j : Int)))
    (fun j : Nat => ((List.range w).map fun (i : Nat) =>
        [f i j 0, f i j 1, f i j 2, f i j 3]).flatten)
    (List.range h) (fun j _ => hrow j)
  have hlen4 : ∀ (j : Nat), ∀ i < w, ([f i j 0, f i j 1, f i j 2, f i j 3] : List Byte).length = 4 :=
    fun _ _ _ => rfl
  have hlen : ∀ j < h, (((List.range w).map fun (i : Nat) =>
      [f i j 0, f i j 1, f i j 2, f i j 3]).flatten).length = 4 * w := by
    intro j _
    rw [rows_length 4 _ w (hlen4 j)]
    ring
  have hd : RGBA.Dense ⟨((List.range h).map fun j : Nat => ((List.range w).map fun (i : Nat) =>
      [f i j 0, f i j 1, f i j 2, f i j 3]).flatten).flatten, 4 * (w : Int),
      ⟨⟨0, 0⟩, ⟨w, h⟩⟩⟩ w h :=
    ⟨rfl, rfl, by simp only []; rw [rows_length (4 * w) _ h hlen]; ring⟩
  refine ⟨_, by simp only [clone, Image.Bounds, hDx, hDy, hm, if_false, Int.toNat_ofNat, hrows,
    bind, Except.bind, pure, Except.pure], hd, ?_⟩
  intro x y c hx0 hx1 hy0 hy1
  obtain ⟨x, rfl⟩ := Int.eq_ofNat_of_zero_le hx0
  obtain ⟨y, rfl⟩ := Int.eq_ofNat_of_zero_le hy0
  have hx : x < w := by exact_mod_cast hx1
  have hy : y < h := by exact_mod_cast hy1
  have hc := c.isLt
  rw [hd.get_eq]
  simp only []
  rw [rows_getD (4 * w) _ 0 h hlen y (4 * x + c.val) hy (by omega)]
  have e : 4 * x + c.val = x * 4 + c.val := by ring
  rw [e, rows_getD 4 _ 0 w (hlen4 y) x c.val hx hc]
  fin_cases c <;> rfl

/-! ## Window sums depend on the line only -/

theorem clampIndex_mem (i w : Int) (hw : 0 < w) : 0 ≤ clampIndex i w ∧ clampIndex i w < w := by
  unfold clampIndex
  constructor
  · exact le_max_left _ _
  · rw [max_lt_iff]
    exact ⟨hw, lt_of_le_of_lt (min_le_right _ _) (by omega)⟩

theorem windowSum_congr {G : Type} [AddCommMonoid G] (p q : Int → G) (w r i : Int)
    (hw : 0 < w) (hpq : ∀ j, 0 ≤ j → j < w → p j = q j) :
    windowSum p w r i = windowSum q w r i := by
  unfold windowSum
  apply Finset.sum_congr rfl
  intro k _
  obtain ⟨a, b⟩ := clampIndex_mem (i + (k : Int) - r) w hw
  exact hpq _ a b


/-! ## The pipeline against the composition of the passes -/

theorem freshRGBA_dense (w h : Nat) : (freshRGBA ⟨⟨0, 0⟩, ⟨w, h⟩⟩).Dense w h := by
  refine ⟨rfl, by simp [freshRGBA, Rectangle.Dx], ?_⟩
  simp only [freshRGBA, Rectangle.Dx, Rectangle.Dy, List.length_replicate, sub_zero]
  have : 4 * (w : Int) * (h : Int) = ((4 * w * h : Nat) : Int) := by push_cast; ring
  rw [this, Int.toNat_ofNat]

theorem gaussianStep_reference (s d : RGBA) (w h : Nat) (box : Int) (hs : s.Fits w h)
    (hd : d.Dense w h) (hr0 : 0 ≤ (box - 1).tdiv 2) (hw : 2 * (box - 1).tdiv 2 + 1 ≤ w)
    (hh : 2 * (box - 1).tdiv 2 + 1 ≤ h) :
    ∃ s1 d1, gaussianStep (s, d) box = .ok (s1, d1) ∧ s1.Fits w h ∧ d1.Dense w h ∧
      referenceStep d box = .ok d1 := by
  obtain ⟨R, hR⟩ := Int.eq_ofNat_of_zero_le hr0
  rw [hR] at hw hh
  have hw' : 2 * R + 1 ≤ w := by omega
  have hh' : 2 * R + 1 ≤ h := by omega
  have hfresh : (freshRGBA d.Rect).Dense w h := by rw [hd.1]; exact freshRGBA_dense w h
  -- the pipeline's passes
  obtain ⟨s1, hH, hs1, -, -, hg1⟩ := boxBlurHorizontal_spec d s w h R hd.fits hs hw'
  obtain ⟨d1, hV, hd1, hst1, hlen1, hg2⟩ := boxBlurVertical_spec s1 d w h R hs1 hd.fits hh'
  -- the reference passes
  obtain ⟨b1, hH', hb1, -, -, hg1'⟩ := boxBlurHorizontal_spec d (freshRGBA d.Rect) w h R hd.fits
    hfresh.fits hw'
  obtain ⟨e1, hV', he1, hst2, hlen2, hg2'⟩ := boxBlurVertical_spec b1 (freshRGBA d.Rect) w h R
    hb1 hfresh.fits hh'
  have hd1D : d1.Dense w h := ⟨hd1.1, by rw [hst1, hd.2.1], by rw [hlen1, hd.2.2]⟩
  have he1D : e1.Dense w h := ⟨he1.1, by rw [hst2, hfresh.2.1], by rw [hlen2, hfresh.2.2]⟩
  have heq : d1 = e1 := by
    apply hd1D.ext he1D
    intro x y c hx0 hx1 hy0 hy1
    rw [hg2 x y c hx0 hx1 hy0 hy1, hg2' x y c hx0 hx1 hy0 hy1]
    congr 1
    apply windowSum_congr _ _ _ _ _ (by omega)
    intro j hj0 hj1
    funext c1
    simp only [RGBA.columnLine]
    rw [hg1 x j c1 hx0 hx1 hj0 hj1, hg1' x j c1 hx0 hx1 hj0 hj1]
  refine ⟨s1, d1, ?_, hs1, hd1D, ?_⟩
  · simp only [gaussianStep, hR, hH, hV, bind, Except.bind, pure, Except.pure]
  · simp only [referenceStep, hR, hH', hV', bind, Except.bind, heq]

theorem gaussianFold_reference (w h : Nat) :
    ∀ (sizes : List Int) (s d : RGBA), s.Fits w h → d.Dense w h →
      (∀ box ∈ sizes, 0 ≤ (box - 1).tdiv 2 ∧ 2 * (box - 1).tdiv 2 + 1 ≤ min (w : Int) h) →
      ∃ s1 d1, sizes.foldlM gaussianStep (s, d) = .ok (s1, d1) ∧ s1.Fits w h ∧
        d1.Dense w h ∧ referenceBlur d sizes = .ok d1 := by
  intro sizes
  induction sizes with
  | nil =>
    intro s d hs hd _
    exact ⟨s, d, rfl, hs, hd, rfl⟩
  | cons box rest ih =>
    intro s d hs hd hfit
    obtain ⟨hr0, hmin⟩ := hfit box (List.mem_cons_self _ _)
    obtain ⟨s1, d1, hstep, hs1, hd1, href⟩ := gaussianStep_reference s d w h box hs hd hr0
      (le_trans hmin (min_le_left _ _)) (le_trans hmin (min_le_right _ _))
    obtain ⟨s2, d2, hfold, hs2, hd2, href2⟩ := ih s1 d1 hs1 hd1
      (fun b hb => hfit b (List.mem_cons_of_mem _ hb))
    refine ⟨s2, d2, ?_, hs2, hd2, ?_⟩
    · rw [List.foldlM_cons, hstep]
      exact hfold
    · unfold referenceBlur at href2 ⊢
      rw [List.foldlM_cons, href]
      exact href2

theorem sigma2BoxDimension_nonempty {sigma boxes : Int} {sizes : List Int} (hb : 1 ≤ boxes)
    (hplan : sigma2BoxDimension sigma boxes = .ok sizes) : sizes ≠ [] := by
  have h0 : ¬ boxes = 0 := by omega
  by_cases h1 : boxes < 0 ∨ maxAlloc < 8 * boxes
  · simp only [sigma2BoxDimension, h0, h1, if_true, if_false] at hplan
    cases hplan
  simp only [sigma2BoxDimension, h0, h1, if_false, Except.ok.injEq] at hplan
  intro hnil
  have hlen : sizes.length = boxes.toNat := by rw [← hplan]; simp
  rw [hnil] at hlen
  simp only [List.length_nil] at hlen
  omega

/-- C9 (amended): for a source with origin `(0, 0)`, width `w` and height `h` whose
`4 * w * h` bytes are within `maxAlloc`, a destination that is another object than the source,
and widths returned by the planner whose radii `r = (width - 1) / 2` satisfy `0 ≤ r` and
`2 * r + 1 ≤ min w h`, `Gaussian` completes, and the destination it leaves is what results
from a copy of the source pixels by applying, for each planned width in order, one horizontal
pass and then one vertical pass with that radius, each into a zeroed buffer of its own. -/
theorem Gaussian_eq_referenceBlur (src : Image) (dst : RGBA) (w h : Nat) (sigma boxes : Int)
    (sizes : List Int) (hsrc : src.Fits w h) (hsz : 4 * w * h ≤ 2 ^ 48) (hb : 1 ≤ boxes)
    (hplan : sigma2BoxDimension sigma boxes = .ok sizes)
    (hfit : ∀ box ∈ sizes, 0 ≤ (box - 1).tdiv 2 ∧
      2 * (box - 1).tdiv 2 + 1 ≤ min (w : Int) h) :
    ∃ a s1 d1, clone src = .ok a ∧ Gaussian src (some dst) sigma boxes = .ok (s1, d1) ∧
      referenceBlur a sizes = .ok d1 := by
  have hh : 1 ≤ h := by
    have hne := sigma2BoxDimension_nonempty hb hplan
    obtain ⟨box, hbox⟩ := List.exists_mem_of_ne_nil sizes hne
    obtain ⟨h1, h2⟩ := hfit box hbox
    have := le_trans h2 (min_le_right _ _)
    omega
  cases src with
  | rgba p =>
    obtain ⟨a, ha, haD, -⟩ := clone_rgba p w h hsrc hh hsz
    obtain ⟨s1, d1, hfold, -, -, href⟩ := gaussianFold_reference w h sizes p a hsrc haD hfit
    refine ⟨a, .rgba s1, d1, ha, ?_, href⟩
    simp only [Gaussian, Option.isNone_some, ha, hplan, hfold, bind, Except.bind, pure,
      Except.pure]
    rfl
  | generic b f =>
    have hbd : b = ⟨⟨0, 0⟩, ⟨w, h⟩⟩ := hsrc
    subst hbd
    obtain ⟨q, hq, hqD, -⟩ := clone_generic f w h hh hsz
    obtain ⟨a, ha, haD, hget⟩ := clone_rgba q w h hqD.fits hh hsz
    have haq : a = q := haD.ext hqD hget
    subst haq
    obtain ⟨s1, d1, hfold, -, -, href⟩ := gaussianFold_reference w h sizes a a hqD.fits haD hfit
    refine ⟨a, .generic ⟨⟨0, 0⟩, ⟨w, h⟩⟩ f, d1, hq, ?_, href⟩
    simp only [Gaussian, Option.isNone_some, hq, ha, hplan, hfold, bind, Except.bind, pure,
      Except.pure]
    rfl

theorem Gaussian_eq_referenceBlur_witness :
    ∃ a s1 d1, clone (.rgba impulse5) = .ok a ∧
      Gaussian (.rgba impulse5) (some (grey 5 5 fun _ _ => 0)) 1 3 = .ok (s1, d1) ∧
      referenceBlur a [3, 3, 3] = .ok d1 :=
  Gaussian_eq_referenceBlur (.rgba impulse5) (grey 5 5 fun _ _ => 0) 5 5 1 3 [3, 3, 3]
    (by decide) (by decide) (by decide) sigma2BoxDimension_one_three (by decide)

/-! ## The passes and the pipeline on sample functions -/

theorem samples_range (p : RGBA) (x y : Int) (c : Fin 4) :
    0 ≤ p.samples x y c ∧ p.samples x y c ≤ 255 := by
  have := (p.get x y c).isLt
  unfold RGBA.samples
  constructor
  · positivity
  · show ((p.get x y c : Byte) : Int) ≤ 255
    omega

theorem blurColor_windowSum (line : Int → Fin 4 → Int) (n : Int) (R : Nat) (i : Int)
    (c : Fin 4) (hR : 2 * (R : Int) + 1 < 2 ^ 42)
    (hline : ∀ j, 0 ≤ line j c ∧ line j c ≤ 255) :
    ((blurColor (windowSum line n R i) (iarrOf R) c : Byte) : Int) =
      roundDiv (windowSum (fun j => line j c) n R i) (2 * (R : Int) + 1) := by
  have hb := windowSum_bounds (fun j => line j c) n R i (by omega) hline
  rw [blurColor_exact _ R hR c (by rw [windowSum_apply]; exact hb.1)
    (by rw [windowSum_apply]; exact hb.2), windowSum_apply]

theorem boxBlurHorizontal_samples (src dst : RGBA) (w h R : Nat) (hs : src.Fits w h)
    (hd : dst.Fits w h) (hw : 2 * R + 1 ≤ w) (hR : 2 * (R : Int) + 1 < 2 ^ 42)
    (f : Int → Int → Fin 4 → Int) (hf : SamplesAgree w h src.samples f) :
    ∃ d1, boxBlurHorizontal src dst R = .ok d1 ∧ d1.Fits w h ∧ d1.Stride = dst.Stride ∧
      d1.Pix.length = dst.Pix.length ∧ SamplesAgree w h d1.samples (rowMean w R f) := by
  obtain ⟨d1, hrun, hfit, hst, hlen, hget⟩ := boxBlurHorizontal_spec src dst w h R hs hd hw
  refine ⟨d1, hrun, hfit, hst, hlen, ?_⟩
  intro x y c hx0 hx1 hy0 hy1
  unfold RGBA.samples rowMean
  rw [hget x y c hx0 hx1 hy0 hy1, blurColor_windowSum (src.rowLine y) w R x c hR
    (fun j => samples_range src j y c)]
  congr 1
  apply windowSum_congr _ _ _ _ _ (by omega)
  intro j hj0 hj1
  exact hf j y c hj0 hj1 hy0 hy1

theorem boxBlurVertical_samples (src dst : RGBA) (w h R : Nat) (hs : src.Fits w h)
    (hd : dst.Fits w h) (hh : 2 * R + 1 ≤ h) (hR : 2 * (R : Int) + 1 < 2 ^ 42)
    (f : Int → Int → Fin 4 → Int) (hf : SamplesAgree w h src.samples f) :
    ∃ d1, boxBlurVertical src dst R = .ok d1 ∧ d1.Fits w h ∧ d1.Stride = dst.Stride ∧
      d1.Pix.length = dst.Pix.length ∧ SamplesAgree w h d1.samples (columnMean h R f) := by
  obtain ⟨d1, hrun, hfit, hst, hlen, hget⟩ := boxBlurVertical_spec src dst w h R hs hd hh
  refine ⟨d1, hrun, hfit, hst, hlen, ?_⟩
  intro x y c hx0 hx1 hy0 hy1
  unfold RGBA.samples columnMean
  rw [hget x y c hx0 hx1 hy0 hy1, blurColor_windowSum (src.columnLine x) h R y c hR
    (fun j => samples_range src x j c)]
  congr 1
  apply windowSum_congr _ _ _ _ _ (by omega)
  intro j hj0 hj1
  exact hf x j c hx0 hx1 hj0 hj1

/-- One iteration of the loop of `Gaussian` on rasters that fit, in terms of samples. -/
theorem gaussianStep_samples (s d : RGBA) (w h : Nat) (box : Int) (hs : s.Fits w h)
    (hd : d.Fits w h) (hr0 : 0 ≤ (box - 1).tdiv 2)
    (hmin : 2 * (box - 1).tdiv 2 + 1 ≤ min (w : Int) h)
    (hR : 2 * (box - 1).tdiv 2 + 1 < 2 ^ 42)
    (F : (Int → Int → Fin 4 → Int) × (Int → Int → Fin 4 → Int))
    (hF : SamplesAgree w h d.samples F.2) :
    ∃ s1 d1, gaussianStep (s, d) box = .ok (s1, d1) ∧ s1.Fits w h ∧ d1.Fits w h ∧
      s1.Stride = s.Stride ∧ s1.Pix.length = s.Pix.length ∧
      d1.Stride = d.Stride ∧ d1.Pix.length = d.Pix.length ∧
      SamplesAgree w h s1.samples (meanStep w h F box).1 ∧
      SamplesAgree w h d1.samples (meanStep w h F box).2 := by
  obtain ⟨R, hRe⟩ := Int.eq_ofNat_of_zero_le hr0
  rw [hRe] at hmin hR
  have hw : 2 * R + 1 ≤ w := by have := le_trans hmin (min_le_left _ _); omega
  have hh : 2 * R + 1 ≤ h := by have := le_trans hmin (min_le_right _ _); omega
  obtain ⟨s1, hH, hs1, hst1, hlen1, ha1⟩ :=
    boxBlurHorizontal_samples d s w h R hd hs hw hR F.2 hF
  obtain ⟨d1, hV, hd1, hst2, hlen2, ha2⟩ :=
    boxBlurVertical_samples s1 d w h R hs1 hd hh hR (rowMean w R F.2) ha1
  refine ⟨s1, d1, ?_, hs1, hd1, hst1, hlen1, hst2, hlen2, ?_, ?_⟩
  · simp only [gaussianStep, hRe, hH, hV, bind, Except.bind, pure, Except.pure]
  · simp only [meanStep, hRe]; exact ha1
  · simp only [meanStep, hRe]; exact ha2

/-- The loop of `Gaussian` on rasters that fit, in terms of samples. -/
theorem gaussianFold_samples (w h : Nat) :
    ∀ (sizes : List Int) (s d : RGBA)
      (F : (Int → Int → Fin 4 → Int) × (Int → Int → Fin 4 → Int)),
      s.Fits w h → d.Fits w h →
      (∀ box ∈ sizes, 0 ≤ (box - 1).tdiv 2 ∧ 2 * (box - 1).tdiv 2 + 1 ≤ min (w : Int) h ∧
        2 * (box - 1).tdiv 2 + 1 < 2 ^ 42) →
      SamplesAgree w h s.samples F.1 → SamplesAgree w h d.samples F.2 →
      ∃ s1 d1, sizes.foldlM gaussianStep (s, d) = .ok (s1, d1) ∧ s1.Fits w h ∧ d1.Fits w h ∧
        s1.Stride = s.Stride ∧ s1.Pix.length = s.Pix.length ∧
        d1.Stride = d.Stride ∧ d1.Pix.length = d.Pix.length ∧
        SamplesAgree w h s1.samples (sizes.foldl (meanStep w h) F).1 ∧
        SamplesAgree w h d1.samples (sizes.foldl (meanStep w h) F).2 := by
  intro sizes
  induction sizes with
  | nil =>
    intro s d F hs hd _ h1 h2
    exact ⟨s, d, rfl, hs, hd, rfl, rfl, rfl, rfl, h1, h2⟩
  | cons box rest ih =>
    intro s d F hs hd hfit h1 h2
    obtain ⟨hr0, hmin, hR⟩ := hfit box (List.mem_cons_self _ _)
    obtain ⟨s1, d1, hstep, hs1, hd1, e1, e2, e3, e4, a1, a2⟩ :=
      gaussianStep_samples s d w h box hs hd hr0 hmin hR F h2
    obtain ⟨s2, d2, hfold, hs2, hd2, g1, g2, g3, g4, b1, b2⟩ :=
      ih s1 d1 (meanStep w h F box) hs1 hd1
        (fun b hb => hfit b (List.mem_cons_of_mem _ hb)) a1 a2
    refine ⟨s2, d2, ?_, hs2, hd2, by rw [g1, e1], by rw [g2, e2], by rw [g3, e3],
      by rw [g4, e4], b1, b2⟩
    rw [List.foldlM_cons, hstep]
    exact hfold

/-- `Gaussian` on a `*image.RGBA` source that fits, in terms of samples: the call completes,
and the samples left in the source buffer and in the destination are those of `meanStep`
iterated over the planned widths, from the samples of the source. -/
theorem Gaussian_samples (p dst : RGBA) (w h : Nat) (sigma boxes : Int) (sizes : List Int)
    (f : Int → Int → Fin 4 → Int) (hp : p.Fits w h) (hh : 1 ≤ h) (hsz : 4 * w * h ≤ 2 ^ 48)
    (hplan : sigma2BoxDimension sigma boxes = .ok sizes)
    (hfit : ∀ box ∈ sizes, 0 ≤ (box - 1).tdiv 2 ∧
      2 * (box - 1).tdiv 2 + 1 ≤ min (w : Int) h ∧ 2 * (box - 1).tdiv 2 + 1 < 2 ^ 42)
    (hf : SamplesAgree w h p.samples f) :
    ∃ s1 d1, Gaussian (.rgba p) (some dst) sigma boxes = .ok (.rgba s1, d1) ∧
      s1.Fits w h ∧ d1.Dense w h ∧ s1.Stride = p.Stride ∧ s1.Pix.length = p.Pix.length ∧
      SamplesAgree w h s1.samples (sizes.foldl (meanStep w h) (f, f)).1 ∧
      SamplesAgree w h d1.samples (sizes.foldl (meanStep w h) (f, f)).2 := by
  obtain ⟨a, ha, haD, hget⟩ := clone_rgba p w h hp hh hsz
  have haf : SamplesAgree w h a.samples f := by
    intro x y c hx0 hx1 hy0 hy1
    rw [← hf x y c hx0 hx1 hy0 hy1]
    unfold RGBA.samples
    rw [hget x y c hx0 hx1 hy0 hy1]
  obtain ⟨s1, d1, hfold, hs1, hd1, e1, e2, e3, e4, a1, a2⟩ :=
    gaussianFold_samples w h sizes p a (f, f) hp haD.fits hfit hf haf
  refine ⟨s1, d1, ?_, hs1, ⟨hd1.1, by rw [e3, haD.2.1], by rw [e4, haD.2.2]⟩, e1, e2, a1, a2⟩
  simp only [Gaussian, Option.isNone_some, ha, hplan, hfold, bind, Except.bind, pure,
    Except.pure]
  rfl

/-! ## The 5×5 impulse through the pipeline -/

theorem SamplesAgree.of_fin {w h : Nat} {f g : Int → Int → Fin 4 → Int}
    (hfg : ∀ (x : Fin w) (y : Fin h) (c : Fin 4),
      f (x.val : Int) (y.val : Int) c = g (x.val : Int) (y.val : Int) c) :
    SamplesAgree w h f g := by
  intro x y c hx0 hx1 hy0 hy1
  have := hfg ⟨x.toNat, by omega⟩ ⟨y.toNat, by omega⟩ c
  simp only [Int.toNat_of_nonneg hx0, Int.toNat_of_nonneg hy0] at this
  exact this

theorem SamplesAgree.trans {w h : Nat} {f g k : Int → Int → Fin 4 → Int}
    (h1 : SamplesAgree w h f g) (h2 : SamplesAgree w h g k) : SamplesAgree w h f k :=
  fun x y c hx0 hx1 hy0 hy1 => (h1 x y c hx0 hx1 hy0 hy1).trans (h2 x y c hx0 hx1 hy0 hy1)

theorem rowMean_congr {w h : Nat} (r : Int) {f g : Int → Int → Fin 4 → Int}
    (hfg : SamplesAgree w h f g) : SamplesAgree w h (rowMean w r f) (rowMean w r g) := by
  intro x y c hx0 hx1 hy0 hy1
  unfold rowMean
  congr 1
  exact windowSum_congr _ _ _ _ _ (by omega) (fun j hj0 hj1 => hfg j y c hj0 hj1 hy0 hy1)

theorem columnMean_congr {w h : Nat} (r : Int) {f g : Int → Int → Fin 4 → Int}
    (hfg : SamplesAgree w h f g) :
    SamplesAgree w h (columnMean h r f) (columnMean h r g) := by
  intro x y c hx0 hx1 hy0 hy1
  unfold columnMean
  congr 1
  exact windowSum_congr _ _ _ _ _ (by omega) (fun j hj0 hj1 => hfg x j c hx0 hx1 hj0 hj1)

theorem impulse5_samples : SamplesAgree 5 5 impulse5.samples (impulse5After 0) :=
  SamplesAgree.of_fin (by decide!)

theorem impulse5_pass1 :
    SamplesAgree 5 5 (rowMean 5 1 (impulse5After 0)) (impulse5After 1) :=
  SamplesAgree.of_fin (by decide!)

theorem impulse5_pass2 :
    SamplesAgree 5 5 (columnMean 5 1 (impulse5After 1)) (impulse5After 2) :=
  SamplesAgree.of_fin (by decide!)

theorem impulse5_pass3 :
    SamplesAgree 5 5 (rowMean 5 1 (impulse5After 2)) (impulse5After 3) :=
  SamplesAgree.of_fin (by decide!)

theorem impulse5_pass4 :
    SamplesAgree 5 5 (columnMean 5 1 (impulse5After 3)) (impulse5After 4) :=
  SamplesAgree.of_fin (by decide!)

theorem impulse5_pass5 :
    SamplesAgree 5 5 (rowMean 5 1 (impulse5After 4)) (impulse5After 5) :=
  SamplesAgree.of_fin (by decide!)

theorem impulse5_pass6 :
    SamplesAgree 5 5 (columnMean 5 1 (impulse5After 5)) (impulse5After 6) :=
  SamplesAgree.of_fin (by decide!)

/-- The samples that three iterations of the loop of `Gaussian` with width 3 leave from the
impulse: pass 5 in the source buffer, pass 6 in the destination. -/
theorem impulse5_meanSteps :
    SamplesAgree 5 5
      ([3, 3, 3].foldl (meanStep (5 : Nat) (5 : Nat)) (impulse5After 0, impulse5After 0)).1
      (impulse5After 5) ∧
    SamplesAgree 5 5
      ([3, 3, 3].foldl (meanStep (5 : Nat) (5 : Nat)) (impulse5After 0, impulse5After 0)).2
      (impulse5After 6) := by
  have e : ((3 : Int) - 1).tdiv 2 = 1 := by decide
  simp only [List.foldl, meanStep, e, Nat.cast_ofNat]
  have d1 := (columnMean_congr 1 impulse5_pass1).trans impulse5_pass2
  have s2 := (rowMean_congr 1 d1).trans impulse5_pass3
  have d2 := (columnMean_congr 1 s2).trans impulse5_pass4
  have s3 := (rowMean_congr 1 d2).trans impulse5_pass5
  have d3 := (columnMean_congr 1 s3).trans impulse5_pass6
  exact ⟨s3, d3⟩

/-- `Gaussian` on the 5×5 impulse with `sigma = 1` and three passes completes; the source
buffer is left with the samples of pass 5 and the destination with those of pass 6. -/
theorem Gaussian_impulse5 :
    ∃ s1 d1, Gaussian (.rgba impulse5) (some (grey 5 5 fun _ _ => 0)) 1 3 =
        .ok (.rgba s1, d1) ∧
      s1.Fits 5 5 ∧ d1.Dense 5 5 ∧ s1.Stride = 20 ∧
      SamplesAgree 5 5 s1.samples (impulse5After 5) ∧
      SamplesAgree 5 5 d1.samples (impulse5After 6) := by
  obtain ⟨s1, d1, hrun, hs1, hd1, hst, -, a1, a2⟩ :=
    Gaussian_samples impulse5 (grey 5 5 fun _ _ => 0) 5 5 1 3 [3, 3, 3] (impulse5After 0)
      (by decide) (by decide) (by decide) sigma2BoxDimension_one_three (by decide)
      impulse5_samples
  exact ⟨s1, d1, hrun, hs1, hd1, hst, a1.trans impulse5_meanSteps.1,
    a2.trans impulse5_meanSteps.2⟩

/-! ## Claims about the 5×5 impulse -/

theorem byte_of_sample {b : Byte} {v : Nat} (hv : v < 256) (h : ((b : Byte) : Int) = (v : Int)) :
    b = Fin.ofNat v := by
  apply Fin.ext
  have : (b.val : Int) = (v : Int) := h
  simp only [Fin.ofNat, Nat.mod_eq_of_lt hv]
  omega

/-- C2 (fails on the code): when the source is already a `*image.RGBA`, `Gaussian` uses it as
its scratch buffer.  For the 5×5 impulse, `sigma = 1` and three passes, the centre sample of
the caller's source is 255 before the call and 22 after it. -/
theorem Gaussian_overwrites_rgba_source :
    impulse5.Pix[48]? = some 255 ∧
    (Gaussian (.rgba impulse5) (some (grey 5 5 fun _ _ => 0)) 1 3).map
      (fun r => r.1.pixels[48]?) = .ok (some 22) := by
  obtain ⟨s1, d1, hrun, hs1, -, hst, a1, -⟩ := Gaussian_impulse5
  refine ⟨by decide, ?_⟩
  rw [hrun]
  simp only [Except.map, Image.pixels]
  have h := a1 2 2 0 (by norm_num) (by norm_num) (by norm_num) (by norm_num)
  have hv : impulse5After 5 2 2 0 = ((22 : Nat) : Int) := by decide
  have ho : (s1.PixOffset 2 2 + (((0 : Fin 4)).val : Int)).toNat = 48 := by
    rw [hs1.offset, hst]; decide
  rw [hv] at h
  unfold RGBA.samples RGBA.get at h
  rw [ho] at h
  have hp : s1.Pix[48]? = some 22 := by
    cases hq : s1.Pix[48]? with
    | none =>
      rw [List.getD_eq_getElem?_getD, hq] at h
      simp at h
    | some b =>
      rw [List.getD_eq_getElem?_getD, hq] at h
      simp only [Option.getD_some] at h
      rw [byte_of_sample (by norm_num) h]
      rfl
  rw [hp]

/-- C10 (fails on the code): for the 5×5 impulse, `sigma = 1` and three passes, the three
colour samples of each of the four corners of the result are 5, not at most 1. -/
theorem Gaussian_impulse_corners :
    (Gaussian (.rgba impulse5) (some (grey 5 5 fun _ _ => 0)) 1 3).map
      (fun r => [(0, 0), (4, 0), (0, 4), (4, 4)].map fun q : Int × Int =>
        [r.2.get q.1 q.2 0, r.2.get q.1 q.2 1, r.2.get q.1 q.2 2])
      = .ok [[5, 5, 5], [5, 5, 5], [5, 5, 5], [5, 5, 5]] := by
  obtain ⟨s1, d1, hrun, -, -, -, -, a2⟩ := Gaussian_impulse5
  rw [hrun]
  have key : ∀ (x y : Int) (c : Fin 4), 0 ≤ x → x < 5 → 0 ≤ y → y < 5 →
      impulse5After 6 x y c = ((5 : Nat) : Int) → d1.get x y c = 5 := by
    intro x y c hx0 hx1 hy0 hy1 hv
    have h := a2 x y c hx0 (by omega) hy0 (by omega)
    rw [hv] at h
    exact byte_of_sample (by norm_num) h
  simp only [Except.map, List.map]
  rw [key 0 0 0 (by norm_num) (by norm_num) (by norm_num) (by norm_num) (by decide),
    key 0 0 1 (by norm_num) (by norm_num) (by norm_num) (by norm_num) (by decide),
    key 0 0 2 (by norm_num) (by norm_num) (by norm_num) (by norm_num) (by decide),
    key 4 0 0 (by norm_num) (by norm_num) (by norm_num) (by norm_num) (by decide),
    key 4 0 1 (by norm_num) (by norm_num) (by norm_num) (by norm_num) (by decide),
    key 4 0 2 (by norm_num) (by norm_num) (by norm_num) (by norm_num) (by decide),
    key 0 4 0 (by norm_num) (by norm_num) (by norm_num) (by norm_num) (by decide),
    key 0 4 1 (by norm_num) (by norm_num) (by norm_num) (by norm_num) (by decide),
    key 0 4 2 (by norm_num) (by norm_num) (by norm_num) (by norm_num) (by decide),
    key 4 4 0 (by norm_num) (by norm_num) (by norm_num) (by norm_num) (by decide),
    key 4 4 1 (by norm_num) (by norm_num) (by norm_num) (by norm_num) (by decide),
    key 4 4 2 (by norm_num) (by norm_num) (by norm_num) (by norm_num) (by decide)]

/-- C11: for the 5×5 impulse, `sigma = 1` and three passes, `Gaussian` completes, and in the
result each colour channel has the same value (15) at the four 4-neighbours `(1,2)`, `(3,2)`,
`(2,1)`, `(2,3)` of the centre; that value is strictly smaller than the centre's (17) and
strictly larger than the values two steps from the centre along an axis, at `(0,2)`, `(4,2)`
(both 9) and at `(2,0)`, `(2,4)` (both 10). -/
theorem Gaussian_impulse_neighbours :
    ∃ s d, Gaussian (.rgba impulse5) (some (grey 5 5 fun _ _ => 0)) 1 3 = .ok (s, d) ∧
      ∀ c : Fin 4, c ≠ 3 →
        (d.get 1 2 c = 15 ∧ d.get 3 2 c = d.get 1 2 c ∧ d.get 2 1 c = d.get 1 2 c ∧
          d.get 2 3 c = d.get 1 2 c) ∧
        d.get 1 2 c < d.get 2 2 c ∧
        (d.get 0 2 c < d.get 1 2 c ∧ d.get 4 2 c < d.get 1 2 c ∧
          d.get 2 0 c < d.get 1 2 c ∧ d.get 2 4 c < d.get 1 2 c) := by
  obtain ⟨s1, d1, hrun, -, -, -, -, a2⟩ := Gaussian_impulse5
  refine ⟨.rgba s1, d1, hrun, ?_⟩
  have key : ∀ (x y : Int) (c : Fin 4) (v : Nat), 0 ≤ x → x < 5 → 0 ≤ y → y < 5 → v < 256 →
      impulse5After 6 x y c = (v : Int) → d1.get x y c = Fin.ofNat v := by
    intro x y c v hx0 hx1 hy0 hy1 hv256 hv
    have h := a2 x y c hx0 (by omega) hy0 (by omega)
    rw [hv] at h
    exact byte_of_sample hv256 h
  have tbl : ∀ c : Fin 4, c ≠ 3 →
      impulse5After 6 1 2 c = ((15 : Nat) : Int) ∧ impulse5After 6 3 2 c = ((15 : Nat) : Int) ∧
      impulse5After 6 2 1 c = ((15 : Nat) : Int) ∧ impulse5After 6 2 3 c = ((15 : Nat) : Int) ∧
      impulse5After 6 2 2 c = ((17 : Nat) : Int) ∧ impulse5After 6 0 2 c = ((9 : Nat) : Int) ∧
      impulse5After 6 4 2 c = ((9 : Nat) : Int) ∧ impulse5After 6 2 0 c = ((10 : Nat) : Int) ∧
      impulse5After 6 2 4 c = ((10 : Nat) : Int) := by decide
  intro c hc
  obtain ⟨t12, t32, t21, t23, t22, t02, t42, t20, t24⟩ := tbl c hc
  rw [key 1 2 c 15 (by norm_num) (by norm_num) (by norm_num) (by norm_num) (by norm_num) t12,
    key 3 2 c 15 (by norm_num) (by norm_num) (by norm_num) (by norm_num) (by norm_num) t32,
    key 2 1 c 15 (by norm_num) (by norm_num) (by norm_num) (by norm_num) (by norm_num) t21,
    key 2 3 c 15 (by norm_num) (by norm_num) (by norm_num) (by norm_num) (by norm_num) t23,
    key 2 2 c 17 (by norm_num) (by norm_num) (by norm_num) (by norm_num) (by norm_num) t22,
    key 0 2 c 9 (by norm_num) (by norm_num) (by norm_num) (by norm_num) (by norm_num) t02,
    key 4 2 c 9 (by norm_num) (by norm_num) (by norm_num) (by norm_num) (by norm_num) t42,
    key 2 0 c 10 (by norm_num) (by norm_num) (by norm_num) (by norm_num) (by norm_num) t20,
    key 2 4 c 10 (by norm_num) (by norm_num) (by norm_num) (by norm_num) (by norm_num) t24]
  decide

/-! ## The overflow-checked product -/

/-- What `mul3NonNeg` computes: the product when no argument is negative, `x * y` fits an
unsigned 64-bit word and `x * y * z` fits `int`; `-1` otherwise. -/
theorem mul3NonNeg_eq (x y z : Int) :
    mul3NonNeg x y z =
      if 0 ≤ x ∧ 0 ≤ y ∧ 0 ≤ z ∧ x * y < 2 ^ 64 ∧ x * y * z < 2 ^ 63 then x * y * z else -1 := by
  unfold mul3NonNeg
  by_cases hneg : x < 0 ∨ y < 0 ∨ z < 0
  · rw [if_pos hneg, if_neg]
    intro h
    omega
  rw [if_neg hneg]
  have hx : 0 ≤ x := by omega
  have hy : 0 ≤ y := by omega
  have hz : 0 ≤ z := by omega
  have hxy : 0 ≤ x * y := mul_nonneg hx hy
  by_cases h1 : x * y < 2 ^ 64
  · have e1 : x * y / 2 ^ 64 = 0 := Int.ediv_eq_zero_of_lt hxy h1
    have e2 : x * y % 2 ^ 64 = x * y := Int.emod_eq_of_lt hxy h1
    have hxyz : 0 ≤ x * y * z := mul_nonneg hxy hz
    simp only [e1, e2, ne_eq, not_true_eq_false, if_false]
    by_cases h2 : x * y * z < 2 ^ 64
    · have e3 : x * y * z / 2 ^ 64 = 0 := Int.ediv_eq_zero_of_lt hxyz h2
      have e4 : x * y * z % 2 ^ 64 = x * y * z := Int.emod_eq_of_lt hxyz h2
      simp only [e3, e4, not_true_eq_false, if_false]
      by_cases h3 : x * y * z < 2 ^ 63
      · have e5 : wrap64 (x * y * z) = x * y * z := wrap64_of_range (by omega) h3
        rw [e5, if_neg (by omega), if_pos ⟨hx, hy, hz, h1, h3⟩]
      · have e5 : wrap64 (x * y * z) < 0 := by
          unfold wrap64
          omega
        rw [if_pos (Or.inl e5), if_neg]
        intro h
        exact h3 h.2.2.2.2
    · have e3 : x * y * z / 2 ^ 64 ≠ 0 := by
        intro hc
        have := Int.ediv_add_emod (x * y * z) (2 ^ 64)
        have := Int.emod_lt_of_pos (x * y * z) (show (0 : Int) < 2 ^ 64 by norm_num)
        omega
      rw [if_pos e3, if_neg]
      intro h
      omega
  · have e1 : x * y / 2 ^ 64 ≠ 0 := by
      intro hc
      have := Int.ediv_add_emod (x * y) (2 ^ 64)
      have := Int.emod_lt_of_pos (x * y) (show (0 : Int) < 2 ^ 64 by norm_num)
      omega
    simp only [ne_eq, e1, not_false_eq_true, if_true]
    rw [if_neg]
    intro h
    exact h1 h.2.2.2.1

/-- C12: whenever `mul3NonNeg x y z` is not `-1`, no argument is negative and the result is the
exact product `x * y * z`, which is at most `2 ^ 63 - 1`; so the result is `-1` whenever an
argument is negative or the exact product exceeds `2 ^ 63 - 1`, as for
`mul3NonNeg(4, 2^31 - 1, 2^31 - 1)`. -/
theorem mul3NonNeg_no_wraparound (x y z : Int) :
    (mul3NonNeg x y z ≠ -1 →
      0 ≤ x ∧ 0 ≤ y ∧ 0 ≤ z ∧ mul3NonNeg x y z = x * y * z ∧ x * y * z ≤ 2 ^ 63 - 1) ∧
    (x < 0 ∨ y < 0 ∨ z < 0 ∨ 2 ^ 63 - 1 < x * y * z → mul3NonNeg x y z = -1) ∧
    mul3NonNeg 4 (2 ^ 31 - 1) (2 ^ 31 - 1) = -1 := by
  refine ⟨?_, ?_, by decide⟩
  · intro h
    rw [mul3NonNeg_eq] at h ⊢
    split_ifs at h ⊢ with hc
    · obtain ⟨hx, hy, hz, -, h3⟩ := hc
      exact ⟨hx, hy, hz, rfl, by omega⟩
    · exact absurd rfl h
  · intro h
    rw [mul3NonNeg_eq, if_neg]
    intro hc
    omega

/-- C13 (the claim as stated fails): `mul3NonNeg(4, 2^62, 0)` is `-1`, although no argument is
negative and the exact product is `0`: the intermediate product `4 * 2^62` does not fit a
64-bit word. -/
theorem mul3NonNeg_intermediate_overflow :
    mul3NonNeg 4 (2 ^ 62) 0 = -1 ∧ (0 : Int) ≤ 4 ∧ (0 : Int) ≤ 2 ^ 62 ∧
      (4 * 2 ^ 62 * 0 : Int) ≤ 2 ^ 63 - 1 := by
  decide

/-- C13 (amended): for arguments that are not negative, with `x * y < 2 ^ 64` and
`x * y * z ≤ 2 ^ 63 - 1`, `mul3NonNeg` returns the exact product; and it returns `-1` exactly
when an argument is negative, or `x * y` does not fit an unsigned 64-bit word, or `x * y * z`
exceeds `2 ^ 63 - 1`. -/
theorem mul3NonNeg_product (x y z : Int) :
    (0 ≤ x → 0 ≤ y → 0 ≤ z → x * y < 2 ^ 64 → x * y * z ≤ 2 ^ 63 - 1 →
      mul3NonNeg x y z = x * y * z) ∧
    (mul3NonNeg x y z = -1 ↔
      x < 0 ∨ y < 0 ∨ z < 0 ∨ 2 ^ 64 ≤ x * y ∨ 2 ^ 63 - 1 < x * y * z) := by
  constructor
  · intro hx hy hz h1 h2
    rw [mul3NonNeg_eq, if_pos ⟨hx, hy, hz, h1, by omega⟩]
  · rw [mul3NonNeg_eq]
    constructor
    · intro h
      split_ifs at h with hc
      · obtain ⟨hx, hy, hz, -, -⟩ := hc
        have := mul_nonneg (mul_nonneg hx hy) hz
        omega
      · by_contra hn
        apply hc
        refine ⟨?_, ?_, ?_, ?_, ?_⟩ <;> omega
    · intro h
      rw [if_neg]
      intro hc
      omega

theorem mul3NonNeg_product_witness : mul3NonNeg 4 4096 4096 = 67108864 :=
  ((mul3NonNeg_product 4 4096 4096).1 (by decide) (by decide) (by decide) (by decide)
    (by decide)).trans (by decide)

/-! ## The planner: exact square root below `2 ^ 52` -/

theorem float64_of_small (k : Nat) (h1 : 1 ≤ k) (h2 : k < 2 ^ 53) :
    ∃ t : Nat, float64 (k : Int) = ⟨((k * 2 ^ t : Nat) : Int), -(t : Int)⟩ ∧
      2 ^ 52 ≤ k * 2 ^ t ∧ k * 2 ^ t ≤ 2 ^ 53 := by
  have ha : 0 < k := by omega
  have ha0 : k ≠ 0 := by omega
  obtain ⟨hp1, -⟩ := ratLog2_spec k 1 ha (by norm_num)
  have hp : ratLog2 k 1 ≤ 52 := by
    by_contra hc
    have h3 : (2 : ℚ) ^ (53 : ℤ) ≤ (2 : ℚ) ^ ratLog2 k 1 :=
      zpow_le_zpow_right₀ (by norm_num) (by omega)
    have h4 : (k : ℚ) < (2 : ℚ) ^ (53 : ℤ) := by
      rw [show (53 : ℤ) = ((53 : ℕ) : ℤ) by norm_num, zpow_natCast]
      exact_mod_cast h2
    simp only [Nat.cast_one, div_one] at hp1
    linarith
  obtain ⟨hm1, hm2, -, -⟩ := rne53_spec k 1 ha (by norm_num)
  set e : ℤ := ratLog2 k 1 - 52 with he
  have e0 : e.toNat = 0 := by omega
  have hr : rne53 k 1 = (k * 2 ^ (-e).toNat, e) := by
    have h3 : rne53 k 1 = (nearestEven (k * 2 ^ (-e).toNat) (1 * 2 ^ e.toNat), e) := by
      simp [rne53, ha0, ← he]
    rw [h3, e0]
    simp [nearestEven, Nat.mod_one]
  rw [hr] at hm1 hm2
  refine ⟨(-e).toNat, ?_, hm1, hm2⟩
  have hs : ((k : Int)).sign = 1 := Int.sign_eq_one_of_pos (by omega)
  simp only [float64, Int.natAbs_ofNat, hr, hs, one_mul]
  congr 1
  omega

theorem le_isqrt {a d : Nat} (h : a * a ≤ d) : a ≤ isqrt d := by
  by_contra hc
  have h1 : isqrt d + 1 ≤ a := by omega
  have h2 := Nat.mul_le_mul h1 h1
  have := (isqrt_spec d).2
  omega

theorem isqrt_lt {a d : Nat} (h : d < a * a) : isqrt d < a := by
  by_contra hc
  have h1 : a ≤ isqrt d := by omega
  have h2 := Nat.mul_le_mul h1 h1
  have := (isqrt_spec d).1
  omega

/-- For an integer `1 ≤ k < 2 ^ 52`, `int(math.Floor(math.Sqrt(float64(k))))` is the integer
square root of `k`. -/
theorem floor_sqrt_exact (k : Nat) (h1 : 1 ≤ k) (h2 : k < 2 ^ 52) :
    toInt ((mathSqrt (float64 (k : Int))).map mathFloor) = (isqrt k : Int) := by
  obtain ⟨t, hf, hm1, hm2⟩ := float64_of_small k h1 (by omega)
  rw [hf]
  set m : ℕ := k * 2 ^ t with hm
  have hL1 : 52 ≤ ilog2 m := le_ilog2_of_le hm1
  have hL2 : ilog2 m < 54 := ilog2_lt_of_lt (by omega) (by omega)
  have hLle := ilog2_le (n := m) (by omega)
  have hLlt := lt_ilog2 (n := m) (by omega)
  set s0 : ℤ := 104 - (ilog2 m : ℤ) with hs0
  set s : ℤ := if (-(t : ℤ) - s0) % 2 = 0 then s0 else s0 + 1 with hs
  have hpar : (-(t : ℤ) - s) % 2 = 0 := by
    rw [hs]; split_ifs with h <;> omega
  have hs1 : s0 ≤ s := by rw [hs]; split_ifs <;> omega
  have hs2 : s ≤ s0 + 1 := by rw [hs]; split_ifs <;> omega
  obtain ⟨u, hu⟩ : ∃ u : ℕ, s.toNat + t = 2 * u := ⟨(s.toNat + t) / 2, by omega⟩
  set d : ℕ := m * 2 ^ s.toNat with hd
  have hd1 : 2 ^ 104 ≤ d := by
    have e1 : 2 ^ 104 = 2 ^ ilog2 m * 2 ^ (104 - ilog2 m) := by
      rw [← pow_add]; congr 1; omega
    rw [e1, hd]
    apply Nat.mul_le_mul hLle
    apply Nat.pow_le_pow_right (by norm_num)
    omega
  have hdk : d = k * (2 ^ u * 2 ^ u) := by
    rw [hd, hm, mul_assoc, ← pow_add, ← pow_add]
    congr 2
    omega
  set P : ℕ := 2 ^ u with hP
  have hP0 : 0 < P := Nat.pow_pos (by norm_num)
  -- the window is wide: `2 ^ 27 ≤ P`
  have hP27 : 2 ^ 27 ≤ P := by
    apply Nat.pow_le_pow_right (by norm_num)
    by_contra hc
    have hu26 : u ≤ 26 := by omega
    have h3 : P ≤ 2 ^ 26 := Nat.pow_le_pow_right (by norm_num) hu26
    have h4 : P * P ≤ 2 ^ 26 * 2 ^ 26 := Nat.mul_le_mul h3 h3
    have h5 : k * (P * P) ≤ k * (2 ^ 26 * 2 ^ 26) := Nat.mul_le_mul_left _ h4
    have h6 : k * (2 ^ 26 * 2 ^ 26) < 2 ^ 52 * (2 ^ 26 * 2 ^ 26) :=
      Nat.mul_lt_mul_of_pos_right h2 (by norm_num)
    norm_num at h6 hd1
    omega
  obtain ⟨hq1, hq2⟩ := isqrt_spec k
  set q : ℕ := isqrt k with hq
  have hq26 : q < 2 ^ 26 := by
    by_contra hc
    have h3 : 2 ^ 26 ≤ q := by omega
    have := Nat.mul_le_mul h3 h3
    norm_num at this
    omega
  obtain ⟨hr1, hr2⟩ := isqrt_spec d
  set r : ℕ := isqrt d with hr
  have hlow : q * P ≤ r := by
    apply le_isqrt
    rw [hdk]
    calc q * P * (q * P) = q * q * (P * P) := by ring
      _ ≤ k * (P * P) := Nat.mul_le_mul_right _ hq1
  have hhigh : r < (q + 1) * P := by
    apply isqrt_lt
    rw [hdk]
    calc k * (P * P) < (q + 1) * (q + 1) * (P * P) :=
          Nat.mul_lt_mul_of_pos_right hq2 (Nat.mul_pos hP0 hP0)
      _ = (q + 1) * P * ((q + 1) * P) := by ring
  set mant : ℕ := if r * r + r < d then r + 1 else r with hmant
  have hmant1 : q * P ≤ mant := by rw [hmant]; split_ifs <;> omega
  have hmant2 : mant < (q + 1) * P := by
    rw [hmant]
    split_ifs with hc
    · by_contra hge
      have he : r + 1 = (q + 1) * P := by omega
      have h3 : k + 1 ≤ (q + 1) * (q + 1) := hq2
      have h4 : (k + 1) * (P * P) ≤ (q + 1) * (q + 1) * (P * P) := Nat.mul_le_mul_right _ h3
      have h5 : (q + 1) * (q + 1) * (P * P) = (r + 1) * (r + 1) := by rw [he]; ring
      have h6 : (k + 1) * (P * P) = d + P * P := by rw [hdk]; ring
      have h7 : (r + 1) * (r + 1) = r * r + r + (r + 1) := by ring
      have h8 : P * P < r + 1 := by omega
      rw [he] at h8
      have h9 : (q + 1) * P ≤ 2 ^ 26 * P := Nat.mul_le_mul_right _ (by omega)
      have h10 : 2 ^ 27 * P ≤ P * P := Nat.mul_le_mul_right _ hP27
      omega
    · exact hhigh
  have hm0 : ¬ ((m : ℤ) < 0) := by
    have : (0 : ℤ) ≤ (m : ℤ) := Int.natCast_nonneg m
    omega
  have hm00 : ¬ ((m : ℤ) = 0) := by
    have : (0 : ℤ) < (m : ℤ) := by exact_mod_cast (by omega : 0 < m)
    omega
  have hsq : mathSqrt ⟨(m : ℤ), -(t : ℤ)⟩ = some ⟨(mant : ℤ), -(u : ℤ)⟩ := by
    simp only [mathSqrt, hm0, hm00, if_false, Int.toNat_ofNat, ← hs0, ← hs, ← hd, ← hr]
    congr 2
    omega
  rw [hsq]
  simp only [Option.map_some', toInt, mathFloor]
  have hu0 : ¬ (0 ≤ -(u : ℤ)) := by
    have : 27 ≤ u := by
      by_contra hc
      have : P ≤ 2 ^ 26 := Nat.pow_le_pow_right (by norm_num) (by omega)
      omega
    omega
  have hdiv : (mant : ℤ) / 2 ^ (- -(u : ℤ)).toNat = (q : ℤ) := by
    have e1 : (- -(u : ℤ)).toNat = u := by omega
    rw [e1]
    have e2 : ((2 : ℤ) ^ u) = ((P : ℕ) : ℤ) := by rw [hP]; push_cast; rfl
    rw [e2]
    have e3 : mant / P = q := Nat.div_eq_of_lt_le hmant1 hmant2
    exact_mod_cast e3
  simp only [hu0, if_false, hdiv]
  rw [if_pos]
  constructor
  · have : (0 : ℤ) ≤ (q : ℤ) := by positivity
    omega
  · have : (q : ℤ) < 2 ^ 26 := by exact_mod_cast hq26
    omega

/-! ## The planner without overflow -/

theorem float64_mant_nonneg (i : Nat) : 0 ≤ (float64 (i : Int)).mant := by
  unfold float64
  simp only []
  apply mul_nonneg
  · exact Int.sign_nonneg.2 (Int.natCast_nonneg i)
  · exact Int.natCast_nonneg _

theorem mathRound_float64_nonpos (z : Int) (hz : z < 0) : mathRound (float64 z) ≤ 0 := by
  have hs : z.sign = -1 := Int.sign_eq_neg_one_of_neg hz
  have hm : (float64 z).mant ≤ 0 := by
    unfold float64
    simp only [hs]
    have := Int.natCast_nonneg (rne53 z.natAbs 1).1
    omega
  unfold mathRound
  split_ifs
  · exact mul_nonpos_of_nonpos_of_nonneg hm (by positivity)
  · apply mul_nonpos_of_nonpos_of_nonneg
    · rcases lt_or_eq_of_le hm with h | h
      · rw [Int.sign_eq_neg_one_of_neg h]; norm_num
      · rw [h]; simp
    · exact Int.natCast_nonneg _

/-- No index is below the rounded `mIdeal` when `mIdeal` is negative. -/
theorem not_lt_round_neg (i : Nat) (z : Int) (hz : z < 0) :
    F64.lt (float64 (i : Int)) ⟨mathRound (float64 z), 0⟩ = false := by
  unfold F64.lt
  simp only [decide_eq_false_iff_not, not_lt]
  have h1 := float64_mant_nonneg i
  have h2 := mathRound_float64_nonpos z hz
  calc mathRound (float64 z) * 2 ^ ((0 : Int) - min (float64 (i : Int)).exp 0).toNat ≤ 0 :=
        mul_nonpos_of_nonpos_of_nonneg h2 (by positivity)
    _ ≤ _ := mul_nonneg h1 (by positivity)

/-- The planner in terms of its variables `wl` and `mIdeal`. -/
theorem sigma2BoxDimension_eq (sigma boxes : Int) (hb : 1 ≤ boxes)
    (hm : 8 * boxes ≤ maxAlloc) :
    sigma2BoxDimension sigma boxes = .ok ((List.range boxes.toNat).map fun (i : Nat) =>
      if F64.lt (float64 (i : Int))
          ⟨mathRound (float64 (sigma2BoxDimension.mIdeal sigma boxes)), 0⟩
      then sigma2BoxDimension.wl sigma boxes else iadd (sigma2BoxDimension.wl sigma boxes) 2) := by
  have h0 : ¬ boxes = 0 := by omega
  have h1 : ¬ (boxes < 0 ∨ maxAlloc < 8 * boxes) := by omega
  simp only [sigma2BoxDimension, h0, h1, if_false, sigma2BoxDimension.mIdeal,
    sigma2BoxDimension.wl]

/-- The largest odd integer at most `⌊√k⌋`. -/
theorem oddBelow_spec (q : Nat) (k : Int) (hq0 : 1 ≤ q) (hq1 : (q : Int) * q ≤ k)
    (hq2 : k < ((q : Int) + 1) * ((q : Int) + 1)) (w : Int)
    (hw : w = if (q : Int) % 2 = 0 then (q : Int) - 1 else q) :
    1 ≤ w ∧ w % 2 = 1 ∧ w ≤ q ∧ w * w ≤ k ∧ k < (w + 2) * (w + 2) := by
  have hq : (1 : Int) ≤ q := by exact_mod_cast hq0
  split_ifs at hw with hc
  · subst hw
    refine ⟨by omega, by omega, by omega, by nlinarith, by nlinarith⟩
  · subst hw
    refine ⟨by omega, by omega, le_rfl, hq1, by nlinarith⟩

theorem div_succ_bounds (A n : Int) (hA : 0 ≤ A) (hn : 1 ≤ n) :
    1 ≤ A / n + 1 ∧ A / n + 1 ≤ A + 1 ∧ n * (A / n + 1) ≤ A + n ∧ A < n * (A / n + 1) := by
  have hq0 : 0 ≤ A / n := Int.ediv_nonneg hA (by omega)
  have hq1 : A / n ≤ A := Int.ediv_le_self _ hA
  have hmod := Int.emod_nonneg A (show n ≠ 0 by omega)
  have hmod2 := Int.emod_lt_of_pos A (show 0 < n by omega)
  have hdm := Int.ediv_add_emod A n
  have e : n * (A / n + 1) = n * (A / n) + n := by ring
  refine ⟨by omega, by omega, by omega, by omega⟩

/-- The variable `wl` of the planner for `12 σ² + boxes < 2 ^ 52`. -/
theorem planner_wl (sigma boxes : Int) (hs : 1 ≤ sigma) (hb : 1 ≤ boxes)
    (hr : 12 * sigma * sigma + boxes < 2 ^ 52) :
    ∃ q : Nat, 1 ≤ q ∧ (q : Int) * q ≤ 12 * sigma * sigma / boxes + 1 ∧
      12 * sigma * sigma / boxes + 1 < ((q : Int) + 1) * ((q : Int) + 1) ∧
      sigma2BoxDimension.wl sigma boxes = (if (q : Int) % 2 = 0 then (q : Int) - 1 else q) := by
  have hss : 0 ≤ sigma * sigma := mul_nonneg (by omega) (by omega)
  have h12 : 12 * sigma ≤ 12 * sigma * sigma := le_mul_of_one_le_right (by omega) hs
  have hA0 : 0 ≤ 12 * sigma * sigma := by omega
  have e1 : imul 12 sigma = 12 * sigma := wrap64_of_range (by omega) (by omega)
  have e2 : imul (12 * sigma) sigma = 12 * sigma * sigma :=
    wrap64_of_range (by omega) (by omega)
  obtain ⟨k1, k2, -, -⟩ := div_succ_bounds (12 * sigma * sigma) boxes hA0 hb
  have e3 : idiv (12 * sigma * sigma) boxes = 12 * sigma * sigma / boxes := by
    unfold idiv
    rw [Int.tdiv_eq_ediv hA0 (by omega)]
    exact wrap64_of_range (by omega) (by omega)
  have e4 : iadd (12 * sigma * sigma / boxes) 1 = 12 * sigma * sigma / boxes + 1 :=
    wrap64_of_range (by omega) (by omega)
  obtain ⟨kn, hkn⟩ : ∃ kn : ℕ, 12 * sigma * sigma / boxes + 1 = kn :=
    ⟨(12 * sigma * sigma / boxes + 1).toNat, by omega⟩
  rw [hkn] at k1 k2 e4 ⊢
  have hkn1 : 1 ≤ kn := by omega
  have hkn2 : kn < 2 ^ 52 := by omega
  have e5 := floor_sqrt_exact kn hkn1 hkn2
  obtain ⟨hi1, hi2⟩ := isqrt_spec kn
  have hqpos : 1 ≤ isqrt kn := by
    by_contra hc
    have h0 : isqrt kn = 0 := by omega
    rw [h0] at hi2
    omega
  have hq26 : isqrt kn < 2 ^ 26 := by
    by_contra hc
    have h3 : 2 ^ 26 ≤ isqrt kn := by omega
    have := Nat.mul_le_mul h3 h3
    omega
  have hpar : ((isqrt kn : Int).tmod 2 = 0) ↔ ((isqrt kn : Int) % 2 = 0) := by
    rw [Int.tmod_eq_emod (by omega) (by norm_num)]
  have e6 : isub (isqrt kn : Int) 1 = (isqrt kn : Int) - 1 :=
    wrap64_of_range (by omega) (by omega)
  refine ⟨isqrt kn, hqpos, by exact_mod_cast hi1, by exact_mod_cast hi2, ?_⟩
  simp only [sigma2BoxDimension.wl, e1, e2, e3, e4, e5, hpar, e6]

theorem planner_bounds (A n k w : Int) (hn : 1 ≤ n) (hw : 1 ≤ w) (hk1 : n * k ≤ A + n)
    (hk2 : A < n * k) (hw1 : w * w ≤ k) (hw2 : k < (w + 2) * (w + 2)) :
    n ≤ n * w ∧ n * w ≤ n * w * w ∧ n * w * w ≤ A + n ∧
      2 * n + 4 * (n * w) ≤ A - n * w * w + 4 * (n * w) + 3 * n ∧
      A - n * w * w + 4 * (n * w) + 3 * n ≤ 8 * (n * w) + 6 * n ∧
      1 ≤ (A - n * w * w + 4 * (n * w) + 3 * n) / 4 * w ∧
      (A - n * w * w + 4 * (n * w) + 3 * n) / 4 * w ≤ 8 * (n * w * w) + 6 * (n * w) := by
  have ha1 : n ≤ n * w := le_mul_of_one_le_right (by omega) hw
  have hab : n * w ≤ n * w * w := le_mul_of_one_le_right (by omega) hw
  have hbk : n * w * w ≤ n * k := by
    rw [mul_assoc]
    exact mul_le_mul_of_nonneg_left hw1 (by omega)
  have hkb : n * k ≤ n * w * w + 4 * (n * w) + 3 * n := by
    have h1 : k ≤ (w + 2) * (w + 2) - 1 := by omega
    have h2 := mul_le_mul_of_nonneg_left h1 (show 0 ≤ n by omega)
    have h3 : n * ((w + 2) * (w + 2) - 1) = n * w * w + 4 * (n * w) + 3 * n := by ring
    omega
  have hN1 : 6 ≤ A - n * w * w + 4 * (n * w) + 3 * n := by omega
  have hM0 : 1 ≤ (A - n * w * w + 4 * (n * w) + 3 * n) / 4 := by omega
  have hM1 : (A - n * w * w + 4 * (n * w) + 3 * n) / 4 ≤
      A - n * w * w + 4 * (n * w) + 3 * n := by omega
  refine ⟨ha1, hab, by omega, by omega, by omega, ?_, ?_⟩
  · calc (1 : Int) = 1 * 1 := by norm_num
      _ ≤ (A - n * w * w + 4 * (n * w) + 3 * n) / 4 * w :=
        mul_le_mul hM0 hw (by norm_num) (by omega)
  · have h1 := mul_le_mul_of_nonneg_right hM1 (show 0 ≤ w by omega)
    have h2 : (A - n * w * w + 4 * (n * w) + 3 * n) * w ≤ (8 * (n * w) + 6 * n) * w :=
      mul_le_mul_of_nonneg_right (by omega) (by omega)
    have h3 : (8 * (n * w) + 6 * n) * w = 8 * (n * w * w) + 6 * (n * w) := by ring
    omega

/-- The variable `mIdeal` of the planner for `12 σ² + boxes < 2 ^ 52`: no operation overflows,
and the value is negative. -/
theorem planner_mIdeal (sigma boxes : Int) (hs : 1 ≤ sigma) (hb : 1 ≤ boxes)
    (hr : 12 * sigma * sigma + boxes < 2 ^ 52) :
    1 ≤ sigma2BoxDimension.wl sigma boxes ∧
    sigma2BoxDimension.wl sigma boxes % 2 = 1 ∧
    sigma2BoxDimension.wl sigma boxes < 2 ^ 26 ∧
    sigma2BoxDimension.mIdeal sigma boxes =
      -((12 * sigma * sigma - boxes * sigma2BoxDimension.wl sigma boxes *
            sigma2BoxDimension.wl sigma boxes
          + 4 * (boxes * sigma2BoxDimension.wl sigma boxes) + 3 * boxes) / 4 *
        sigma2BoxDimension.wl sigma boxes) - 4 ∧
    sigma2BoxDimension.mIdeal sigma boxes ≤ -5 := by
  obtain ⟨q, hqpos, hqk1, hqk2, hwl⟩ := planner_wl sigma boxes hs hb hr
  obtain ⟨w1, wodd, wq, ww1, ww2⟩ := oddBelow_spec q _ hqpos hqk1 hqk2 _ hwl
  have hss : 0 ≤ sigma * sigma := mul_nonneg (by omega) (by omega)
  have h12 : 12 * sigma ≤ 12 * sigma * sigma := le_mul_of_one_le_right (by omega) hs
  have hA0 : 0 ≤ 12 * sigma * sigma := by omega
  obtain ⟨k1, k2, k3, k4⟩ := div_succ_bounds (12 * sigma * sigma) boxes hA0 hb
  obtain ⟨b1, b2, b3, b4, b5, b6, b7⟩ := planner_bounds (12 * sigma * sigma) boxes _
    (sigma2BoxDimension.wl sigma boxes) hb w1 k3 k4 ww1 ww2
  have hm : sigma2BoxDimension.mIdeal sigma boxes =
      isub (imul (idiv (iadd (iadd (isub (imul (imul 12 sigma) sigma)
        (imul (imul boxes (sigma2BoxDimension.wl sigma boxes))
          (sigma2BoxDimension.wl sigma boxes)))
        (imul (imul 4 boxes) (sigma2BoxDimension.wl sigma boxes))) (imul 3 boxes)) (-4))
        (sigma2BoxDimension.wl sigma boxes)) 4 := rfl
  rw [hm]
  clear hm
  generalize sigma2BoxDimension.wl sigma boxes = wl at *
  have hq26 : wl < 2 ^ 26 := by
    by_contra hc
    have h3 : (2 : Int) ^ 26 ≤ wl := by omega
    have := mul_le_mul h3 h3 (by norm_num) (by omega)
    omega
  have e1 : imul 12 sigma = 12 * sigma := wrap64_of_range (by omega) (by omega)
  have e2 : imul (12 * sigma) sigma = 12 * sigma * sigma :=
    wrap64_of_range (by omega) (by omega)
  have f1 : imul boxes wl = boxes * wl := wrap64_of_range (by omega) (by omega)
  have f2 : imul (boxes * wl) wl = boxes * wl * wl := wrap64_of_range (by omega) (by omega)
  have f3 : imul 4 boxes = 4 * boxes := wrap64_of_range (by omega) (by omega)
  have f4 : imul (4 * boxes) wl = 4 * (boxes * wl) := by
    unfold imul
    rw [mul_assoc]
    exact wrap64_of_range (by omega) (by omega)
  have f5 : imul 3 boxes = 3 * boxes := wrap64_of_range (by omega) (by omega)
  have f6 : isub (12 * sigma * sigma) (boxes * wl * wl) = 12 * sigma * sigma - boxes * wl * wl :=
    wrap64_of_range (by omega) (by omega)
  have f7 : iadd (12 * sigma * sigma - boxes * wl * wl) (4 * (boxes * wl)) =
      12 * sigma * sigma - boxes * wl * wl + 4 * (boxes * wl) :=
    wrap64_of_range (by omega) (by omega)
  have f8 : iadd (12 * sigma * sigma - boxes * wl * wl + 4 * (boxes * wl)) (3 * boxes) =
      12 * sigma * sigma - boxes * wl * wl + 4 * (boxes * wl) + 3 * boxes :=
    wrap64_of_range (by omega) (by omega)
  rw [e1, e2, f1, f2, f3, f4, f5, f6, f7, f8]
  generalize 12 * sigma * sigma - boxes * wl * wl + 4 * (boxes * wl) + 3 * boxes = N at *
  have f9 : idiv N (-4) = -(N / 4) := by
    unfold idiv
    rw [Int.tdiv_neg, Int.tdiv_eq_ediv (by omega) (by norm_num)]
    exact wrap64_of_range (by omega) (by omega)
  have f10 : imul (-(N / 4)) wl = -(N / 4 * wl) := by
    unfold imul
    rw [neg_mul]
    exact wrap64_of_range (by omega) (by omega)
  have f11 : isub (-(N / 4 * wl)) 4 = -(N / 4 * wl) - 4 :=
    wrap64_of_range (by omega) (by omega)
  rw [f9, f10, f11]
  exact ⟨w1, wodd, hq26, rfl, by omega⟩


/-! ## The plan of the specification -/

theorem floor_plan_arg (sigma passes : Int) (hp : 1 ≤ passes) :
    ⌊(12 * (sigma : ℚ) ^ 2 / (passes : ℚ) + 1)⌋₊ = (12 * sigma * sigma / passes + 1).toNat := by
  obtain ⟨n, rfl⟩ := Int.eq_ofNat_of_zero_le (show 0 ≤ passes by omega)
  rw [← Int.floor_toNat]
  congr 1
  have e : (12 * (sigma : ℚ) ^ 2 / (((n : ℕ) : ℤ) : ℚ) + 1) =
      (((12 * sigma * sigma : ℤ) : ℚ) / ((n : ℕ) : ℚ)) + 1 := by
    push_cast; ring
  rw [e, Int.floor_add_one, Rat.floor_intCast_div_natCast]

/-- The integer square root used by `largestOddBelowSqrt` is the floor of the real square
root. -/
theorem floor_sqrt_rat (q : ℚ) (hq : 0 ≤ q) :
    ⌊Real.sqrt (q : ℝ)⌋ = ((Nat.sqrt ⌊q⌋₊ : ℕ) : ℤ) := by
  have hq' : (0 : ℝ) ≤ (q : ℝ) := by exact_mod_cast hq
  rw [Int.floor_eq_iff]
  have h1 := Nat.sqrt_le' ⌊q⌋₊
  have h2 := Nat.lt_succ_sqrt' ⌊q⌋₊
  have hfl : ((⌊q⌋₊ : ℕ) : ℝ) ≤ (q : ℝ) := by
    have := Nat.floor_le hq
    exact_mod_cast this
  have hfl2 : (q : ℝ) < ((⌊q⌋₊ : ℕ) : ℝ) + 1 := by
    have := Nat.lt_floor_add_one q
    exact_mod_cast this
  constructor
  · push_cast
    apply Real.le_sqrt_of_sq_le
    have : ((Nat.sqrt ⌊q⌋₊ ^ 2 : ℕ) : ℝ) ≤ ((⌊q⌋₊ : ℕ) : ℝ) := by exact_mod_cast h1
    push_cast at this
    linarith
  · push_cast
    rw [Real.sqrt_lt' (by positivity)]
    have : (((⌊q⌋₊ : ℕ) : ℝ) + 1) ≤ (((Nat.sqrt ⌊q⌋₊).succ ^ 2 : ℕ) : ℝ) := by
      exact_mod_cast h2
    push_cast at this
    linarith

/-- In the plan of the specification `m` is negative, so every pass gets `wu`. -/
theorem planSpec_eq (sigma passes : Int) (hs : 1 ≤ sigma) (hp : 1 ≤ passes) :
    planSpec sigma passes = List.replicate passes.toNat
      (largestOddBelowSqrt (12 * (sigma : ℚ) ^ 2 / (passes : ℚ) + 1) + 2) := by
  have hA0 : 0 ≤ 12 * sigma * sigma :=
    mul_nonneg (show 0 ≤ 12 * sigma by omega) (show 0 ≤ sigma by omega)
  obtain ⟨k1, k2, k3, k4⟩ := div_succ_bounds (12 * sigma * sigma) passes hA0 hp
  unfold planSpec
  simp only []
  have hfl := floor_plan_arg sigma passes hp
  obtain ⟨kn, hkn⟩ : ∃ kn : ℕ, 12 * sigma * sigma / passes + 1 = kn :=
    ⟨(12 * sigma * sigma / passes + 1).toNat, by omega⟩
  rw [hkn] at hfl k1 k3
  simp only [Int.toNat_ofNat] at hfl
  have hs1 := Nat.sqrt_le' kn
  have hs2 := Nat.lt_succ_sqrt' kn
  have hsq1 : 1 ≤ Nat.sqrt kn := by
    by_contra hc
    have h0 : Nat.sqrt kn = 0 := by omega
    rw [h0] at hs2
    norm_num at hs2
    omega
  -- the facts about `wl`
  have hw : 1 ≤ largestOddBelowSqrt (12 * (sigma : ℚ) ^ 2 / (passes : ℚ) + 1) ∧
      largestOddBelowSqrt (12 * (sigma : ℚ) ^ 2 / (passes : ℚ) + 1) *
        largestOddBelowSqrt (12 * (sigma : ℚ) ^ 2 / (passes : ℚ) + 1) ≤ kn := by
    unfold largestOddBelowSqrt
    rw [hfl]
    simp only []
    have h3 : ((Nat.sqrt kn : ℕ) : ℤ) * (Nat.sqrt kn : ℕ) ≤ kn := by
      have : Nat.sqrt kn * Nat.sqrt kn ≤ kn := by rw [← sq]; exact hs1
      exact_mod_cast this
    have h4 : (1 : ℤ) ≤ (Nat.sqrt kn : ℕ) := by exact_mod_cast hsq1
    split_ifs with hc
    · exact ⟨by omega, by nlinarith⟩
    · exact ⟨h4, h3⟩
  generalize largestOddBelowSqrt (12 * (sigma : ℚ) ^ 2 / (passes : ℚ) + 1) = wl at hw ⊢
  obtain ⟨hw1, hw2⟩ := hw
  have hnw : passes * (wl * wl) ≤ 12 * sigma * sigma + passes :=
    le_trans (mul_le_mul_of_nonneg_left hw2 (by omega)) k3
  have hnw1 : passes ≤ passes * wl := le_mul_of_one_le_right (by omega) hw1
  -- the rational `m_ideal` is below `-4`
  have hm : (12 * (sigma : ℚ) ^ 2 - (passes : ℚ) * (wl : ℚ) ^ 2 + 4 * (passes : ℚ) * (wl : ℚ)
      + 3 * (passes : ℚ)) / (-4 * (wl : ℚ)) - 4 < -4 := by
    have hnum : (0 : ℚ) < 12 * (sigma : ℚ) ^ 2 - (passes : ℚ) * (wl : ℚ) ^ 2
        + 4 * (passes : ℚ) * (wl : ℚ) + 3 * (passes : ℚ) := by
      have : (0 : ℤ) < 12 * sigma * sigma - passes * (wl * wl) + 4 * (passes * wl)
          + 3 * passes := by omega
      have h := (Int.cast_lt (R := ℚ)).2 this
      push_cast at h
      linarith
    have hden : (-4 * (wl : ℚ)) < 0 := by
      have : (1 : ℚ) ≤ (wl : ℚ) := by exact_mod_cast hw1
      linarith
    have := div_neg_of_pos_of_neg hnum hden
    linarith
  have hround : round ((12 * (sigma : ℚ) ^ 2 - (passes : ℚ) * (wl : ℚ) ^ 2
      + 4 * (passes : ℚ) * (wl : ℚ) + 3 * (passes : ℚ)) / (-4 * (wl : ℚ)) - 4) < 0 := by
    rw [round_eq, Int.floor_lt]
    push_cast
    linarith
  apply List.ext_getElem (by simp)
  intro i h1 h2
  simp only [List.getElem_map, List.getElem_range, List.getElem_replicate]
  rw [if_neg]
  have : (0 : ℤ) ≤ (i : ℤ) := Int.natCast_nonneg i
  omega

/-! ## Claims about the planner without overflow -/

/-- For `12 σ² + boxes < 2 ^ 52` every planned width is `wl + 2`; the list is returned when
its `boxes` integers are within `maxAlloc` bytes, and `make` panics otherwise. -/
theorem planner_all_wu (sigma boxes : Int) (hs : 1 ≤ sigma) (hb : 1 ≤ boxes)
    (hr : 12 * sigma * sigma + boxes < 2 ^ 52) :
    sigma2BoxDimension sigma boxes =
      if 8 * boxes ≤ maxAlloc then
        .ok (List.replicate boxes.toNat (sigma2BoxDimension.wl sigma boxes + 2))
      else .error .makeSliceLen := by
  by_cases ha : 8 * boxes ≤ maxAlloc
  swap
  · rw [if_neg ha]
    exact (sigma2BoxDimension_cases sigma boxes).2.2.1 (by omega)
  rw [if_pos ha]
  obtain ⟨w1, -, w26, -, hm⟩ := planner_mIdeal sigma boxes hs hb hr
  have g1 : iadd (sigma2BoxDimension.wl sigma boxes) 2 = sigma2BoxDimension.wl sigma boxes + 2 :=
    wrap64_of_range (by omega) (by omega)
  rw [sigma2BoxDimension_eq sigma boxes hb ha, g1]
  congr 1
  apply List.ext_getElem (by simp)
  intro i h1 h2
  simp only [List.getElem_map, List.getElem_range, List.getElem_replicate]
  rw [not_lt_round_neg i _ (by omega)]
  simp

/-- For `12 σ² + boxes < 2 ^ 52` the planner's `wl` is the `wl` of the specification. -/
theorem planner_wl_spec (sigma boxes : Int) (hs : 1 ≤ sigma) (hb : 1 ≤ boxes)
    (hr : 12 * sigma * sigma + boxes < 2 ^ 52) :
    sigma2BoxDimension.wl sigma boxes =
      largestOddBelowSqrt (12 * (sigma : ℚ) ^ 2 / (boxes : ℚ) + 1) := by
  obtain ⟨q, hq0, hq1, hq2, hwl⟩ := planner_wl sigma boxes hs hb hr
  have hA0 : 0 ≤ 12 * sigma * sigma :=
    mul_nonneg (show 0 ≤ 12 * sigma by omega) (show 0 ≤ sigma by omega)
  obtain ⟨k1, -, -, -⟩ := div_succ_bounds (12 * sigma * sigma) boxes hA0 hb
  unfold largestOddBelowSqrt
  rw [floor_plan_arg sigma boxes hb, hwl]
  obtain ⟨kn, hkn⟩ : ∃ kn : ℕ, 12 * sigma * sigma / boxes + 1 = kn :=
    ⟨(12 * sigma * sigma / boxes + 1).toNat, by omega⟩
  rw [hkn] at hq1 hq2 ⊢
  have hqs : q = Nat.sqrt kn := by
    apply Nat.eq_sqrt.2
    constructor
    · exact_mod_cast hq1
    · exact_mod_cast hq2
  simp only [Int.toNat_ofNat, hqs]

/-- C15 (the claim as stated fails): for `sigma = 700000000` and one pass, `12 * sigma²` is
within the `int` range, the planner returns the width `2424871129`, and the plan of the
specification is the width `2424871131`. -/
theorem sigma2BoxDimension_ne_planSpec :
    (12 * 700000000 * 700000000 : Int) < 2 ^ 63 ∧
    sigma2BoxDimension 700000000 1 = .ok [2424871129] ∧
    planSpec 700000000 1 = [2424871131] := by
  refine ⟨by decide, by decide!, ?_⟩
  rw [planSpec_eq 700000000 1 (by norm_num) (by norm_num)]
  have h1 := floor_plan_arg 700000000 1 (by norm_num)
  have h2 : (12 * 700000000 * 700000000 / 1 + 1 : Int).toNat = 5880000000000000001 := by
    decide
  have h3 : isqrt 5880000000000000001 = 2424871130 := by decide!
  unfold largestOddBelowSqrt
  rw [h1, h2, ← isqrt_eq_sqrt, h3]
  decide

/-- C15 (amended): for `sigma ≥ 1` and `boxes ≥ 1` with `12 * sigma² + boxes < 2 ^ 52`, the
list that `sigma2BoxDimension` returns is the plan of the specification; it returns one
whenever the `boxes` integers are within `maxAlloc` bytes (`boxes ≤ 2 ^ 45`), and `make`
panics otherwise. -/
theorem sigma2BoxDimension_eq_planSpec (sigma boxes : Int) (hs : 1 ≤ sigma) (hb : 1 ≤ boxes)
    (hr : 12 * sigma * sigma + boxes < 2 ^ 52) :
    sigma2BoxDimension sigma boxes =
      if 8 * boxes ≤ maxAlloc then .ok (planSpec sigma boxes) else .error .makeSliceLen := by
  rw [planner_all_wu sigma boxes hs hb hr, planSpec_eq sigma boxes hs hb,
    planner_wl_spec sigma boxes hs hb hr]

theorem sigma2BoxDimension_eq_planSpec_witness :
    sigma2BoxDimension 10 3 =
      if 8 * 3 ≤ maxAlloc then .ok (planSpec 10 3) else .error .makeSliceLen :=
  sigma2BoxDimension_eq_planSpec 10 3 (by decide) (by decide) (by decide)

/-- C18 (the claim as stated fails): for `sigma = 876706528` and one pass, `12 * sigma²` is
within the `int` range, `mIdeal` wraps around to a positive value, and the only pass gets the
smaller width `wl`. -/
theorem planner_mIdeal_wraps :
    (12 * 876706528 * 876706528 : Int) < 2 ^ 63 ∧
    sigma2BoxDimension.wl 876706528 1 = 3037000499 ∧
    sigma2BoxDimension.mIdeal 876706528 1 = 6241395609050133713 ∧
    sigma2BoxDimension 876706528 1 = .ok [3037000499] := by
  refine ⟨by decide, by decide!, by decide!, by decide!⟩

/-- C18 (amended): for `sigma ≥ 1` and `boxes ≥ 1` with `12 * sigma² + boxes < 2 ^ 52`, the
planner's `mIdeal` is negative (at most `-5`), so no pass gets `wl`: the planner returns
`boxes` times the width `wl + 2` (when these `boxes` integers are within `maxAlloc` bytes;
`make` panics otherwise), where `wl` is the largest odd integer at most
`⌊√(⌊12 σ² / boxes⌋ + 1)⌋`; every width is odd and at least 3, and every radius
`(width - 1) / 2` is at least 1. -/
theorem planner_never_uses_wl (sigma boxes : Int) (hs : 1 ≤ sigma) (hb : 1 ≤ boxes)
    (hr : 12 * sigma * sigma + boxes < 2 ^ 52) :
    sigma2BoxDimension.mIdeal sigma boxes ≤ -5 ∧
    (sigma2BoxDimension.wl sigma boxes % 2 = 1 ∧
      sigma2BoxDimension.wl sigma boxes * sigma2BoxDimension.wl sigma boxes ≤
        12 * sigma * sigma / boxes + 1 ∧
      12 * sigma * sigma / boxes + 1 <
        (sigma2BoxDimension.wl sigma boxes + 2) * (sigma2BoxDimension.wl sigma boxes + 2)) ∧
    sigma2BoxDimension sigma boxes =
      (if 8 * boxes ≤ maxAlloc then
        .ok (List.replicate boxes.toNat (sigma2BoxDimension.wl sigma boxes + 2))
      else .error .makeSliceLen) ∧
    ∀ box ∈ List.replicate boxes.toNat (sigma2BoxDimension.wl sigma boxes + 2),
      box % 2 = 1 ∧ 3 ≤ box ∧ 1 ≤ (box - 1).tdiv 2 := by
  obtain ⟨w1, wodd, -, -, hm⟩ := planner_mIdeal sigma boxes hs hb hr
  obtain ⟨q, hq0, hq1, hq2, hwl⟩ := planner_wl sigma boxes hs hb hr
  obtain ⟨-, -, -, ww1, ww2⟩ := oddBelow_spec q _ hq0 hq1 hq2 _ hwl
  refine ⟨hm, ⟨wodd, ww1, ww2⟩, planner_all_wu sigma boxes hs hb hr, ?_⟩
  intro box hbox
  rw [List.mem_replicate] at hbox
  obtain ⟨-, rfl⟩ := hbox
  refine ⟨by omega, by omega, ?_⟩
  rw [Int.tdiv_eq_ediv (by omega) (by norm_num)]
  omega

theorem planner_never_uses_wl_witness :
    sigma2BoxDimension.mIdeal 1 3 ≤ -5 ∧
    (sigma2BoxDimension.wl 1 3 % 2 = 1 ∧
      sigma2BoxDimension.wl 1 3 * sigma2BoxDimension.wl 1 3 ≤ 12 * 1 * 1 / 3 + 1 ∧
      12 * 1 * 1 / 3 + 1 < (sigma2BoxDimension.wl 1 3 + 2) * (sigma2BoxDimension.wl 1 3 + 2)) ∧
    sigma2BoxDimension 1 3 =
      (if 8 * 3 ≤ maxAlloc then
        .ok (List.replicate (3 : Int).toNat (sigma2BoxDimension.wl 1 3 + 2))
      else .error .makeSliceLen) ∧
    ∀ box ∈ List.replicate (3 : Int).toNat (sigma2BoxDimension.wl 1 3 + 2),
      box % 2 = 1 ∧ 3 ≤ box ∧ 1 ≤ (box - 1).tdiv 2 :=
  planner_never_uses_wl 1 3 (by decide) (by decide) (by decide)

/-! ## The nil destination -/

/-- C14 (the claim as stated fails): for a source that is not a `*image.RGBA` the copy of the
source is made before the destination is checked.  With the bounds of `image.Uniform`,
`(-1e9, -1e9)-(1e9, 1e9)`, whose byte count overflows `int`, the call with a nil destination
panics in that copy (`makeslice: len out of range`), not with the message about the
destination. -/
theorem Gaussian_nil_destination_after_clone :
    Gaussian (.generic ⟨⟨-1000000000, -1000000000⟩, ⟨1000000000, 1000000000⟩⟩
      (fun _ _ _ => 255)) none 1 3 = .error .makeSliceLen ∧
    Panic.makeSliceLen.message ≠ "destination image must not be nil" := by
  constructor
  · rfl
  · decide

/-- C14 (amended): for a source that is a `*image.RGBA`, and for any other source whose copy
succeeds, `Gaussian` with a nil destination stops with the panic
"destination image must not be nil", whatever `sigma` and `boxes` are: the planner and the
blur passes, which come after the check, are not reached. -/
theorem Gaussian_nil_destination (src : Image) (sigma boxes : Int)
    (h : (∃ p, src = .rgba p) ∨ ∃ a, clone src = .ok a) :
    Gaussian src none sigma boxes = .error .nilDestination ∧
      Panic.nilDestination.message = "destination image must not be nil" := by
  refine ⟨?_, rfl⟩
  cases src with
  | rgba p => rfl
  | generic b f =>
    rcases h with ⟨p, hp⟩ | ⟨a, ha⟩
    · exact absurd hp (by simp)
    · simp only [Gaussian, ha, bind, Except.bind, Option.isNone_none, if_true]

theorem Gaussian_nil_destination_witness :
    (Gaussian (.rgba impulse5) none 1 0 = .error .nilDestination ∧
      Panic.nilDestination.message = "destination image must not be nil") ∧
    (Gaussian (.generic ⟨⟨0, 0⟩, ⟨(2 : Nat), (2 : Nat)⟩⟩ (fun _ _ _ => 255)) none 1 3 =
        .error .nilDestination ∧
      Panic.nilDestination.message = "destination image must not be nil") :=
  ⟨Gaussian_nil_destination (.rgba impulse5) 1 0 (Or.inl ⟨impulse5, rfl⟩),
    Gaussian_nil_destination _ 1 3
      (Or.inr ((clone_generic (fun _ _ _ => 255) 2 2 (by decide) (by decide)).imp
        fun _ ha => ha.1))⟩

/-! ## What a line's work leaves unchanged -/

theorem loopFrom_preserves {σ : Type} (body : Int → σ → Except Panic σ) (I : σ → Prop)
    (hbody : ∀ (j : Int) (s s1 : σ), body j s = .ok s1 → I s → I s1) :
    ∀ (n : Nat) (j : Int) (s s1 : σ), loopFrom body n j s = .ok s1 → I s → I s1 := by
  intro n
  induction n with
  | zero =>
    intro j s s1 h hI
    simp only [loopFrom, Except.ok.injEq] at h
    rw [← h]; exact hI
  | succ n ih =>
    intro j s s1 h hI
    unfold loopFrom at h
    cases hb : body j s with
    | error e => rw [hb] at h; simp at h
    | ok s2 =>
      rw [hb] at h
      exact ih (j + 1) s2 s1 h (hbody j s s2 hb hI)

/-- A `SetRGBA` on a raster that fits leaves it fitting, and changes no pixel but the one it
names. -/
theorem SetRGBA_frame {d d1 : RGBA} {w h : Nat} (hd : d.Fits w h) (x y : Int) (col : Color)
    (hset : d.SetRGBA x y col = .ok d1) :
    d1.Fits w h ∧ ∀ (x1 y1 : Int) (c : Fin 4), 0 ≤ x1 → x1 < w → 0 ≤ y1 → y1 < h →
      ¬ (x1 = x ∧ y1 = y) → d1.get x1 y1 c = d.get x1 y1 c := by
  by_cases hin : d.Rect.has x y = true
  · have hb : 0 ≤ x ∧ x < w ∧ 0 ≤ y ∧ y < h := by
      unfold Rectangle.has at hin
      rw [hd.1] at hin
      simpa using hin
    obtain ⟨d2, h2, hf, -, -, -, hfr, -⟩ := hd.SetRGBA hb.1 hb.2.1 hb.2.2.1 hb.2.2.2 col
    rw [h2] at hset
    simp only [Except.ok.injEq] at hset
    rw [← hset]
    exact ⟨hf, hfr⟩
  · unfold RGBA.SetRGBA at hset
    simp only [hin] at hset
    simp only [Bool.false_eq_true, if_false, Except.ok.injEq] at hset
    rw [← hset]
    exact ⟨hd, fun _ _ _ _ _ _ _ _ => rfl⟩

/-! ## The running sum at every output position -/

theorem loopTrace_inv {σ : Type} (body : Int → σ → Except Panic σ) (n : Nat) :
    ∀ (Inv : Nat → σ → Prop) (j : Int) (s : σ), Inv 0 s →
      (∀ (k : Nat) (s : σ), k < n → Inv k s → ∃ s1, body (j + k) s = .ok s1 ∧ Inv (k + 1) s1) →
      (loopTrace body n j s).length = n ∧
        ∀ t ∈ loopTrace body n j s, ∃ k, k < n ∧ Inv (k + 1) t := by
  induction n with
  | zero => intro Inv j s _ _; exact ⟨rfl, by simp [loopTrace]⟩
  | succ n ih =>
    intro Inv j s h0 hstep
    obtain ⟨s1, hb, h1⟩ := hstep 0 s (by omega) h0
    simp only [Nat.cast_zero, add_zero] at hb
    obtain ⟨hlen, hmem⟩ := ih (fun k => Inv (k + 1)) (j + 1) s1 h1 (by
      intro k t hk hI
      obtain ⟨t1, ht, hI1⟩ := hstep (k + 1) t (by omega) hI
      refine ⟨t1, ?_, hI1⟩
      rw [← ht]; congr 1; push_cast; ring)
    simp only [loopTrace, hb, List.length_cons, hlen, List.mem_cons, true_and]
    intro t ht
    rcases ht with rfl | ht
    · exact ⟨0, by omega, h1⟩
    · obtain ⟨k, hk, hI⟩ := hmem t ht
      exact ⟨k + 1, by omega, hI⟩

/-- On a line `p` of length `w ≥ 2 * R + 1` the scan-line algorithm passes through `w` states,
one for every output position, and the running sum of each is the edge-clamped window sum
around some position of the line. -/
theorem lineTrace_spec (get : Int → Except Panic (Fin 4 → Int))
    (put : Int → Color → RGBA → Except Panic RGBA) (w R : Nat) (iarr : F64)
    (p : Int → Fin 4 → Int) (hw : 2 * R + 1 ≤ w)
    (hget : ∀ x : Int, 0 ≤ x → x < w → get x = .ok (p x))
    (P : Nat → RGBA → Prop)
    (hput : ∀ (k : Nat) (d : RGBA), k < w → P k d →
      ∃ d1, put (k : Int) (blurColor (windowSum p w R k) iarr) d = .ok d1 ∧ P (k + 1) d1)
    (dst : RGBA) (h0 : P 0 dst) :
    (lineTrace get put 0 w R iarr dst).length = w ∧
      ∀ s ∈ lineTrace get put 0 w R iarr dst,
        ∃ k : Nat, k < w ∧ s.val = windowSum p w R k := by
  have hfv : get 0 = .ok (p 0) := hget 0 le_rfl (by omega)
  have hl1 := lineBlur_accumulate get w R p hw hget
  obtain ⟨s2, hl2, ht2, hli2, hri2, hval2, hP2⟩ :=
    lineBlur_lead get put w R iarr p hw hget P hput dst h0
  obtain ⟨s3, hl3, ht3, hli3, hval3, hP3⟩ :=
    lineBlur_slide get put w R iarr p hw hget P hput s2 ht2 hli2 hri2 hval2 hP2
  obtain ⟨len1, mem1⟩ := loopTrace_inv (leadStep get put (p 0) iarr) (R + 1)
    (fun k s => s.ti = (k : Int) ∧ s.li = 0 ∧ s.ri = (R : Int) + k ∧
      s.val = windowSum p w R ((k : Int) - 1) ∧ P k s.dst)
    0 { ti := 0, li := 0, ri := 0 + R, val := windowSum p w R (-1), dst := dst }
    ⟨by simp, rfl, by simp, by simp, h0⟩
    (fun k s hk hI => leadStep_inv get put w R iarr p hw hget P hput k s hk hI)
  obtain ⟨len2, mem2⟩ := loopTrace_inv (slideStep get put iarr) (w - 2 * R - 1)
    (fun k s => s.ti = (R : Int) + 1 + k ∧ s.li = (k : Int) ∧ s.ri = 2 * (R : Int) + 1 + k ∧
      s.val = windowSum p w R ((R : Int) + k) ∧ P (R + 1 + k) s.dst)
    ((R : Int) + 1) s2
    ⟨by rw [ht2]; simp, by simp [hli2], by rw [hri2]; simp, by rw [hval2]; simp, hP2⟩
    (fun k s hk hI => slideStep_inv get put w R iarr p hw hget P hput k s hk hI)
  obtain ⟨len3, mem3⟩ := loopTrace_inv (trailStep get put ((w : Int) - 1) iarr) R
    (fun k s => s.ti = ((w - R + k : Nat) : Int) ∧ s.li = ((w - 2 * R - 1 + k : Nat) : Int) ∧
      s.val = windowSum p w R (((w - R + k : Nat) : Int) - 1) ∧ P (w - R + k) s.dst)
    ((w : Int) - R) s3
    ⟨by rw [ht3]; rfl, by rw [hli3]; rfl, by rw [hval3]; rfl, hP3⟩
    (fun k s hk hI => trailStep_inv get put w R iarr p hw hget P hput k s hk hI)
  have n1 : ((R : Int) - 0).toNat = R := by omega
  have n2 : ((R : Int) + 1 - 0).toNat = R + 1 := by omega
  have n3 : ((w : Int) - R - ((R : Int) + 1)).toNat = w - 2 * R - 1 := by omega
  have n4 : ((w : Int) - ((w : Int) - R)).toNat = R := by omega
  have hT : lineTrace get put 0 w R iarr dst =
      loopTrace (leadStep get put (p 0) iarr) (R + 1) 0
          { ti := 0, li := 0, ri := 0 + R, val := windowSum p w R (-1), dst := dst } ++
        loopTrace (slideStep get put iarr) (w - 2 * R - 1) ((R : Int) + 1) s2 ++
        loopTrace (trailStep get put ((w : Int) - 1) iarr) R ((w : Int) - R) s3 := by
    simp only [lineTrace, forRange, hfv, n1, n2, n3, n4, hl1, hl2, hl3]
  rw [hT]
  constructor
  · simp only [List.length_append, len1, len2, len3]
    omega
  · intro s hs
    simp only [List.mem_append] at hs
    rcases hs with (hs | hs) | hs
    · obtain ⟨k, hk, -, -, -, hv, -⟩ := mem1 s hs
      refine ⟨k, by omega, ?_⟩
      rw [hv]; congr 1; push_cast; ring
    · obtain ⟨k, hk, -, -, -, hv, -⟩ := mem2 s hs
      refine ⟨R + (k + 1), by omega, ?_⟩
      rw [hv]; congr 1
    · obtain ⟨k, hk, -, -, hv, -⟩ := mem3 s hs
      refine ⟨w - R + (k + 1) - 1, by omega, ?_⟩
      rw [hv]; congr 1; omega

theorem mathRound_mul_iarr (v : Int) (R : Nat) (hR : 2 * (R : Int) + 1 < 2 ^ 42) (h0 : 0 ≤ v)
    (h1 : v ≤ 255 * (2 * (R : Int) + 1)) :
    mathRound (F64.mul (float64 v) (iarrOf R)) = roundDiv v (2 * (R : Int) + 1) := by
  unfold iarrOf
  have e : (R : Int) + R + 1 = 2 * (R : Int) + 1 := by ring
  rw [e, blur_round_exact v (2 * (R : Int) + 1) (by omega) (by omega) hR h0 h1]
  rfl

/-- What holds of a running sum that is a window sum of samples. -/
theorem window_val_in_range (line : Int → Fin 4 → Int) (n : Int) (R : Nat) (k : Int)
    (c : Fin 4) (hR : 2 * (R : Int) + 1 < 2 ^ 42)
    (hline : ∀ j, 0 ≤ line j c ∧ line j c ≤ 255) :
    0 ≤ windowSum line n R k c ∧ windowSum line n R k c ≤ 255 * (2 * (R : Int) + 1) ∧
      0 ≤ mathRound (F64.mul (float64 (windowSum line n R k c)) (iarrOf R)) ∧
      mathRound (F64.mul (float64 (windowSum line n R k c)) (iarrOf R)) ≤ 255 ∧
      ((toUint8 (mathRound (F64.mul (float64 (windowSum line n R k c)) (iarrOf R))) : Byte)
        : Int) = mathRound (F64.mul (float64 (windowSum line n R k c)) (iarrOf R)) := by
  have hb := windowSum_bounds (fun j => line j c) n R k (by omega) hline
  rw [← windowSum_apply] at hb
  obtain ⟨b0, b1⟩ := hb
  rw [mathRound_mul_iarr _ R hR b0 b1]
  obtain ⟨r0, r1⟩ := roundDiv_bounds (windowSum line n R k c) (2 * (R : Int) + 1) (by omega)
    b0 b1
  exact ⟨b0, b1, r0, r1, toUint8_of_range _ r0 r1⟩

/-- C16: on rasters with origin `(0, 0)` that hold their `w × h` pixels, for a radius
`r ≥ 0` (with `2 r + 1 < 2 ^ 42`) and scan lines at least `2 r + 1` long, the work of
`boxBlurHorizontal` for a row passes through one state for every output position of the row,
and in each of them, for every channel, the running sum `val` lies in `[0, 255 (2 r + 1)]`,
the rounded product `math.Round(float64(val) * iarr)` lies in `[0, 255]`, and its conversion
to `uint8` keeps its value; the same holds for the work of `boxBlurVertical` for a column. -/
theorem running_sum_in_range (src dst : RGBA) (w h : Nat) (r : Int) (hs : src.Fits w h)
    (hd : dst.Fits w h) (hr0 : 0 ≤ r) (hr : 2 * r + 1 < 2 ^ 42) :
    (2 * r + 1 ≤ w → ∀ y : Int, 0 ≤ y → y < h →
      (boxBlurHorizontalRowTrace src r (iarrOf r) y dst).length = w ∧
      ∀ s ∈ boxBlurHorizontalRowTrace src r (iarrOf r) y dst, ∀ c : Fin 4,
        0 ≤ s.val c ∧ s.val c ≤ 255 * (2 * r + 1) ∧
        0 ≤ mathRound (F64.mul (float64 (s.val c)) (iarrOf r)) ∧
        mathRound (F64.mul (float64 (s.val c)) (iarrOf r)) ≤ 255 ∧
        ((toUint8 (mathRound (F64.mul (float64 (s.val c)) (iarrOf r))) : Byte) : Int) =
          mathRound (F64.mul (float64 (s.val c)) (iarrOf r))) ∧
    (2 * r + 1 ≤ h → ∀ x : Int, 0 ≤ x → x < w →
      (boxBlurVerticalColumnTrace src r (iarrOf r) x dst).length = h ∧
      ∀ s ∈ boxBlurVerticalColumnTrace src r (iarrOf r) x dst, ∀ c : Fin 4,
        0 ≤ s.val c ∧ s.val c ≤ 255 * (2 * r + 1) ∧
        0 ≤ mathRound (F64.mul (float64 (s.val c)) (iarrOf r)) ∧
        mathRound (F64.mul (float64 (s.val c)) (iarrOf r)) ≤ 255 ∧
        ((toUint8 (mathRound (F64.mul (float64 (s.val c)) (iarrOf r))) : Byte) : Int) =
          mathRound (F64.mul (float64 (s.val c)) (iarrOf r))) := by
  obtain ⟨R, rfl⟩ := Int.eq_ofNat_of_zero_le hr0
  constructor
  · intro hw y hy0 hy1
    have hmin : src.Rect.Min.X = 0 := by rw [hs.1]
    have hmax : src.Rect.Max.X = w := by rw [hs.1]
    unfold boxBlurHorizontalRowTrace
    rw [hmin, hmax]
    obtain ⟨hlen, hmem⟩ := lineTrace_spec
      (fun x => src.pixel (src.PixOffset x y)) (fun x c d => d.SetRGBA x y c) w R (iarrOf R)
      (src.rowLine y) (by omega) (fun x hx0 hx1 => hs.pixel hx0 hx1 hy0 hy1)
      (fun _ d => d.Fits w h)
      (by
        intro k d hk hf
        obtain ⟨d1, hset, hf1, -⟩ := hf.SetRGBA (x := (k : Int)) (y := y) (by omega) (by omega)
          hy0 hy1 (blurColor (windowSum (src.rowLine y) w R k) (iarrOf R))
        exact ⟨d1, hset, hf1⟩)
      dst hd
    refine ⟨hlen, ?_⟩
    intro s hsm c
    obtain ⟨k, -, hv⟩ := hmem s hsm
    rw [hv]
    exact window_val_in_range _ _ R k c hr (fun j => samples_range src j y c)
  · intro hh x hx0 hx1
    have hmin : src.Rect.Min.Y = 0 := by rw [hs.1]
    have hmax : src.Rect.Max.Y = h := by rw [hs.1]
    unfold boxBlurVerticalColumnTrace
    rw [hmin, hmax]
    obtain ⟨hlen, hmem⟩ := lineTrace_spec
      (fun y => src.pixel (src.PixOffset x y)) (fun y c d => d.SetRGBA x y c) h R (iarrOf R)
      (src.columnLine x) (by omega) (fun y hy0 hy1 => hs.pixel hx0 hx1 hy0 hy1)
      (fun _ d => d.Fits w h)
      (by
        intro k d hk hf
        obtain ⟨d1, hset, hf1, -⟩ := hf.SetRGBA (x := x) (y := (k : Int)) hx0 hx1 (by omega)
          (by omega) (blurColor (windowSum (src.columnLine x) h R k) (iarrOf R))
        exact ⟨d1, hset, hf1⟩)
      dst hd
    refine ⟨hlen, ?_⟩
    intro s hsm c
    obtain ⟨k, -, hv⟩ := hmem s hsm
    rw [hv]
    exact window_val_in_range _ _ R k c hr (fun j => samples_range src x j c)

theorem running_sum_in_range_witness :
    ((boxBlurHorizontalRowTrace impulse5 1 (iarrOf 1) 2 (grey 5 5 fun _ _ => 0)).length = 5 ∧
      ∀ s ∈ boxBlurHorizontalRowTrace impulse5 1 (iarrOf 1) 2 (grey 5 5 fun _ _ => 0),
        ∀ c : Fin 4,
        0 ≤ s.val c ∧ s.val c ≤ 255 * (2 * 1 + 1) ∧
        0 ≤ mathRound (F64.mul (float64 (s.val c)) (iarrOf 1)) ∧
        mathRound (F64.mul (float64 (s.val c)) (iarrOf 1)) ≤ 255 ∧
        ((toUint8 (mathRound (F64.mul (float64 (s.val c)) (iarrOf 1))) : Byte) : Int) =
          mathRound (F64.mul (float64 (s.val c)) (iarrOf 1))) ∧
    ((boxBlurVerticalColumnTrace impulse5 1 (iarrOf 1) 2 (grey 5 5 fun _ _ => 0)).length = 5 ∧
      ∀ s ∈ boxBlurVerticalColumnTrace impulse5 1 (iarrOf 1) 2 (grey 5 5 fun _ _ => 0),
        ∀ c : Fin 4,
        0 ≤ s.val c ∧ s.val c ≤ 255 * (2 * 1 + 1) ∧
        0 ≤ mathRound (F64.mul (float64 (s.val c)) (iarrOf 1)) ∧
        mathRound (F64.mul (float64 (s.val c)) (iarrOf 1)) ≤ 255 ∧
        ((toUint8 (mathRound (F64.mul (float64 (s.val c)) (iarrOf 1))) : Byte) : Int) =
          mathRound (F64.mul (float64 (s.val c)) (iarrOf 1))) :=
  ⟨(running_sum_in_range impulse5 (grey 5 5 fun _ _ => 0) 5 5 1 (by decide) (by decide)
      (by decide) (by decide)).1 (by decide) 2 (by decide) (by decide),
    (running_sum_in_range impulse5 (grey 5 5 fun _ _ => 0) 5 5 1 (by decide) (by decide)
      (by decide) (by decide)).2 (by decide) 2 (by decide) (by decide)⟩

/-! ## Mirror symmetry and transposition -/

theorem clampIndex_reflect (i w : Int) (hw : 0 < w) :
    w - 1 - clampIndex i w = clampIndex (w - 1 - i) w := by
  simp only [clampIndex, max_def, min_def]
  split_ifs <;> omega

/-- The window sums of a reversed line are the window sums of the line, reversed. -/
theorem windowSum_mirror {G : Type} [AddCommMonoid G] (p q : Int → G) (w : Int) (R : Nat)
    (i : Int) (hw : 0 < w) (hpq : ∀ j, 0 ≤ j → j < w → q j = p (w - 1 - j)) :
    windowSum q w R i = windowSum p w R (w - 1 - i) := by
  unfold windowSum
  have hn : (2 * (R : Int) + 1).toNat = 2 * R + 1 := by omega
  rw [hn, ← Finset.sum_range_reflect (fun k => p (clampIndex (w - 1 - i + (k : Int) - R) w))]
  apply Finset.sum_congr rfl
  intro k hk
  simp only [Finset.mem_range] at hk
  obtain ⟨a, b⟩ := clampIndex_mem (i + (k : Int) - R) w hw
  rw [hpq _ a b, clampIndex_reflect _ _ hw]
  congr 2
  have : ((2 * R + 1 - 1 - k : Nat) : Int) = 2 * (R : Int) - k := by omega
  rw [this]
  ring

/-- A property of all positions and channels of a `w × h` raster, from its instances at
indices in `Fin`. -/
theorem forall_positions_of_fin {w h : Nat} {Q : Int → Int → Fin 4 → Prop}
    (hQ : ∀ (x : Fin w) (y : Fin h) (c : Fin 4), Q (x.val : Int) (y.val : Int) c) :
    ∀ (x y : Int) (c : Fin 4), 0 ≤ x → x < w → 0 ≤ y → y < h → Q x y c := by
  intro x y c hx0 hx1 hy0 hy1
  have := hQ ⟨x.toNat, by omega⟩ ⟨y.toNat, by omega⟩ c
  simp only [Int.toNat_of_nonneg hx0, Int.toNat_of_nonneg hy0] at this
  exact this

/-- C19: for rasters with origin `(0, 0)` that hold their `w × h` pixels, a radius `r ≥ 0`
and rows at least `2 r + 1` long: when every row of `srcM` is the corresponding row of `src`
reversed, the horizontal pass completes on both, and every row of the result for `srcM` is
the corresponding row of the result for `src` reversed, in all four channels.  Likewise for
the vertical pass and columns. -/
theorem box_blur_mirror (src srcM dst dstM : RGBA) (w h : Nat) (r : Int) (hs : src.Fits w h)
    (hsM : srcM.Fits w h) (hd : dst.Fits w h) (hdM : dstM.Fits w h) (hr0 : 0 ≤ r) :
    (2 * r + 1 ≤ w →
      (∀ (x y : Int) (c : Fin 4), 0 ≤ x → x < w → 0 ≤ y → y < h →
        srcM.get x y c = src.get ((w : Int) - 1 - x) y c) →
      ∃ d1 dM, boxBlurHorizontal src dst r = .ok d1 ∧ boxBlurHorizontal srcM dstM r = .ok dM ∧
        ∀ (x y : Int) (c : Fin 4), 0 ≤ x → x < w → 0 ≤ y → y < h →
          dM.get x y c = d1.get ((w : Int) - 1 - x) y c) ∧
    (2 * r + 1 ≤ h →
      (∀ (x y : Int) (c : Fin 4), 0 ≤ x → x < w → 0 ≤ y → y < h →
        srcM.get x y c = src.get x ((h : Int) - 1 - y) c) →
      ∃ d1 dM, boxBlurVertical src dst r = .ok d1 ∧ boxBlurVertical srcM dstM r = .ok dM ∧
        ∀ (x y : Int) (c : Fin 4), 0 ≤ x → x < w → 0 ≤ y → y < h →
          dM.get x y c = d1.get x ((h : Int) - 1 - y) c) := by
  obtain ⟨R, rfl⟩ := Int.eq_ofNat_of_zero_le hr0
  constructor
  · intro hw hmir
    obtain ⟨d1, hrun, -, -, -, hget⟩ := boxBlurHorizontal_spec src dst w h R hs hd (by omega)
    obtain ⟨dM, hrunM, -, -, -, hgetM⟩ :=
      boxBlurHorizontal_spec srcM dstM w h R hsM hdM (by omega)
    refine ⟨d1, dM, hrun, hrunM, ?_⟩
    intro x y c hx0 hx1 hy0 hy1
    rw [hgetM x y c hx0 hx1 hy0 hy1, hget ((w : Int) - 1 - x) y c (by omega) (by omega) hy0 hy1]
    congr 1
    apply windowSum_mirror _ _ _ _ _ (by omega)
    intro j hj0 hj1
    funext c1
    simp only [RGBA.rowLine]
    rw [hmir j y c1 hj0 hj1 hy0 hy1]
  · intro hh hmir
    obtain ⟨d1, hrun, -, -, -, hget⟩ := boxBlurVertical_spec src dst w h R hs hd (by omega)
    obtain ⟨dM, hrunM, -, -, -, hgetM⟩ :=
      boxBlurVertical_spec srcM dstM w h R hsM hdM (by omega)
    refine ⟨d1, dM, hrun, hrunM, ?_⟩
    intro x y c hx0 hx1 hy0 hy1
    rw [hgetM x y c hx0 hx1 hy0 hy1, hget x ((h : Int) - 1 - y) c hx0 hx1 (by omega) (by omega)]
    congr 1
    apply windowSum_mirror _ _ _ _ _ (by omega)
    intro j hj0 hj1
    funext c1
    simp only [RGBA.columnLine]
    rw [hmir x j c1 hx0 hx1 hj0 hj1]

theorem box_blur_mirror_witness :
    (∃ d1 dM,
      boxBlurHorizontal (grey 3 3 fun x y => Fin.ofNat (10 * x + y))
        (grey 3 3 fun _ _ => 0) 1 = .ok d1 ∧
      boxBlurHorizontal (grey 3 3 fun x y => Fin.ofNat (10 * (2 - x) + y))
        (grey 3 3 fun _ _ => 0) 1 = .ok dM ∧
      ∀ (x y : Int) (c : Fin 4), 0 ≤ x → x < (3 : Nat) → 0 ≤ y → y < (3 : Nat) →
        dM.get x y c = d1.get (((3 : Nat) : Int) - 1 - x) y c) ∧
    (∃ d1 dM,
      boxBlurVertical (grey 3 3 fun x y => Fin.ofNat (10 * x + y))
        (grey 3 3 fun _ _ => 0) 1 = .ok d1 ∧
      boxBlurVertical (grey 3 3 fun x y => Fin.ofNat (10 * x + (2 - y)))
        (grey 3 3 fun _ _ => 0) 1 = .ok dM ∧
      ∀ (x y : Int) (c : Fin 4), 0 ≤ x → x < (3 : Nat) → 0 ≤ y → y < (3 : Nat) →
        dM.get x y c = d1.get x (((3 : Nat) : Int) - 1 - y) c) :=
  ⟨(box_blur_mirror (grey 3 3 fun x y => Fin.ofNat (10 * x + y))
      (grey 3 3 fun x y => Fin.ofNat (10 * (2 - x) + y)) (grey 3 3 fun _ _ => 0)
      (grey 3 3 fun _ _ => 0) 3 3 1 (by decide) (by decide) (by decide) (by decide)
      (by decide)).1 (by decide) (forall_positions_of_fin (by decide)),
    (box_blur_mirror (grey 3 3 fun x y => Fin.ofNat (10 * x + y))
      (grey 3 3 fun x y => Fin.ofNat (10 * x + (2 - y))) (grey 3 3 fun _ _ => 0)
      (grey 3 3 fun _ _ => 0) 3 3 1 (by decide) (by decide) (by decide) (by decide)
      (by decide)).2 (by decide) (forall_positions_of_fin (by decide))⟩

/-- C20: for a raster `src` with origin `(0, 0)` of width `w` and height `h`, a raster
`srcT` of width `h` and height `w` that is its transpose, and a radius `r ≥ 0` with
`2 r + 1 ≤ h`: the vertical pass on `src` and the horizontal pass on `srcT` both complete,
and the result of the first is the transpose of the result of the second: pixel `(x, y)` of
one is pixel `(y, x)` of the other, in all four channels. -/
theorem boxBlurVertical_transpose (src srcT dst dstT : RGBA) (w h : Nat) (r : Int)
    (hs : src.Fits w h) (hsT : srcT.Fits h w) (hd : dst.Fits w h) (hdT : dstT.Fits h w)
    (hr0 : 0 ≤ r) (hh : 2 * r + 1 ≤ h)
    (htr : ∀ (x y : Int) (c : Fin 4), 0 ≤ x → x < w → 0 ≤ y → y < h →
      srcT.get y x c = src.get x y c) :
    ∃ d1 dT, boxBlurVertical src dst r = .ok d1 ∧ boxBlurHorizontal srcT dstT r = .ok dT ∧
      ∀ (x y : Int) (c : Fin 4), 0 ≤ x → x < w → 0 ≤ y → y < h →
        d1.get x y c = dT.get y x c := by
  obtain ⟨R, rfl⟩ := Int.eq_ofNat_of_zero_le hr0
  obtain ⟨d1, hrun, -, -, -, hget⟩ := boxBlurVertical_spec src dst w h R hs hd (by omega)
  obtain ⟨dT, hrunT, -, -, -, hgetT⟩ :=
    boxBlurHorizontal_spec srcT dstT h w R hsT hdT (by omega)
  refine ⟨d1, dT, hrun, hrunT, ?_⟩
  intro x y c hx0 hx1 hy0 hy1
  rw [hget x y c hx0 hx1 hy0 hy1, hgetT y x c hy0 hy1 hx0 hx1]
  congr 1
  apply windowSum_congr _ _ _ _ _ (by omega)
  intro j hj0 hj1
  funext c1
  simp only [RGBA.columnLine, RGBA.rowLine]
  rw [htr x j c1 hx0 hx1 hj0 hj1]

theorem boxBlurVertical_transpose_witness :
    ∃ d1 dT,
      boxBlurVertical (grey 2 3 fun x y => Fin.ofNat (10 * x + y)) (grey 2 3 fun _ _ => 0) 1
        = .ok d1 ∧
      boxBlurHorizontal (grey 3 2 fun x y => Fin.ofNat (10 * y + x)) (grey 3 2 fun _ _ => 0) 1
        = .ok dT ∧
      ∀ (x y : Int) (c : Fin 4), 0 ≤ x → x < (2 : Nat) → 0 ≤ y → y < (3 : Nat) →
        d1.get x y c = dT.get y x c :=
  boxBlurVertical_transpose (grey 2 3 fun x y => Fin.ofNat (10 * x + y))
    (grey 3 2 fun x y => Fin.ofNat (10 * y + x)) (grey 2 3 fun _ _ => 0)
    (grey 3 2 fun _ _ => 0) 2 3 1 (by decide) (by decide) (by decide) (by decide)
    (by decide) (by decide) (forall_positions_of_fin (by decide))

/-! ## Calls on pointers -/

theorem Heap.store_read (m : Heap) (r : Ref) : m.store r (m.read r) = m := by
  cases r <;> rfl

theorem Heap.read_store (m : Heap) (r : Ref) (p : RGBA) : (m.store r p).read r = p := by
  cases r <;> rfl

theorem Heap.read_store_ne (m : Heap) {r s : Ref} (h : s ≠ r) (p : RGBA) :
    (m.store r p).read s = m.read s := by
  cases r <;> cases s <;> first | rfl | exact absurd rfl h

theorem Heap.store_store (m : Heap) (r : Ref) (p q : RGBA) :
    (m.store r p).store r q = m.store r q := by
  cases r <;> rfl

theorem Heap.SetRGBA_store (m : Heap) (dst : Ref) (x y : Int) (c : Color) (d : RGBA) :
    (m.store dst d).SetRGBA dst x y c = (d.SetRGBA x y c).map (m.store dst) := by
  simp only [Heap.SetRGBA, Heap.read_store, bind, Except.bind]
  cases d.SetRGBA x y c with
  | error e => rfl
  | ok d1 => simp only [Except.map, pure, Except.pure, Heap.store_store]

theorem boxBlurHorizontalRowAt_eq_lineBlurAt (src dst : Ref) (r : Int) (iarr : F64) (y : Int)
    (m : Heap) :
    boxBlurHorizontalRowAt src dst r iarr y m =
      lineBlurAt (fun mem x => (mem.read src).pixel ((mem.read src).PixOffset x y))
        (fun mem => (mem.read src).pixel
          ((m.read src).PixOffset ((m.read src).Rect.Max.X - 1) y))
        (fun x c mem => mem.SetRGBA dst x y c)
        (m.read src).Rect.Min.X (m.read src).Rect.Max.X r iarr m := rfl

theorem boxBlurVerticalColumnAt_eq_lineBlurAt (src dst : Ref) (r : Int) (iarr : F64) (x : Int)
    (m : Heap) :
    boxBlurVerticalColumnAt src dst r iarr x m =
      lineBlurAt (fun mem y => (mem.read src).pixel ((mem.read src).PixOffset x y))
        (fun mem => (mem.read src).pixel
          ((m.read src).PixOffset x ((m.read src).Rect.Max.Y - 1)))
        (fun y c mem => mem.SetRGBA dst x y c)
        (m.read src).Rect.Min.Y (m.read src).Rect.Max.Y r iarr m := rfl

/-- A loop on one state simulates a loop on another through a map of the states. -/
theorem loopFrom_map {σ τ : Type} (g : σ → τ) (b1 : Int → σ → Except Panic σ)
    (b2 : Int → τ → Except Panic τ) (h : ∀ j s, b2 j (g s) = (b1 j s).map g) (n : Nat) :
    ∀ (j : Int) (s : σ), loopFrom b2 n j (g s) = (loopFrom b1 n j s).map g := by
  induction n with
  | zero => intro j s; rfl
  | succ n ih =>
    intro j s
    simp only [loopFrom, h]
    cases hb : b1 j s with
    | error e => rfl
    | ok s1 => exact ih (j + 1) s1

theorem forRange_map {σ τ : Type} (g : σ → τ) (b1 : Int → σ → Except Panic σ)
    (b2 : Int → τ → Except Panic τ) (h : ∀ j s, b2 j (g s) = (b1 j s).map g) (lo hi : Int)
    (s : σ) : forRange lo hi b2 (g s) = (forRange lo hi b1 s).map g :=
  loopFrom_map g b1 b2 h _ lo s

theorem leadStepAt_map (f : RGBA → Heap) (getv : Int → Except Panic (Fin 4 → Int))
    (putv : Int → Color → RGBA → Except Panic RGBA)
    (get : Heap → Int → Except Panic (Fin 4 → Int))
    (put : Int → Color → Heap → Except Panic Heap)
    (hget : ∀ d x, get (f d) x = getv x)
    (hput : ∀ x c d, put x c (f d) = (putv x c d).map f)
    (fv : Fin 4 → Int) (iarr : F64) (j : Int) (s : LineState) :
    leadStepAt get put fv iarr j (HeapLineState.ofLine f s) =
      (leadStep getv putv fv iarr j s).map (HeapLineState.ofLine f) := by
  simp only [leadStepAt, leadStep, HeapLineState.ofLine, hget, hput, bind, Except.bind]
  cases getv s.ri with
  | error e => rfl
  | ok px =>
    simp only []
    cases putv s.ti (blurColor (s.val + (px - fv)) iarr) s.dst with
    | error e => rfl
    | ok d => rfl

theorem slideStepAt_map (f : RGBA → Heap) (getv : Int → Except Panic (Fin 4 → Int))
    (putv : Int → Color → RGBA → Except Panic RGBA)
    (get : Heap → Int → Except Panic (Fin 4 → Int))
    (put : Int → Color → Heap → Except Panic Heap)
    (hget : ∀ d x, get (f d) x = getv x)
    (hput : ∀ x c d, put x c (f d) = (putv x c d).map f)
    (iarr : F64) (j : Int) (s : LineState) :
    slideStepAt get put iarr j (HeapLineState.ofLine f s) =
      (slideStep getv putv iarr j s).map (HeapLineState.ofLine f) := by
  simp only [slideStepAt, slideStep, HeapLineState.ofLine, hget, hput, bind, Except.bind]
  cases getv s.ri with
  | error e => rfl
  | ok rpx =>
    simp only []
    cases getv s.li with
    | error e => rfl
    | ok lpx =>
      simp only []
      cases putv s.ti (blurColor (s.val + (rpx - lpx)) iarr) s.dst with
      | error e => rfl
      | ok d => rfl

theorem trailStepAt_map (f : RGBA → Heap) (getv : Int → Except Panic (Fin 4 → Int))
    (putv : Int → Color → RGBA → Except Panic RGBA)
    (get : Heap → Int → Except Panic (Fin 4 → Int))
    (getLast : Heap → Except Panic (Fin 4 → Int))
    (put : Int → Color → Heap → Except Panic Heap) (lv : Int)
    (hget : ∀ d x, get (f d) x = getv x) (hlast : ∀ d, getLast (f d) = getv lv)
    (hput : ∀ x c d, put x c (f d) = (putv x c d).map f)
    (iarr : F64) (j : Int) (s : LineState) :
    trailStepAt get getLast put iarr j (HeapLineState.ofLine f s) =
      (trailStep getv putv lv iarr j s).map (HeapLineState.ofLine f) := by
  simp only [trailStepAt, trailStep, HeapLineState.ofLine, hget, hlast, hput, bind, Except.bind]
  cases getv lv with
  | error e => rfl
  | ok lvpx =>
    simp only []
    cases getv s.li with
    | error e => rfl
    | ok px =>
      simp only []
      cases putv s.ti (blurColor (s.val + (lvpx - px)) iarr) s.dst with
      | error e => rfl
      | ok d => rfl

/-- The scan-line loops on pointers do what the scan-line loops by value do, when the reads
do not depend on the destination and the writes go to the destination only. -/
theorem lineBlurAt_map (f : RGBA → Heap) (getv : Int → Except Panic (Fin 4 → Int))
    (putv : Int → Color → RGBA → Except Panic RGBA)
    (get : Heap → Int → Except Panic (Fin 4 → Int))
    (getLast : Heap → Except Panic (Fin 4 → Int))
    (put : Int → Color → Heap → Except Panic Heap) (lo hi r : Int)
    (hget : ∀ d x, get (f d) x = getv x) (hlast : ∀ d, getLast (f d) = getv (hi - 1))
    (hput : ∀ x c d, put x c (f d) = (putv x c d).map f)
    (iarr : F64) (d : RGBA) :
    lineBlurAt get getLast put lo hi r iarr (f d) = (lineBlur getv putv lo hi r iarr d).map f := by
  have hg : get (f d) = getv := funext (hget d)
  simp only [lineBlurAt, lineBlur, hg, bind, Except.bind]
  cases getv lo with
  | error e => rfl
  | ok fv =>
    simp only []
    cases forRange 0 r (accumulateStep getv lo) ((r + 1) • fv) with
    | error e => rfl
    | ok val =>
      simp only []
      have e1 := forRange_map (HeapLineState.ofLine f) (leadStep getv putv fv iarr)
        (leadStepAt get put fv iarr) (leadStepAt_map f getv putv get put hget hput fv iarr)
        0 (r + 1) { ti := lo, li := lo, ri := lo + r, val := val, dst := d }
      have e0 : HeapLineState.ofLine f { ti := lo, li := lo, ri := lo + r, val := val, dst := d } =
          { ti := lo, li := lo, ri := lo + r, val := val, mem := f d } := rfl
      rw [e0] at e1
      rw [e1]
      cases forRange 0 (r + 1) (leadStep getv putv fv iarr)
          { ti := lo, li := lo, ri := lo + r, val := val, dst := d } with
      | error e => rfl
      | ok s1 =>
        simp only [Except.map]
        rw [forRange_map (HeapLineState.ofLine f) (slideStep getv putv iarr)
          (slideStepAt get put iarr) (slideStepAt_map f getv putv get put hget hput iarr)]
        cases forRange (r + 1) (hi - r) (slideStep getv putv iarr) s1 with
        | error e => rfl
        | ok s2 =>
          simp only [Except.map]
          rw [forRange_map (HeapLineState.ofLine f) (trailStep getv putv (hi - 1) iarr)
            (trailStepAt get getLast put iarr)
            (trailStepAt_map f getv putv get getLast put (hi - 1) hget hlast hput iarr)]
          cases forRange (hi - r) hi (trailStep getv putv (hi - 1) iarr) s2 with
          | error e => rfl
          | ok s3 => rfl

/-! ## What a line's work leaves unchanged -/

theorem Heap.SetRGBA_ok {m m1 : Heap} {dst : Ref} {x y : Int} {c : Color}
    (h : m.SetRGBA dst x y c = .ok m1) :
    ∃ d1, (m.read dst).SetRGBA x y c = .ok d1 ∧ m1 = m.store dst d1 := by
  unfold Heap.SetRGBA at h
  simp only [bind, Except.bind, pure, Except.pure] at h
  cases hd : (m.read dst).SetRGBA x y c with
  | error e => rw [hd] at h; simp at h
  | ok d1 =>
    rw [hd] at h
    simp only [Except.ok.injEq] at h
    exact ⟨d1, rfl, h.symm⟩

theorem leadStepAt_preserves {get : Heap → Int → Except Panic (Fin 4 → Int)}
    {put : Int → Color → Heap → Except Panic Heap} (Q : Heap → Prop)
    (hput : ∀ (k : Int) (c : Color) (m m1 : Heap), put k c m = .ok m1 → Q m → Q m1)
    (fv : Fin 4 → Int) (iarr : F64) (j : Int) (s s1 : HeapLineState)
    (h : leadStepAt get put fv iarr j s = .ok s1) (hQ : Q s.mem) : Q s1.mem := by
  unfold leadStepAt at h
  simp only [bind, Except.bind, pure, Except.pure] at h
  cases hg : get s.mem s.ri with
  | error e => rw [hg] at h; simp at h
  | ok px =>
    rw [hg] at h
    simp only [] at h
    cases hp : put s.ti (blurColor (s.val + (px - fv)) iarr) s.mem with
    | error e => rw [hp] at h; simp at h
    | ok d1 =>
      rw [hp] at h
      simp only [Except.ok.injEq] at h
      rw [← h]
      exact hput _ _ _ _ hp hQ

theorem slideStepAt_preserves {get : Heap → Int → Except Panic (Fin 4 → Int)}
    {put : Int → Color → Heap → Except Panic Heap} (Q : Heap → Prop)
    (hput : ∀ (k : Int) (c : Color) (m m1 : Heap), put k c m = .ok m1 → Q m → Q m1)
    (iarr : F64) (j : Int) (s s1 : HeapLineState)
    (h : slideStepAt get put iarr j s = .ok s1) (hQ : Q s.mem) : Q s1.mem := by
  unfold slideStepAt at h
  simp only [bind, Except.bind, pure, Except.pure] at h
  cases hg : get s.mem s.ri with
  | error e => rw [hg] at h; simp at h
  | ok rpx =>
    rw [hg] at h
    simp only [] at h
    cases hl : get s.mem s.li with
    | error e => rw [hl] at h; simp at h
    | ok lpx =>
      rw [hl] at h
      simp only [] at h
      cases hp : put s.ti (blurColor (s.val + (rpx - lpx)) iarr) s.mem with
      | error e => rw [hp] at h; simp at h
      | ok d1 =>
        rw [hp] at h
        simp only [Except.ok.injEq] at h
        rw [← h]
        exact hput _ _ _ _ hp hQ

theorem trailStepAt_preserves {get : Heap → Int → Except Panic (Fin 4 → Int)}
    {getLast : Heap → Except Panic (Fin 4 → Int)}
    {put : Int → Color → Heap → Except Panic Heap} (Q : Heap → Prop)
    (hput : ∀ (k : Int) (c : Color) (m m1 : Heap), put k c m = .ok m1 → Q m → Q m1)
    (iarr : F64) (j : Int) (s s1 : HeapLineState)
    (h : trailStepAt get getLast put iarr j s = .ok s1) (hQ : Q s.mem) : Q s1.mem := by
  unfold trailStepAt at h
  simp only [bind, Except.bind, pure, Except.pure] at h
  cases hg : getLast s.mem with
  | error e => rw [hg] at h; simp at h
  | ok lvpx =>
    rw [hg] at h
    simp only [] at h
    cases hl : get s.mem s.li with
    | error e => rw [hl] at h; simp at h
    | ok px =>
      rw [hl] at h
      simp only [] at h
      cases hp : put s.ti (blurColor (s.val + (lvpx - px)) iarr) s.mem with
      | error e => rw [hp] at h; simp at h
      | ok d1 =>
        rw [hp] at h
        simp only [Except.ok.injEq] at h
        rw [← h]
        exact hput _ _ _ _ hp hQ

/-- Whatever the scan-line algorithm does, a property of the objects that every store
preserves holds of its result; source and destination may be one object. -/
theorem lineBlurAt_preserves (get : Heap → Int → Except Panic (Fin 4 → Int))
    (getLast : Heap → Except Panic (Fin 4 → Int))
    (put : Int → Color → Heap → Except Panic Heap) (Q : Heap → Prop)
    (hput : ∀ (k : Int) (c : Color) (m m1 : Heap), put k c m = .ok m1 → Q m → Q m1)
    (lo hi r : Int) (iarr : F64) (m m1 : Heap)
    (h : lineBlurAt get getLast put lo hi r iarr m = .ok m1) (hQ : Q m) : Q m1 := by
  unfold lineBlurAt at h
  simp only [bind, Except.bind, pure, Except.pure, forRange] at h
  cases hfv : get m lo with
  | error e => rw [hfv] at h; simp at h
  | ok fv =>
    rw [hfv] at h
    simp only [] at h
    cases h1 : loopFrom (accumulateStep (get m) lo) (r - 0).toNat 0 ((r + 1) • fv) with
    | error e => rw [h1] at h; simp at h
    | ok val =>
      rw [h1] at h
      simp only [] at h
      cases h2 : loopFrom (leadStepAt get put fv iarr) (r + 1 - 0).toNat 0
          { ti := lo, li := lo, ri := lo + r, val := val, mem := m } with
      | error e => rw [h2] at h; simp at h
      | ok s2 =>
        rw [h2] at h
        simp only [] at h
        have Q2 : Q s2.mem := loopFrom_preserves _ (fun s => Q s.mem)
          (fun j s s1 hs => leadStepAt_preserves Q hput fv iarr j s s1 hs) _ _ _ _ h2 hQ
        cases h3 : loopFrom (slideStepAt get put iarr) (hi - r - (r + 1)).toNat (r + 1) s2 with
        | error e => rw [h3] at h; simp at h
        | ok s3 =>
          rw [h3] at h
          simp only [] at h
          have Q3 : Q s3.mem := loopFrom_preserves _ (fun s => Q s.mem)
            (fun j s s1 hs => slideStepAt_preserves Q hput iarr j s s1 hs) _ _ _ _ h3 Q2
          cases h4 : loopFrom (trailStepAt get getLast put iarr) (hi - (hi - r)).toNat
              (hi - r) s3 with
          | error e => rw [h4] at h; simp at h
          | ok s4 =>
            rw [h4] at h
            simp only [Except.ok.injEq] at h
            have Q4 : Q s4.mem := loopFrom_preserves _ (fun s => Q s.mem)
              (fun j s s1 hs => trailStepAt_preserves Q hput iarr j s s1 hs) _ _ _ _
              h4 Q3
            rw [← h]; exact Q4

/-- What the stores of a line's work into `dst` preserve: the destination keeps fitting, its
pixels off the line (`off x1 y1`) keep their samples, and every other object stays as it is. -/
theorem line_stores_frame (dst : Ref) (m : Heap) (w h : Nat) (off : Int → Int → Prop)
    (put : Int → Color → Heap → Except Panic Heap)
    (hput : ∀ (k : Int) (c : Color) (m1 m2 : Heap), put k c m1 = .ok m2 →
      ∃ x y d, ¬ off x y ∧ (m1.read dst).SetRGBA x y c = .ok d ∧ m2 = m1.store dst d)
    (k : Int) (c : Color) (m1 m2 : Heap) (hrun : put k c m1 = .ok m2)
    (hQ : (m1.read dst).Fits w h ∧
      (∀ (x1 y1 : Int) (c : Fin 4), 0 ≤ x1 → x1 < w → 0 ≤ y1 → y1 < h → off x1 y1 →
        (m1.read dst).get x1 y1 c = (m.read dst).get x1 y1 c) ∧
      ∀ o : Ref, o ≠ dst → m1.read o = m.read o) :
    (m2.read dst).Fits w h ∧
      (∀ (x1 y1 : Int) (c : Fin 4), 0 ≤ x1 → x1 < w → 0 ≤ y1 → y1 < h → off x1 y1 →
        (m2.read dst).get x1 y1 c = (m.read dst).get x1 y1 c) ∧
      ∀ o : Ref, o ≠ dst → m2.read o = m.read o := by
  obtain ⟨hf, hfr, hoth⟩ := hQ
  obtain ⟨x, y, d, hxy, hset, rfl⟩ := hput k c m1 m2 hrun
  obtain ⟨hf2, hfr2⟩ := SetRGBA_frame hf x y c hset
  rw [Heap.read_store]
  refine ⟨hf2, ?_, ?_⟩
  · intro x1 y1 c1 hx0 hx1 hy0 hy1 hoff
    rw [hfr2 x1 y1 c1 hx0 hx1 hy0 hy1 (fun hc => hxy (by rw [← hc.1, ← hc.2]; exact hoff)),
      hfr x1 y1 c1 hx0 hx1 hy0 hy1 hoff]
  · intro o ho
    rw [Heap.read_store_ne m1 ho, hoth o ho]

theorem boxBlurHorizontalRowAt_distinct (src dst : Ref) (hne : src ≠ dst) (r : Int) (iarr : F64)
    (y : Int) (m : Heap) :
    boxBlurHorizontalRowAt src dst r iarr y m =
      (boxBlurHorizontalRow (m.read src) r iarr y (m.read dst)).map (m.store dst) := by
  rw [boxBlurHorizontalRowAt_eq_lineBlurAt, boxBlurHorizontalRow_eq_lineBlur]
  have h := lineBlurAt_map (m.store dst)
    (fun x => (m.read src).pixel ((m.read src).PixOffset x y)) (fun x c d => d.SetRGBA x y c)
    (fun mem x => (mem.read src).pixel ((mem.read src).PixOffset x y))
    (fun mem => (mem.read src).pixel ((m.read src).PixOffset ((m.read src).Rect.Max.X - 1) y))
    (fun x c mem => mem.SetRGBA dst x y c)
    (m.read src).Rect.Min.X (m.read src).Rect.Max.X r
    (by intro d x; simp only [Heap.read_store_ne m hne])
    (by intro d; simp only [Heap.read_store_ne m hne])
    (by intro x c d; exact Heap.SetRGBA_store m dst x y c d)
    iarr (m.read dst)
  rw [Heap.store_read] at h
  exact h

theorem boxBlurVerticalColumnAt_distinct (src dst : Ref) (hne : src ≠ dst) (r : Int)
    (iarr : F64) (x : Int) (m : Heap) :
    boxBlurVerticalColumnAt src dst r iarr x m =
      (boxBlurVerticalColumn (m.read src) r iarr x (m.read dst)).map (m.store dst) := by
  rw [boxBlurVerticalColumnAt_eq_lineBlurAt, boxBlurVerticalColumn_eq_lineBlur]
  have h := lineBlurAt_map (m.store dst)
    (fun y => (m.read src).pixel ((m.read src).PixOffset x y)) (fun y c d => d.SetRGBA x y c)
    (fun mem y => (mem.read src).pixel ((mem.read src).PixOffset x y))
    (fun mem => (mem.read src).pixel ((m.read src).PixOffset x ((m.read src).Rect.Max.Y - 1)))
    (fun y c mem => mem.SetRGBA dst x y c)
    (m.read src).Rect.Min.Y (m.read src).Rect.Max.Y r
    (by intro d y; simp only [Heap.read_store_ne m hne])
    (by intro d; simp only [Heap.read_store_ne m hne])
    (by intro y c d; exact Heap.SetRGBA_store m dst x y c d)
    iarr (m.read dst)
  rw [Heap.store_read] at h
  exact h

/-- C17 (the claim as stated fails): when the source and the destination of a pass are one
object, as in the passes that `Gaussian(img, img, …)` runs, the work for a row stores into its
source: on the 3×1 raster with the grey levels 0, 100, 200 the work of `boxBlurHorizontal` for
row 0 with radius 1 leaves the grey levels 33, 100, 156 in it. -/
theorem box_blur_writes_aliased_source :
    boxBlurHorizontalRowAt .fst .fst 1 (iarrOf 1) 0 ⟨ramp3, ramp3⟩ =
      .ok ⟨{ ramp3 with Pix := [33, 33, 33, 255, 100, 100, 100, 255, 156, 156, 156, 255] },
        ramp3⟩ ∧
    ramp3.Pix = [0, 0, 0, 255, 100, 100, 100, 255, 200, 200, 200, 255] := by
  refine ⟨by decide!, by decide⟩

/-- C17 (amended): on a destination with origin `(0, 0)` that holds its `w × h` pixels, for
every radius and every line index, whenever the work of `boxBlurHorizontal` for row `y`
completes it has changed no destination pixel outside row `y`, and whenever the work of
`boxBlurVertical` for column `x` completes it has changed no destination pixel outside column
`x`; every object other than the destination is left as it was, so that a source that is
another object than the destination, with a pixel buffer of its own, is not written at all.
For such a source of the same size and `0 ≤ r`, `2 r + 1 ≤ w` (resp. `≤ h`) the work of every
line completes. -/
theorem box_blur_line_frame (src dst : Ref) (m : Heap) (w h : Nat) (r : Int) (iarr : F64)
    (hd : (m.read dst).Fits w h) :
    (∀ (y : Int) (m1 : Heap), boxBlurHorizontalRowAt src dst r iarr y m = .ok m1 →
      (∀ (x1 y1 : Int) (c : Fin 4), 0 ≤ x1 → x1 < w → 0 ≤ y1 → y1 < h → y1 ≠ y →
        (m1.read dst).get x1 y1 c = (m.read dst).get x1 y1 c) ∧
      (src ≠ dst → m1.read src = m.read src)) ∧
    (∀ (x : Int) (m1 : Heap), boxBlurVerticalColumnAt src dst r iarr x m = .ok m1 →
      (∀ (x1 y1 : Int) (c : Fin 4), 0 ≤ x1 → x1 < w → 0 ≤ y1 → y1 < h → x1 ≠ x →
        (m1.read dst).get x1 y1 c = (m.read dst).get x1 y1 c) ∧
      (src ≠ dst → m1.read src = m.read src)) ∧
    (src ≠ dst → (m.read src).Fits w h → 0 ≤ r → 2 * r + 1 ≤ w → ∀ y : Int, 0 ≤ y → y < h →
      ∃ m1, boxBlurHorizontalRowAt src dst r iarr y m = .ok m1) ∧
    (src ≠ dst → (m.read src).Fits w h → 0 ≤ r → 2 * r + 1 ≤ h → ∀ x : Int, 0 ≤ x → x < w →
      ∃ m1, boxBlurVerticalColumnAt src dst r iarr x m = .ok m1) := by
  refine ⟨?_, ?_, ?_, ?_⟩
  · intro y m1 hrun
    rw [boxBlurHorizontalRowAt_eq_lineBlurAt] at hrun
    have key := lineBlurAt_preserves _ _ (fun x c mem => mem.SetRGBA dst x y c)
      (fun m1 => (m1.read dst).Fits w h ∧
        (∀ (x1 y1 : Int) (c : Fin 4), 0 ≤ x1 → x1 < w → 0 ≤ y1 → y1 < h → y1 ≠ y →
          (m1.read dst).get x1 y1 c = (m.read dst).get x1 y1 c) ∧
        ∀ o : Ref, o ≠ dst → m1.read o = m.read o)
      (line_stores_frame dst m w h (fun _ y1 => y1 ≠ y) _ (by
        intro k c m1 m2 hp
        obtain ⟨d, hset, hm2⟩ := Heap.SetRGBA_ok hp
        exact ⟨k, y, d, fun hc => hc rfl, hset, hm2⟩))
      _ _ _ _ _ _ hrun ⟨hd, fun _ _ _ _ _ _ _ _ => rfl, fun _ _ => rfl⟩
    exact ⟨key.2.1, fun hne => key.2.2 src hne⟩
  · intro x m1 hrun
    rw [boxBlurVerticalColumnAt_eq_lineBlurAt] at hrun
    have key := lineBlurAt_preserves _ _ (fun y c mem => mem.SetRGBA dst x y c)
      (fun m1 => (m1.read dst).Fits w h ∧
        (∀ (x1 y1 : Int) (c : Fin 4), 0 ≤ x1 → x1 < w → 0 ≤ y1 → y1 < h → x1 ≠ x →
          (m1.read dst).get x1 y1 c = (m.read dst).get x1 y1 c) ∧
        ∀ o : Ref, o ≠ dst → m1.read o = m.read o)
      (line_stores_frame dst m w h (fun x1 _ => x1 ≠ x) _ (by
        intro k c m1 m2 hp
        obtain ⟨d, hset, hm2⟩ := Heap.SetRGBA_ok hp
        exact ⟨x, k, d, fun hc => hc rfl, hset, hm2⟩))
      _ _ _ _ _ _ hrun ⟨hd, fun _ _ _ _ _ _ _ _ => rfl, fun _ _ => rfl⟩
    exact ⟨key.2.1, fun hne => key.2.2 src hne⟩
  · intro hne hs hr0 hw y hy0 hy1
    obtain ⟨R, rfl⟩ := Int.eq_ofNat_of_zero_le hr0
    obtain ⟨d1, hrun, -⟩ := boxBlurHorizontalRow_spec (m.read src) (m.read dst) w h R iarr hs hd
      (by omega) y hy0 hy1
    exact ⟨m.store dst d1, by rw [boxBlurHorizontalRowAt_distinct src dst hne, hrun]; rfl⟩
  · intro hne hs hr0 hh x hx0 hx1
    obtain ⟨R, rfl⟩ := Int.eq_ofNat_of_zero_le hr0
    obtain ⟨d1, hrun, -⟩ := boxBlurVerticalColumn_spec (m.read src) (m.read dst) w h R iarr hs
      hd (by omega) x hx0 hx1
    exact ⟨m.store dst d1, by rw [boxBlurVerticalColumnAt_distinct src dst hne, hrun]; rfl⟩

theorem box_blur_line_frame_witness :
    (∃ m1, boxBlurHorizontalRowAt .fst .snd 1 (iarrOf 1) 2 ⟨impulse5, zeroRGBA 5 5⟩ = .ok m1 ∧
      (∀ (x1 y1 : Int) (c : Fin 4), 0 ≤ x1 → x1 < (5 : Nat) → 0 ≤ y1 → y1 < (5 : Nat) →
        y1 ≠ 2 → (m1.read .snd).get x1 y1 c = (zeroRGBA 5 5).get x1 y1 c) ∧
      m1.read .fst = impulse5) ∧
    (∃ m1, boxBlurVerticalColumnAt .fst .snd 1 (iarrOf 1) 2 ⟨impulse5, zeroRGBA 5 5⟩ = .ok m1 ∧
      (∀ (x1 y1 : Int) (c : Fin 4), 0 ≤ x1 → x1 < (5 : Nat) → 0 ≤ y1 → y1 < (5 : Nat) →
        x1 ≠ 2 → (m1.read .snd).get x1 y1 c = (zeroRGBA 5 5).get x1 y1 c) ∧
      m1.read .fst = impulse5) :=
  ⟨((box_blur_line_frame .fst .snd ⟨impulse5, zeroRGBA 5 5⟩ 5 5 1 (iarrOf 1)
      (by decide)).2.2.1 (by decide) (by decide) (by decide) (by decide) 2 (by decide)
      (by decide)).imp
      fun m1 hrun => ⟨hrun,
        ((box_blur_line_frame .fst .snd ⟨impulse5, zeroRGBA 5 5⟩ 5 5 1 (iarrOf 1)
          (by decide)).1 2 m1 hrun).1,
        ((box_blur_line_frame .fst .snd ⟨impulse5, zeroRGBA 5 5⟩ 5 5 1 (iarrOf 1)
          (by decide)).1 2 m1 hrun).2 (by decide)⟩,
    ((box_blur_line_frame .fst .snd ⟨impulse5, zeroRGBA 5 5⟩ 5 5 1 (iarrOf 1)
      (by decide)).2.2.2 (by decide) (by decide) (by decide) (by decide) 2 (by decide)
      (by decide)).imp
      fun m1 hrun => ⟨hrun,
        ((box_blur_line_frame .fst .snd ⟨impulse5, zeroRGBA 5 5⟩ 5 5 1 (iarrOf 1)
          (by decide)).2.1 2 m1 hrun).1,
        ((box_blur_line_frame .fst .snd ⟨impulse5, zeroRGBA 5 5⟩ 5 5 1 (iarrOf 1)
          (by decide)).2.1 2 m1 hrun).2 (by decide)⟩⟩

/-! ## `Gaussian` on pointers -/

theorem boxBlurHorizontalAt_distinct (src dst : Ref) (hne : src ≠ dst) (r : Int) (m : Heap) :
    boxBlurHorizontalAt src dst r m =
      (boxBlurHorizontal (m.read src) (m.read dst) r).map (m.store dst) := by
  have hst : ∀ d, (m.store dst d).store dst = m.store dst :=
    fun d => funext (Heap.store_store m dst d)
  have h := forRange_map (m.store dst)
    (boxBlurHorizontalRow (m.read src) r (F64.div ⟨1, 0⟩ (float64 (r + r + 1))))
    (boxBlurHorizontalRowAt src dst r (F64.div ⟨1, 0⟩ (float64 (r + r + 1))))
    (by
      intro j d
      rw [boxBlurHorizontalRowAt_distinct src dst hne, Heap.read_store_ne m hne,
        Heap.read_store, hst])
    0 ((m.read src).Rect.Max.Y - (m.read src).Rect.Min.Y) (m.read dst)
  rw [Heap.store_read] at h
  exact h

theorem boxBlurVerticalAt_distinct (src dst : Ref) (hne : src ≠ dst) (r : Int) (m : Heap) :
    boxBlurVerticalAt src dst r m =
      (boxBlurVertical (m.read src) (m.read dst) r).map (m.store dst) := by
  have hst : ∀ d, (m.store dst d).store dst = m.store dst :=
    fun d => funext (Heap.store_store m dst d)
  have h := forRange_map (m.store dst)
    (boxBlurVerticalColumn (m.read src) r (F64.div ⟨1, 0⟩ (float64 (r + r + 1))))
    (boxBlurVerticalColumnAt src dst r (F64.div ⟨1, 0⟩ (float64 (r + r + 1))))
    (by
      intro j d
      rw [boxBlurVerticalColumnAt_distinct src dst hne, Heap.read_store_ne m hne,
        Heap.read_store, hst])
    0 ((m.read src).Rect.Max.X - (m.read src).Rect.Min.X) (m.read dst)
  rw [Heap.store_read] at h
  exact h

theorem cloneAt_distinct (src dst : Ref) (hne : src ≠ dst) (m : Heap) :
    cloneAt src dst m = (clone (.rgba (m.read src))).map (m.store dst) := by
  unfold cloneAt clone
  simp only [Image.Bounds, Heap.read_store_ne m hne, Heap.store_store]
  split_ifs
  · rfl
  · simp only [bind, Except.bind, pure, Except.pure]
    cases (List.range (m.read src).Rect.Dy.toNat).mapM fun (j : Nat) =>
        (Image.rgba (m.read src)).row (m.read src).Rect ((m.read src).Rect.Min.Y + (j : Int)) with
    | error e => rfl
    | ok rows => rfl

theorem gaussianStepAt_distinct (s d : RGBA) (box : Int) :
    gaussianStepAt .fst .snd ⟨s, d⟩ box =
      (gaussianStep (s, d) box).map fun q => ⟨q.1, q.2⟩ := by
  unfold gaussianStepAt gaussianStep
  rw [boxBlurHorizontalAt_distinct .snd .fst (by decide)]
  simp only [Heap.read, bind, Except.bind]
  cases boxBlurHorizontal d s ((box - 1).tdiv 2) with
  | error e => rfl
  | ok s1 =>
    simp only [Except.map, Heap.store]
    rw [boxBlurVerticalAt_distinct .fst .snd (by decide)]
    simp only [Heap.read]
    cases boxBlurVertical s1 d ((box - 1).tdiv 2) with
    | error e => rfl
    | ok d1 => rfl

theorem gaussianFoldAt_distinct (sizes : List Int) :
    ∀ (s d : RGBA), sizes.foldlM (gaussianStepAt .fst .snd) ⟨s, d⟩ =
      (sizes.foldlM gaussianStep (s, d)).map fun q => ⟨q.1, q.2⟩ := by
  induction sizes with
  | nil => intro s d; rfl
  | cons box rest ih =>
    intro s d
    rw [List.foldlM_cons, List.foldlM_cons, gaussianStepAt_distinct]
    cases gaussianStep (s, d) box with
    | error e => rfl
    | ok q => exact ih q.1 q.2

/-- The call by value is the call on pointers to two different objects: `Gaussian` with an
`*image.RGBA` source `p` and a destination `d` that is another object leaves the two objects
as `GaussianAt` leaves them. -/
theorem Gaussian_eq_GaussianAt (p d : RGBA) (sigma boxes : Int) :
    Gaussian (.rgba p) (some d) sigma boxes =
      (GaussianAt .fst .snd sigma boxes ⟨p, d⟩).map fun m => (.rgba m.fst, m.snd) := by
  unfold Gaussian GaussianAt
  rw [cloneAt_distinct .fst .snd (by decide)]
  simp only [Heap.read, Option.isNone_some, bind, Except.bind, pure, Except.pure]
  cases clone (.rgba p) with
  | error e => rfl
  | ok a =>
    simp only [Except.map, Heap.store]
    cases sigma2BoxDimension sigma boxes with
    | error e => rfl
    | ok sizes =>
      simp only []
      rw [gaussianFoldAt_distinct]
      cases sizes.foldlM gaussianStep (p, a) with
      | error e => rfl
      | ok q => rfl

theorem cloneAt_impulse3_in_place :
    cloneAt .fst .fst ⟨impulse3, impulse3⟩ = .ok ⟨zeroRGBA 3 3, impulse3⟩ := by decide!

theorem gaussianStepAt_zero_in_place :
    gaussianStepAt .fst .fst ⟨zeroRGBA 3 3, impulse3⟩ 3 = .ok ⟨zeroRGBA 3 3, impulse3⟩ := by
  decide!

theorem referenceStep_impulse3 :
    referenceStep impulse3 3 = .ok (grey 3 3 fun _ _ => 28) := by decide!

theorem referenceStep_grey28 :
    referenceStep (grey 3 3 fun _ _ => 28) 3 = .ok (grey 3 3 fun _ _ => 28) := by decide!

/-- C9 (the claim as stated fails): for the 3×3 raster with a white centre passed both as
source and as destination, `sigma = 1` and three passes, every planned radius `r = 1`
satisfies `2 r + 1 ≤ min 3 3`, and `Gaussian` leaves that raster all zero, while a copy of the
source pixels blurred by the planned passes is the grey level 28 everywhere, alpha 255. -/
theorem Gaussian_in_place_zeroes :
    sigma2BoxDimension 1 3 = .ok [3, 3, 3] ∧
    (∀ box ∈ [(3 : Int), 3, 3], 2 * (box - 1).tdiv 2 + 1 ≤ min (3 : Int) 3) ∧
    GaussianInPlace impulse3 1 3 = .ok (zeroRGBA 3 3) ∧
    clone (.rgba impulse3) = .ok impulse3 ∧
    referenceBlur impulse3 [3, 3, 3] = .ok (grey 3 3 fun _ _ => 28) ∧
    zeroRGBA 3 3 ≠ grey 3 3 fun _ _ => 28 := by
  refine ⟨sigma2BoxDimension_one_three, by decide, ?_, by decide!, ?_, by decide⟩
  · unfold GaussianInPlace GaussianAt
    rw [cloneAt_impulse3_in_place, sigma2BoxDimension_one_three]
    simp only [bind, Except.bind, List.foldlM_cons, List.foldlM_nil,
      gaussianStepAt_zero_in_place]
    rfl
  · unfold referenceBlur
    simp only [List.foldlM_cons, List.foldlM_nil, referenceStep_impulse3, referenceStep_grey28,
      bind, Except.bind]
    rfl

end Ficblur
